import Mathlib

/-!
Verification of the metastore index engine
(`pkg/experiment/metastore/index/index.go`).

The Go code is shallowly embedded: pointers and in-place map mutation become
explicit state passing over association lists; `time.Now()` becomes an
explicit `now : Int` argument (milliseconds); the backing bbolt `Store` is an
explicit value threaded through every operation.  Components of the
repository that are not part of the given source (the partition-key codec and
`PartitionMeta` from the `store` package) are modelled from the spec, as
marked on their doc comments.
-/

set_option autoImplicit false

namespace Pyroscope

/-- Block identifier.  A ULID is a time-prefixed identifier; `time` models the
embedded creation timestamp in milliseconds
(`ulid.Time(ulid.MustParse(id).Time()).UTC().UnixMilli()`),
`rand` models the entropy part. -/
structure BlockId where
  time : Int
  rand : Nat
deriving DecidableEq, Repr

/-- A dataset of a mixed block (`metastorev1.Dataset`), reduced to the only
field the index reads. -/
structure Dataset where
  TenantId : String
deriving DecidableEq, Repr

/-- `metastorev1.BlockMeta`, reduced to the fields the index reads. -/
structure BlockMeta where
  Id : BlockId
  Shard : Nat
  TenantId : String
  MinTime : Int
  MaxTime : Int
  Datasets : List Dataset
deriving DecidableEq, Repr

/-- `metastorev1.BlockList`. -/
structure BlockList where
  Shard : Nat
  Tenant : String
  Blocks : List BlockId
deriving DecidableEq, Repr

/-- `metastorev1.CompactedBlocks`, reduced to the fields `ReplaceBlocks`
reads. -/
structure CompactedBlocks where
  NewBlocks : List BlockMeta
  SourceBlocks : BlockList
deriving DecidableEq, Repr

/-- Modelled from the spec: `store.PartitionKey` is a pair `(Ts, Duration)`
rendered as a string; `Parse` recovers exactly the pair, so the key is
modelled as the pair itself. -/
structure PartitionKey where
  ts : Int
  duration : Int
deriving DecidableEq, Repr

/-- Modelled from the spec: `store.CreatePartitionKey(blockId, duration)`
floors the creation timestamp embedded in the block id to a multiple of the
partition duration. -/
def createPartitionKey (id : BlockId) (d : Int) : PartitionKey :=
  ⟨(id.time / d) * d, d⟩

/-- Modelled from the spec: `PartitionMeta` carries the key, the parsed
`(Ts, Duration)` pair and the set of tenants that have contributed blocks
(the `Tenants` slice together with its `tenantMap`, modelled as one
duplicate-free list). -/
structure PartitionMeta where
  Key : PartitionKey
  Ts : Int
  Duration : Int
  Tenants : List String
deriving DecidableEq, Repr

/-- Modelled from the spec: `AddTenant` idempotently inserts into the tenant
set. -/
def PartitionMeta.AddTenant (m : PartitionMeta) (t : String) : PartitionMeta :=
  if t ∈ m.Tenants then m else { m with Tenants := m.Tenants ++ [t] }

/-- Modelled from the spec: `HasTenant` membership test. -/
def PartitionMeta.HasTenant (m : PartitionMeta) (t : String) : Prop :=
  t ∈ m.Tenants

instance (m : PartitionMeta) (t : String) : Decidable (m.HasTenant t) :=
  inferInstanceAs (Decidable (t ∈ m.Tenants))

/-- Modelled from the spec: `contains(t)` is `Ts ≤ t < Ts + Duration`. -/
def PartitionMeta.contains (m : PartitionMeta) (t : Int) : Prop :=
  m.Ts ≤ t ∧ t < m.Ts + m.Duration

instance (m : PartitionMeta) (t : Int) : Decidable (m.contains t) :=
  inferInstanceAs (Decidable (_ ∧ _))

/-- Modelled from the spec: `overlaps(a, b)` is `Ts < b ∧ Ts + Duration > a`. -/
def PartitionMeta.overlaps (m : PartitionMeta) (a b : Int) : Prop :=
  m.Ts < b ∧ a < m.Ts + m.Duration

instance (m : PartitionMeta) (a b : Int) : Decidable (m.overlaps a b) :=
  inferInstanceAs (Decidable (_ ∧ _))

/-- Modelled from the spec: `compare(other)` orders partition metas by `Ts`,
then by `Duration` (non-strict form, used by the sorting routine). -/
def pmLe (a b : PartitionMeta) : Prop :=
  a.Ts < b.Ts ∨ (a.Ts = b.Ts ∧ a.Duration ≤ b.Duration)

instance (a b : PartitionMeta) : Decidable (pmLe a b) :=
  inferInstanceAs (Decidable (_ ∨ _))

/-! ### Association-list maps

Go maps are modelled as association lists with map semantics: insertion
replaces every pairing of the key (there is at most one in any state the code
builds), deletion removes every pairing, lookup returns the first. -/

/-- Lookup in an association list (Go `m[k]`). -/
def lookupA {α β : Type} [DecidableEq α] : List (α × β) → α → Option β
  | [], _ => none
  | (k, v) :: rest, key => if k = key then some v else lookupA rest key

/-- Replace every pairing of a key in an association list. -/
def replaceA {α β : Type} [DecidableEq α] :
    List (α × β) → α → β → List (α × β)
  | [], _, _ => []
  | e :: rest, key, v =>
    if e.1 = key then (key, v) :: replaceA rest key v
    else e :: replaceA rest key v

/-- Insert into an association list (Go `m[k] = v`): replaces the existing
pairing in place, otherwise appends. -/
def insertA {α β : Type} [DecidableEq α] (l : List (α × β)) (key : α) (v : β) :
    List (α × β) :=
  if key ∈ l.map Prod.fst then replaceA l key v else l ++ [(key, v)]

/-- Delete from an association list (Go `delete(m, k)`). -/
def removeA {α β : Type} [DecidableEq α] (l : List (α × β)) (key : α) :
    List (α × β) :=
  l.filter (fun e => decide (e.1 ≠ key))

/-! ### The backing store

`Store` is an interface; the engine's claims are about the engine running
over any store satisfying the §6 contract.  The store is modelled as the
list of persisted `(partition, shard, tenant, block)` rows, in insertion
order, which realises every operation of the contract. -/

/-- One persisted row of the backing store: a block stored under
`(partitionKey, shard, tenant)`. -/
structure StoreEntry where
  partKey : PartitionKey
  shard : Nat
  tenant : String
  block : BlockMeta
deriving DecidableEq, Repr

/-- The backing store state. -/
structure StoreState where
  entries : List StoreEntry
deriving DecidableEq, Repr

/-- Does a store row match coordinate and block id (the bbolt key of
`StoreBlock`)? -/
def entryMatches (pk : PartitionKey) (sh : Nat) (t : String) (id : BlockId)
    (e : StoreEntry) : Prop :=
  e.partKey = pk ∧ e.shard = sh ∧ e.tenant = t ∧ e.block.Id = id

instance (pk : PartitionKey) (sh : Nat) (t : String) (id : BlockId)
    (e : StoreEntry) : Decidable (entryMatches pk sh t id e) :=
  inferInstanceAs (Decidable (_ ∧ _ ∧ _ ∧ _))

/-- `Store.StoreBlock(tx, pk, b)`: persist `b` under
`(pk, b.Shard, b.TenantId)`, keyed by `b.Id` (bbolt put: overwrites the row
with the same key, otherwise appends). -/
def storeBlockOp (s : StoreState) (pk : PartitionKey) (b : BlockMeta) :
    StoreState :=
  if s.entries.any (fun e => decide (entryMatches pk b.Shard b.TenantId b.Id e)) then
    ⟨s.entries.map (fun e =>
      if entryMatches pk b.Shard b.TenantId b.Id e then
        ⟨pk, b.Shard, b.TenantId, b⟩ else e)⟩
  else ⟨s.entries ++ [⟨pk, b.Shard, b.TenantId, b⟩]⟩

/-- `Store.DeleteBlockList(tx, pk, list)`: remove the listed block ids from
`(pk, list.Shard, list.Tenant)`. -/
def deleteBlockListOp (s : StoreState) (pk : PartitionKey) (sh : Nat)
    (t : String) (ids : List BlockId) : StoreState :=
  ⟨s.entries.filter (fun e =>
    decide (¬ (e.partKey = pk ∧ e.shard = sh ∧ e.tenant = t ∧ e.block.Id ∈ ids)))⟩

/-- `Store.ListPartitions(tx)`: every partition key with a row. -/
def listPartitions (s : StoreState) : List PartitionKey :=
  (s.entries.map (·.partKey)).dedup

/-- `Store.ListShards(tx, pk)`: shards present in a partition. -/
def listShards (s : StoreState) (pk : PartitionKey) : List Nat :=
  ((s.entries.filter (fun e => decide (e.partKey = pk))).map (·.shard)).dedup

/-- `Store.ListTenants(tx, pk, shard)`: tenants present under `(pk, shard)`. -/
def listTenants (s : StoreState) (pk : PartitionKey) (sh : Nat) : List String :=
  ((s.entries.filter (fun e => decide (e.partKey = pk ∧ e.shard = sh))).map
    (·.tenant)).dedup

/-- `Store.ListBlocks(tx, pk, shard, tenant)`: all blocks under the leaf. -/
def listBlocks (s : StoreState) (pk : PartitionKey) (sh : Nat) (t : String) :
    List BlockMeta :=
  (s.entries.filter (fun e =>
    decide (e.partKey = pk ∧ e.shard = sh ∧ e.tenant = t))).map (·.block)

/-! ### In-memory index state -/

/-- `indexShard`: the per-shard block map. -/
structure IndexShard where
  blocks : List (BlockId × BlockMeta)
deriving DecidableEq, Repr

/-- `indexPartition`: one loaded `(partition, tenant)` cache entry.  The Go
struct holds a pointer to the shared `PartitionMeta`; only its immutable
`Key`, `Ts`, `Duration` fields are ever read through the pointer, so the meta
is modelled as a snapshot value. -/
structure IndexPartition where
  meta : PartitionMeta
  accessedAt : Int
  shards : List (Nat × IndexShard)
deriving DecidableEq, Repr

/-- `cacheKey`. -/
structure CacheKey where
  partitionKey : PartitionKey
  tenant : String
deriving DecidableEq, Repr

/-- `Index`: the in-memory engine state (the `config`, `store` and `logger`
fields are passed explicitly to each operation). -/
structure IndexState where
  loadedPartitions : List (CacheKey × IndexPartition)
  allPartitions : List PartitionMeta
deriving DecidableEq, Repr

/-- `Config`. -/
structure Config where
  PartitionDuration : Int
  PartitionCacheSize : Int
  QueryLookaroundPeriod : Int
deriving DecidableEq, Repr

/-- `NewIndex`: empty in-memory state. -/
def newIndex : IndexState := ⟨[], []⟩

/-- The block map a load builds from `Store.ListBlocks`
(`sh.blocks[b.Id] = b` in a loop). -/
def blocksMapOf (l : List BlockMeta) : List (BlockId × BlockMeta) :=
  l.foldl (fun m b => insertA m b.Id b) []

/-- The shard map a cache miss materializes: all shards of the partition,
each with the requested tenant's blocks. -/
def loadShards (store : StoreState) (key : PartitionKey) (tenant : String) :
    List (Nat × IndexShard) :=
  (listShards store key).map (fun sh =>
    (sh, ⟨blocksMapOf (listBlocks store key sh tenant)⟩))

/-- The partition a cache miss materializes in `getOrLoadPartition`. -/
def loadPartitionFromStore (store : StoreState) (meta : PartitionMeta)
    (tenant : String) : IndexPartition :=
  { meta := meta
    accessedAt := 0
    shards := loadShards store meta.Key tenant }

/-- Cache entries of one tenant, in map order (`tenantPartitions[k.tenant]`
of `unloadPartitions`). -/
def entriesFor (s : IndexState) (t : String) :
    List (CacheKey × IndexPartition) :=
  s.loadedPartitions.filter (fun e => decide (e.1.tenant = t))

/-- The per-tenant excess computed by the first loop of `unloadPartitions`:
the number of appends that pushed the tenant's list beyond
`PartitionCacheSize`. -/
def tenantExcess (cfg : Config) (s : IndexState) (t : String) : Nat :=
  (entriesFor s t).length - cfg.PartitionCacheSize.toNat

/-- Stable insertion of a cache entry into a list sorted by `accessedAt`. -/
def insertByAccessed (e : CacheKey × IndexPartition) :
    List (CacheKey × IndexPartition) → List (CacheKey × IndexPartition)
  | [] => [e]
  | x :: xs =>
    if e.2.accessedAt < x.2.accessedAt then e :: x :: xs
    else x :: insertByAccessed e xs

/-- `slices.SortFunc(partitions, ... accessedAt.Compare ...)`: sort a
tenant's entries by `AccessedAt` ascending. -/
def sortByAccessed : List (CacheKey × IndexPartition) →
    List (CacheKey × IndexPartition)
  | [] => []
  | x :: xs => insertByAccessed x (sortByAccessed xs)

/-- The eviction walk of `unloadPartitions`: traverse the entries sorted by
`AccessedAt`, skip every entry whose partition contains `now`, delete
(collect the cache key of) the rest until `toRemove` deletions happened. -/
def evictKeys (now : Int) (t : String) : Nat →
    List (CacheKey × IndexPartition) → List CacheKey
  | _, [] => []
  | 0, _ => []
  | n + 1, e :: rest =>
    if e.2.meta.contains now then evictKeys now t (n + 1) rest
    else ⟨e.2.meta.Key, t⟩ :: evictKeys now t n rest

/-- `unloadPartitions`: for every tenant over budget, evict its excess
entries, oldest `AccessedAt` first, skipping entries of the currently active
partition. -/
def unloadPartitions (cfg : Config) (now : Int) (s : IndexState) : IndexState :=
  { s with loadedPartitions := s.loadedPartitions.filter (fun e =>
      decide (e.1 ∉ evictKeys now e.1.tenant
        (tenantExcess cfg s e.1.tenant)
        (sortByAccessed (entriesFor s e.1.tenant)))) }

/-- `getOrLoadPartition`: return the cached entry or materialize it from the
store, stamp `AccessedAt := now`, then run the eviction pass.  Returns the
partition handed to the caller (the shared object in Go) together with the
new state. -/
def getOrLoadPartition (cfg : Config) (store : StoreState) (now : Int)
    (s : IndexState) (meta : PartitionMeta) (tenant : String) :
    IndexPartition × IndexState :=
  let ck : CacheKey := ⟨meta.Key, tenant⟩
  let p := match lookupA s.loadedPartitions ck with
    | some p => p
    | none => loadPartitionFromStore store meta tenant
  let p := { p with accessedAt := now }
  let s' := { s with loadedPartitions := insertA s.loadedPartitions ck p }
  (p, unloadPartitions cfg now s')

/-- `findPartitionMeta`. -/
def findPartitionMeta (s : IndexState) (key : PartitionKey) :
    Option PartitionMeta :=
  s.allPartitions.find? (fun p => decide (p.Key = key))

/-- Replace the meta found by `findPartitionMeta` (Go mutates it through the
pointer held in `allPartitions`). -/
def updateFirstMeta (l : List PartitionMeta) (key : PartitionKey)
    (m' : PartitionMeta) : List PartitionMeta :=
  match l with
  | [] => []
  | m :: rest =>
    if m.Key = key then m' :: rest else m :: updateFirstMeta rest key m'

/-- Stable insertion into a list sorted by `pmLe`. -/
def insertByCompare (m : PartitionMeta) :
    List PartitionMeta → List PartitionMeta
  | [] => [m]
  | x :: xs => if pmLe m x ∧ ¬ pmLe x m then m :: x :: xs
    else x :: insertByCompare m xs

/-- `sortPartitions`: sort `allPartitions` by `(Ts, Duration)`. -/
def sortPartitionList : List PartitionMeta → List PartitionMeta
  | [] => []
  | x :: xs => insertByCompare x (sortPartitionList xs)

/-- The tenant registration step of `getOrCreatePartitionMeta`: the block's
tenant, or each dataset's tenant for a mixed block. -/
def addTenantsOfBlock (b : BlockMeta) (m : PartitionMeta) : PartitionMeta :=
  if b.TenantId ≠ "" then m.AddTenant b.TenantId
  else b.Datasets.foldl (fun acc ds => acc.AddTenant ds.TenantId) m

/-- `getOrCreatePartitionMeta`: find or create (and sort in) the meta of the
block's partition, then register the block's tenant(s) on it. -/
def getOrCreatePartitionMeta (cfg : Config) (s : IndexState) (b : BlockMeta) :
    PartitionMeta × IndexState :=
  let key := createPartitionKey b.Id cfg.PartitionDuration
  match findPartitionMeta s key with
  | some m =>
    let m' := addTenantsOfBlock b m
    (m', { s with allPartitions := updateFirstMeta s.allPartitions key m' })
  | none =>
    let m : PartitionMeta :=
      { Key := key, Ts := key.ts, Duration := key.duration, Tenants := [] }
    let sorted := sortPartitionList (s.allPartitions ++ [m])
    let m' := addTenantsOfBlock b m
    (m', { s with allPartitions := updateFirstMeta sorted key m' })

/-- The shard-map update of `insertBlock`: get or create the target shard,
then add the block unless its id is already present. -/
def insertBlockShards (shards : List (Nat × IndexShard)) (b : BlockMeta) :
    List (Nat × IndexShard) :=
  let sh := match lookupA shards b.Shard with
    | some sh => sh
    | none => ⟨[]⟩
  let sh' : IndexShard := match lookupA sh.blocks b.Id with
    | some _ => sh
    | none => ⟨insertA sh.blocks b.Id b⟩
  insertA shards b.Shard sh'

/-- `insertBlock`: create/find the partition meta, materialize the cache
entry, insert the block into its shard map unless the id is already
present.  The mutation through the shared partition object is visible in the
cache only if the entry survived the eviction pass of its own load. -/
def insertBlock (cfg : Config) (store : StoreState) (now : Int)
    (s : IndexState) (b : BlockMeta) : IndexState :=
  let ms := getOrCreatePartitionMeta cfg s b
  let ps := getOrLoadPartition cfg store now ms.2 ms.1 b.TenantId
  let p' := { ps.1 with shards := insertBlockShards ps.1.shards b }
  let ck : CacheKey := ⟨ms.1.Key, b.TenantId⟩
  match lookupA ps.2.loadedPartitions ck with
  | some _ =>
    { ps.2 with loadedPartitions := insertA ps.2.loadedPartitions ck p' }
  | none => ps.2

/-- `findBlockInPartition`. -/
def findBlockInPartition (cfg : Config) (store : StoreState) (now : Int)
    (s : IndexState) (key : PartitionKey) (shard : Nat) (tenant : String)
    (blockId : BlockId) : Option BlockMeta × IndexState :=
  match findPartitionMeta s key with
  | none => (none, s)
  | some meta =>
    let ps := getOrLoadPartition cfg store now s meta tenant
    match lookupA ps.1.shards shard with
    | none => (none, ps.2)
    | some sh => (lookupA sh.blocks blockId, ps.2)

/-- The fallback loop of `findBlock`: probe every partition whose interval
contains the block's creation time. -/
def findBlockLoop (cfg : Config) (store : StoreState) (now : Int)
    (metas : List PartitionMeta) (s : IndexState) (t : Int) (shard : Nat)
    (tenant : String) (blockId : BlockId) : Option BlockMeta × IndexState :=
  match metas with
  | [] => (none, s)
  | m :: rest =>
    if m.contains t then
      match findBlockInPartition cfg store now s m.Key shard tenant blockId with
      | (some b, s') => (some b, s')
      | (none, s') => findBlockLoop cfg store now rest s' t shard tenant blockId
    else findBlockLoop cfg store now rest s t shard tenant blockId

/-- `findBlock`: probe the block's natural partition first, then every
partition containing the creation timestamp embedded in the id. -/
def findBlock (cfg : Config) (store : StoreState) (now : Int) (s : IndexState)
    (shard : Nat) (tenant : String) (blockId : BlockId) :
    Option BlockMeta × IndexState :=
  let key := createPartitionKey blockId cfg.PartitionDuration
  match findBlockInPartition cfg store now s key shard tenant blockId with
  | (some b, s') => (some b, s')
  | (none, s') =>
    findBlockLoop cfg store now s'.allPartitions s' blockId.time shard tenant
      blockId

/-- `FindBlock`. -/
def FindBlock (cfg : Config) (store : StoreState) (now : Int) (s : IndexState)
    (shard : Nat) (tenant : String) (blockId : BlockId) :
    Option BlockMeta × IndexState :=
  findBlock cfg store now s shard tenant blockId

/-- The result of `InsertBlock`: `ErrBlockExists` or success, together with
the state threaded through the call (on the error path the store is
untouched). -/
structure InsertOutcome where
  errBlockExists : Bool
  idx : IndexState
  store : StoreState
deriving DecidableEq, Repr

/-- `InsertBlock`: duplicate check via `findBlock`, then in-memory insert and
`Store.StoreBlock` under the block's natural partition key. -/
def InsertBlock (cfg : Config) (store : StoreState) (now : Int)
    (s : IndexState) (b : BlockMeta) : InsertOutcome :=
  match findBlock cfg store now s b.Shard b.TenantId b.Id with
  | (some _, s') => ⟨true, s', store⟩
  | (none, s') =>
    let s'' := insertBlock cfg store now s' b
    let pk := createPartitionKey b.Id cfg.PartitionDuration
    ⟨false, s'', storeBlockOp store pk b⟩

/-- `InsertBlockNoCheckNoPersist`. -/
def InsertBlockNoCheckNoPersist (cfg : Config) (store : StoreState)
    (now : Int) (s : IndexState) (b : BlockMeta) : IndexState :=
  insertBlock cfg store now s b

/-- The inner loop of `FindBlocks`: probe the shard map for every
outstanding id, collecting hits and the still-outstanding rest. -/
def probeLeft (sh : IndexShard) : List BlockId → List BlockMeta × List BlockId
  | [] => ([], [])
  | id :: rest =>
    match lookupA sh.blocks id with
    | some b => let r := probeLeft sh rest; (b :: r.1, r.2)
    | none => let r := probeLeft sh rest; (r.1, id :: r.2)

/-- The partition loop of `FindBlocks`: for each candidate partition key,
materialize the `(partition, tenant)` entry and probe the outstanding ids,
removing hits from the outstanding set. -/
def findBlocksLoop (cfg : Config) (store : StoreState) (now : Int)
    (tenant : String) (shard : Nat) :
    List PartitionKey → List BlockId → IndexState →
    List BlockMeta × IndexState
  | [], _, s => ([], s)
  | k :: ks, left, s =>
    match findPartitionMeta s k with
    | none => findBlocksLoop cfg store now tenant shard ks left s
    | some meta =>
      let ps := getOrLoadPartition cfg store now s meta tenant
      match lookupA ps.1.shards shard with
      | none => findBlocksLoop cfg store now tenant shard ks left ps.2
      | some sh =>
        let pr := probeLeft sh left
        let rest := findBlocksLoop cfg store now tenant shard ks pr.2 ps.2
        (pr.1 ++ rest.1, rest.2)

/-- `FindBlocks`: group the requested ids by natural partition key and probe
each candidate partition once. -/
def FindBlocks (cfg : Config) (store : StoreState) (now : Int)
    (s : IndexState) (list : BlockList) : List BlockMeta × IndexState :=
  let pks := (list.Blocks.map
    (fun id => createPartitionKey id cfg.PartitionDuration)).dedup
  findBlocksLoop cfg store now list.Tenant list.Shard pks list.Blocks.dedup s

/-- The per-block predicate of `FindBlocksInRange`:
`start < block.MaxTime && end >= block.MinTime`. -/
def blockPred (startMs endMs : Int) (b : BlockMeta) : Prop :=
  startMs < b.MaxTime ∧ b.MinTime ≤ endMs

instance (startMs endMs : Int) (b : BlockMeta) :
    Decidable (blockPred startMs endMs b) :=
  inferInstanceAs (Decidable (_ ∧ _))

/-- `collectTenantBlocks`: every block of the partition whose payload
interval matches the query window (the Go code clones each match; with value
semantics the clone is the block itself). -/
def collectTenantBlocks (p : IndexPartition) (startMs endMs : Int) :
    List BlockMeta :=
  p.shards.flatMap (fun e =>
    (e.2.blocks.map (·.2)).filter (fun b => decide (blockPred startMs endMs b)))

/-- The tenant loop of `FindBlocksInRange`: for every requested tenant
recorded on the partition, collect its matching blocks and the matching
mixed (`""`) blocks. -/
def rangeTenantsLoop (cfg : Config) (store : StoreState) (now : Int)
    (meta : PartitionMeta) (startMs endMs : Int) :
    List String → IndexState → List BlockMeta × IndexState
  | [], s => ([], s)
  | t :: ts, s =>
    if meta.HasTenant t then
      let ps1 := getOrLoadPartition cfg store now s meta t
      let bs1 := collectTenantBlocks ps1.1 startMs endMs
      let ps2 := getOrLoadPartition cfg store now ps1.2 meta ""
      let bs2 := collectTenantBlocks ps2.1 startMs endMs
      let r := rangeTenantsLoop cfg store now meta startMs endMs ts ps2.2
      (bs1 ++ bs2 ++ r.1, r.2)
    else rangeTenantsLoop cfg store now meta startMs endMs ts s

/-- The partition loop of `FindBlocksInRange`: visit every partition whose
interval overlaps the lookaround-widened window. -/
def rangeMetasLoop (cfg : Config) (store : StoreState) (now : Int)
    (startMs endMs sw ew : Int) (tenants : List String) :
    List PartitionMeta → IndexState → List BlockMeta × IndexState
  | [], s => ([], s)
  | m :: ms, s =>
    if m.overlaps sw ew then
      let r1 := rangeTenantsLoop cfg store now m startMs endMs tenants s
      let r2 := rangeMetasLoop cfg store now startMs endMs sw ew tenants ms r1.2
      (r1.1 ++ r2.1, r2.2)
    else rangeMetasLoop cfg store now startMs endMs sw ew tenants ms s

/-- `FindBlocksInRange`: widen the window by `QueryLookaroundPeriod` at the
partition level, apply the precise predicate per block.  The Go code
iterates a `map[string]struct{}` of tenants; the model takes the tenants as
a list. -/
def FindBlocksInRange (cfg : Config) (store : StoreState) (now : Int)
    (s : IndexState) (startMs endMs : Int) (tenants : List String) :
    List BlockMeta × IndexState :=
  let sw := startMs - cfg.QueryLookaroundPeriod
  let ew := endMs + cfg.QueryLookaroundPeriod
  rangeMetasLoop cfg store now startMs endMs sw ew tenants s.allPartitions s

/-- `insertBlocks` (the insertion half of `ReplaceBlocks`): insert each new
block in memory and persist it under its natural partition key. -/
def insertBlocks (cfg : Config) (now : Int) :
    List BlockMeta → IndexState → StoreState → IndexState × StoreState
  | [], s, store => (s, store)
  | b :: bs, s, store =>
    let s' := insertBlock cfg store now s b
    let store' := storeBlockOp store (createPartitionKey b.Id cfg.PartitionDuration) b
    insertBlocks cfg now bs s' store'

/-- The per-partition body of `deleteBlockList`: delete the group's ids from
the store, then mirror the deletion in the loaded cache entry, if any. -/
def deleteListStep (cfg : Config) (src : BlockList) (k : PartitionKey)
    (s : IndexState) (store : StoreState) : IndexState × StoreState :=
  let ids := src.Blocks.filter
    (fun id => decide (createPartitionKey id cfg.PartitionDuration = k))
  let store' := deleteBlockListOp store k src.Shard src.Tenant ids
  let s' := match lookupA s.loadedPartitions ⟨k, src.Tenant⟩ with
    | none => s
    | some p =>
      match lookupA p.shards src.Shard with
      | none => s
      | some sh =>
        let sh' : IndexShard := ⟨ids.foldl (fun m id => removeA m id) sh.blocks⟩
        let p' := { p with shards := insertA p.shards src.Shard sh' }
        { s with loadedPartitions :=
            insertA s.loadedPartitions ⟨k, src.Tenant⟩ p' }
  (s', store')

/-- The group loop of `deleteBlockList`. -/
def deleteListLoop (cfg : Config) (src : BlockList) :
    List PartitionKey → IndexState → StoreState → IndexState × StoreState
  | [], s, store => (s, store)
  | k :: ks, s, store =>
    let r := deleteListStep cfg src k s store
    deleteListLoop cfg src ks r.1 r.2

/-- `deleteBlockList`: group the source ids by natural partition key and
delete each group from store and cache. -/
def deleteBlockList (cfg : Config) (s : IndexState) (store : StoreState)
    (src : BlockList) : IndexState × StoreState :=
  let ks := (src.Blocks.map
    (fun id => createPartitionKey id cfg.PartitionDuration)).dedup
  deleteListLoop cfg src ks s store

/-- `ReplaceBlocks`: insert the replacement blocks, then delete the source
block list. -/
def ReplaceBlocks (cfg : Config) (store : StoreState) (now : Int)
    (s : IndexState) (compacted : CompactedBlocks) : IndexState × StoreState :=
  let r := insertBlocks cfg now compacted.NewBlocks s store
  deleteBlockList cfg r.1 r.2 compacted.SourceBlocks

/-- `tryDelete`: delete a block from one loaded partition if present. -/
def tryDelete (s : IndexState) (key : PartitionKey) (shard : Nat)
    (tenant : String) (blockId : BlockId) : Bool × IndexState :=
  match findPartitionMeta s key with
  | none => (false, s)
  | some _ =>
    match lookupA s.loadedPartitions ⟨key, tenant⟩ with
    | none => (false, s)
    | some p =>
      match lookupA p.shards shard with
      | none => (false, s)
      | some sh =>
        match lookupA sh.blocks blockId with
        | none => (false, s)
        | some _ =>
          let sh' : IndexShard := ⟨removeA sh.blocks blockId⟩
          let p' := { p with shards := insertA p.shards shard sh' }
          let lp := insertA s.loadedPartitions ⟨key, tenant⟩ p'
          (true, { s with loadedPartitions := lp })

/-- The fallback loop of `deleteBlock`. -/
def deleteBlockLoop (shard : Nat) (tenant : String) (blockId : BlockId)
    (t : Int) : List PartitionMeta → IndexState → IndexState
  | [], s => s
  | m :: ms, s =>
    if m.contains t then
      let r := tryDelete s m.Key shard tenant blockId
      if r.1 then r.2 else deleteBlockLoop shard tenant blockId t ms r.2
    else deleteBlockLoop shard tenant blockId t ms s

/-- `deleteBlock`: try the natural partition, then every partition containing
the id's creation time. -/
def deleteBlock (cfg : Config) (s : IndexState) (shard : Nat)
    (tenant : String) (blockId : BlockId) : IndexState :=
  let key := createPartitionKey blockId cfg.PartitionDuration
  let r := tryDelete s key shard tenant blockId
  if r.1 then r.2
  else deleteBlockLoop shard tenant blockId blockId.time r.2.allPartitions r.2

/-- `ReplaceBlocksNoCheckNoPersist`: memory-only variant. -/
def ReplaceBlocksNoCheckNoPersist (cfg : Config) (store : StoreState)
    (now : Int) (s : IndexState) (compacted : CompactedBlocks) : IndexState :=
  let s1 := compacted.NewBlocks.foldl (fun st b => insertBlock cfg store now st b) s
  compacted.SourceBlocks.Blocks.foldl
    (fun st id => deleteBlock cfg st compacted.SourceBlocks.Shard
      compacted.SourceBlocks.Tenant id) s1

/-- `loadPartitionMeta`: build a partition's meta by enumerating its
`(shard, tenant)` pairs. -/
def loadPartitionMeta (store : StoreState) (key : PartitionKey) :
    PartitionMeta :=
  (listShards store key).foldl (fun m sh =>
    (listTenants store key sh).foldl (fun m t => m.AddTenant t) m)
    ⟨key, key.ts, key.duration, []⟩

/-- The updated cache entry a `(shard, tenant)` step of
`loadEntirePartition` produces from the current one (fresh entries get
`accessedAt := now`). -/
def stepEntry (store : StoreState) (now : Int) (meta : PartitionMeta)
    (sh : Nat) (t : String) (e : Option IndexPartition) : IndexPartition :=
  let p := match e with
    | some p => p
    | none => ⟨meta, now, []⟩
  let shd := match lookupA p.shards sh with
    | some shd => shd
    | none => ⟨[]⟩
  let shd' : IndexShard :=
    ⟨(listBlocks store meta.Key sh t).foldl (fun m b => insertA m b.Id b) shd.blocks⟩
  { p with shards := insertA p.shards sh shd' }

/-- One `(shard, tenant)` step of `loadEntirePartition`. -/
def loadShardTenant (store : StoreState) (now : Int) (meta : PartitionMeta)
    (sh : Nat) (t : String) (s : IndexState) : IndexState :=
  let e := stepEntry store now meta sh t (lookupA s.loadedPartitions ⟨meta.Key, t⟩)
  { s with loadedPartitions := insertA s.loadedPartitions ⟨meta.Key, t⟩ e }

/-- The shard map `loadEntirePartition` builds for one tenant, given the
shards processed so far: one entry per processed shard where the tenant has
data. -/
def restoreShardsFor (store : StoreState) (k : PartitionKey)
    (processed : List Nat) (t : String) : List (Nat × IndexShard) :=
  (processed.filter (fun sh => decide (t ∈ listTenants store k sh))).map
    (fun sh => (sh, ⟨blocksMapOf (listBlocks store k sh t)⟩))

/-- `loadEntirePartition`: load every `(partition, tenant)` pair of the
partition into the cache (no eviction pass). -/
def loadEntirePartition (store : StoreState) (now : Int) (s : IndexState)
    (meta : PartitionMeta) : IndexState :=
  (listShards store meta.Key).foldl (fun st sh =>
    (listTenants store meta.Key sh).foldl
      (fun st t => loadShardTenant store now meta sh t st) st) s

/-- `LoadPartitions`: clear the in-memory state, rebuild every partition meta
from the store, fully load the partitions containing `now`, and sort. -/
def LoadPartitions (_cfg : Config) (store : StoreState) (now : Int)
    (_s : IndexState) : IndexState :=
  let s1 := (listPartitions store).foldl (fun st key =>
    let pMeta := loadPartitionMeta store key
    let st := { st with allPartitions := st.allPartitions ++ [pMeta] }
    if pMeta.contains now then loadEntirePartition store now st pMeta else st)
    ⟨[], []⟩
  { s1 with allPartitions := sortPartitionList s1.allPartitions }

/-- `Restore`: delegates to `LoadPartitions`. -/
def Restore (cfg : Config) (store : StoreState) (now : Int)
    (s : IndexState) : IndexState :=
  LoadPartitions cfg store now s

/-- `FindPartitionMetas`: every partition whose interval contains the block's
creation time. -/
def FindPartitionMetas (s : IndexState) (blockId : BlockId) :
    List PartitionMeta :=
  s.allPartitions.filter (fun p => decide (p.contains blockId.time))

/-- The public operations of the engine, as data (for stating invariants
preserved by every operation).  `Init` and `ForEachPartition` are omitted:
the former only asks the store to create its buckets and the latter only
reads `allPartitions`, so neither touches the in-memory index state. -/
inductive Op where
  | insertOp (b : BlockMeta)
  | insertNoCheckNoPersistOp (b : BlockMeta)
  | replaceOp (c : CompactedBlocks)
  | replaceNoCheckNoPersistOp (c : CompactedBlocks)
  | findBlockOp (shard : Nat) (tenant : String) (id : BlockId)
  | findBlocksOp (list : BlockList)
  | findBlocksInRangeOp (startMs endMs : Int) (tenants : List String)
  | restoreOp
  | findPartitionMetasOp (id : BlockId)

/-- Run one public operation against the index and the store. -/
def applyOp (cfg : Config) (store : StoreState) (now : Int)
    (s : IndexState) : Op → IndexState × StoreState
  | .insertOp b =>
    let r := InsertBlock cfg store now s b
    (r.idx, r.store)
  | .insertNoCheckNoPersistOp b =>
    (InsertBlockNoCheckNoPersist cfg store now s b, store)
  | .replaceOp c => ReplaceBlocks cfg store now s c
  | .replaceNoCheckNoPersistOp c =>
    (ReplaceBlocksNoCheckNoPersist cfg store now s c, store)
  | .findBlockOp sh t id => ((FindBlock cfg store now s sh t id).2, store)
  | .findBlocksOp l => ((FindBlocks cfg store now s l).2, store)
  | .findBlocksInRangeOp a b ts =>
    ((FindBlocksInRange cfg store now s a b ts).2, store)
  | .restoreOp => (Restore cfg store now s, store)
  | .findPartitionMetasOp _ => (s, store)

/-- Point lookup into the store at one `(partition, shard, tenant)` leaf,
through the block map a load would build. -/
def storeLookup (store : StoreState) (pk : PartitionKey) (sh : Nat)
    (t : String) (id : BlockId) : Option BlockMeta :=
  lookupA (blocksMapOf (listBlocks store pk sh t)) id

/-- Point lookup into a cached partition (`p.shards[sh].blocks[id]`). -/
def shardLookup (p : IndexPartition) (sh : Nat) (id : BlockId) :
    Option BlockMeta :=
  match lookupA p.shards sh with
  | none => none
  | some m => lookupA m.blocks id

/-! ### Cache coherence

Invariant 3 of the spec (§8): every loaded `(partition, tenant)` entry holds
exactly the store's blocks for that coordinate.  It is phrased through
`loadShards`, i.e. a cached entry is indistinguishable from a fresh load,
together with the structural fact that the meta held by the entry is keyed
by the entry's cache key. -/
def Coherent (store : StoreState) (s : IndexState) : Prop :=
  ∀ ck p, lookupA s.loadedPartitions ck = some p →
    p.meta.Key = ck.partitionKey ∧
    p.shards = loadShards store ck.partitionKey ck.tenant

/-- The shard map `insertBlock` targets, before the insertion. -/
def targetShards (store : StoreState) (s : IndexState) (ck : CacheKey) :
    List (Nat × IndexShard) :=
  match lookupA s.loadedPartitions ck with
  | some p => p.shards
  | none => loadShards store ck.partitionKey ck.tenant

/-- Point lookup into `targetShards`. -/
def targetLookup (store : StoreState) (s : IndexState) (ck : CacheKey)
    (sh : Nat) (id : BlockId) : Option BlockMeta :=
  match lookupA (targetShards store s ck) sh with
  | none => none
  | some m => lookupA m.blocks id

/-- Point lookup into a list of shards. -/
def shardsLookup (shards : List (Nat × IndexShard)) (sh : Nat)
    (id : BlockId) : Option BlockMeta :=
  match lookupA shards sh with
  | none => none
  | some m => lookupA m.blocks id

instance : DecidableRel pmLe := fun a b =>
  inferInstanceAs (Decidable (a.Ts < b.Ts ∨ (a.Ts = b.Ts ∧ a.Duration ≤ b.Duration)))

/-- The `allPartitions` invariant: sorted by `(Ts, Duration)`, at most one
meta per partition key, and every meta's `(Ts, Duration)` agrees with its
parsed key. -/
def PartitionsInv (l : List PartitionMeta) : Prop :=
  l.Pairwise pmLe ∧ (l.map (fun m => m.Key)).Nodup ∧
  ∀ m ∈ l, m.Ts = m.Key.ts ∧ m.Duration = m.Key.duration

instance (l : List PartitionMeta) : Decidable (PartitionsInv l) :=
  inferInstanceAs (Decidable (_ ∧ _ ∧ _))

/-- Every loaded entry's meta is keyed by the entry's cache key — true of
every entry the code creates. -/
def KeyConsistent (s : IndexState) : Prop :=
  ∀ e ∈ s.loadedPartitions, e.2.meta.Key = e.1.partitionKey

instance (s : IndexState) : Decidable (KeyConsistent s) :=
  inferInstanceAs (Decidable (∀ e ∈ s.loadedPartitions, e.2.meta.Key = e.1.partitionKey))

/-- A shard map is well keyed when every pairing's key is the paired block's
id — true of every map the code builds, since blocks are always stored under
`b.Id`. -/
def WellKeyedShards (shards : List (Nat × IndexShard)) : Prop :=
  ∀ she ∈ shards, ∀ e ∈ she.2.blocks, e.1 = e.2.Id

instance (shards : List (Nat × IndexShard)) :
    Decidable (WellKeyedShards shards) :=
  inferInstanceAs (Decidable (∀ she ∈ shards, ∀ e ∈ she.2.blocks, e.1 = e.2.Id))

/-- Every loaded cache entry of the index is well keyed. -/
def WellKeyed (s : IndexState) : Prop :=
  ∀ ckp ∈ s.loadedPartitions, WellKeyedShards ckp.2.shards

instance (s : IndexState) : Decidable (WellKeyed s) :=
  inferInstanceAs (Decidable (∀ ckp ∈ s.loadedPartitions, WellKeyedShards ckp.2.shards))

/-! ### Concrete scenarios -/

/-- A store whose listing yields three partitions of different durations all
containing the instant `50`, plus one later partition; restoring at `50`
loads the three overlapping actives for tenant `"A"`. -/
def stC5 : StoreState := ⟨[
  ⟨⟨0, 100⟩, 1, "A", ⟨⟨10, 0⟩, 1, "A", 0, 20, []⟩⟩,
  ⟨⟨0, 200⟩, 1, "A", ⟨⟨20, 1⟩, 1, "A", 0, 30, []⟩⟩,
  ⟨⟨0, 300⟩, 1, "A", ⟨⟨30, 2⟩, 1, "A", 0, 40, []⟩⟩,
  ⟨⟨500, 100⟩, 1, "A", ⟨⟨550, 3⟩, 1, "A", 540, 560, []⟩⟩]⟩

/-- Two inserts with cache budget 1: first a block of the partition that is
active at the time of both calls, then a block of an old partition.  The
second call materializes the old partition's entry, stamps it with the
current time and immediately runs the eviction pass over it. -/
def outC6 : InsertOutcome :=
  InsertBlock ⟨100, 1, 50⟩
    (InsertBlock ⟨100, 1, 50⟩ ⟨[]⟩ 5000 newIndex
      ⟨⟨5000, 0⟩, 1, "A", 4990, 5010, []⟩).store
    5001
    (InsertBlock ⟨100, 1, 50⟩ ⟨[]⟩ 5000 newIndex
      ⟨⟨5000, 0⟩, 1, "A", 4990, 5010, []⟩).idx
    ⟨⟨150, 1⟩, 1, "A", 140, 160, []⟩

/-- A store holding one block, whose partition is registered in the paired
index state below but not loaded. -/
def stC2 : StoreState := ⟨[⟨⟨100, 100⟩, 1, "A", ⟨⟨150, 0⟩, 1, "A", 140, 160, []⟩⟩]⟩

/-- The index state paired with `stC2`: the partition meta exists, the cache
is empty. -/
def sC2 : IndexState := ⟨[], [⟨⟨100, 100⟩, 100, 100, ["A"]⟩]⟩

/-- The block persisted in `stC2`. -/
def bC2 : BlockMeta := ⟨⟨150, 0⟩, 1, "A", 140, 160, []⟩

/-- A mixed-tenant (`""`) block matching the window `[0, 100]`. -/
def bM : BlockMeta := ⟨⟨30, 2⟩, 1, "", 5, 50, []⟩

/-- A block whose payload matches the window `[0, 100]` but whose creation
time places it in the partition keyed at `1000`. -/
def bL : BlockMeta := ⟨⟨1050, 3⟩, 1, "A", 10, 20, []⟩

/-- A store with one partition holding blocks of tenants `"A"`, `"B"` and a
mixed block, plus a distant partition holding `bL`. -/
def stC1 : StoreState := ⟨[
  ⟨⟨0, 100⟩, 1, "A", ⟨⟨10, 0⟩, 1, "A", 5, 50, []⟩⟩,
  ⟨⟨0, 100⟩, 1, "B", ⟨⟨20, 1⟩, 1, "B", 5, 50, []⟩⟩,
  ⟨⟨0, 100⟩, 1, "", bM⟩,
  ⟨⟨1000, 100⟩, 1, "A", bL⟩]⟩

/-- The index state paired with `stC1`: both partitions registered, nothing
loaded. -/
def sC1 : IndexState := ⟨[],
  [⟨⟨0, 100⟩, 0, 100, ["A", "B"]⟩, ⟨⟨1000, 100⟩, 1000, 100, ["A"]⟩]⟩

/-- A store whose single row keeps a block under a partition key that is not
the block id's natural key (`createPartitionKey` of a `(50, 0)` id with
duration `100` is `(0, 100)`, not `(0, 200)`). -/
def stC3 : StoreState := ⟨[⟨⟨0, 200⟩, 1, "A", ⟨⟨50, 0⟩, 1, "A", 40, 60, []⟩⟩]⟩

/-- The index state paired with `stC3`. -/
def sC3 : IndexState := ⟨[], [⟨⟨0, 200⟩, 0, 200, ["A"]⟩]⟩

/-! ### Association-list lemmas -/

theorem lookupA_replaceA_self {α β : Type} [DecidableEq α]
    (l : List (α × β)) (k : α) (v : β) (hmem : k ∈ l.map Prod.fst) :
    lookupA (replaceA l k v) k = some v := by
  induction l with
  | nil => simp at hmem
  | cons e rest ih =>
    by_cases he : e.1 = k
    · rw [replaceA, if_pos he, lookupA, if_pos rfl]
    · have hmem' : k ∈ rest.map Prod.fst := by
        rcases List.mem_map.mp hmem with ⟨x, hx, hk⟩
        rcases List.mem_cons.mp hx with rfl | hx'
        · exact absurd hk he
        · exact List.mem_map.mpr ⟨x, hx', hk⟩
      rw [replaceA, if_neg he, lookupA, if_neg he]
      exact ih hmem'

theorem lookupA_replaceA_ne {α β : Type} [DecidableEq α]
    (l : List (α × β)) (k k' : α) (v : β) (h : k' ≠ k) :
    lookupA (replaceA l k v) k' = lookupA l k' := by
  induction l with
  | nil => rfl
  | cons e rest ih =>
    by_cases he : e.1 = k
    · have hk : ¬ k = k' := fun hh => h hh.symm
      have he' : ¬ e.1 = k' := by rw [he]; exact hk
      rw [replaceA, if_pos he, lookupA, if_neg hk, lookupA, if_neg he', ih]
    · by_cases he' : e.1 = k'
      · rw [replaceA, if_neg he, lookupA, if_pos he', lookupA, if_pos he']
      · rw [replaceA, if_neg he, lookupA, if_neg he', lookupA, if_neg he', ih]

theorem lookupA_insertA_self {α β : Type} [DecidableEq α]
    (l : List (α × β)) (k : α) (v : β) : lookupA (insertA l k v) k = some v := by
  unfold insertA
  by_cases hmem : k ∈ l.map Prod.fst
  · rw [if_pos hmem]
    exact lookupA_replaceA_self l k v hmem
  · rw [if_neg hmem]
    induction l with
    | nil => rw [List.nil_append, lookupA, if_pos rfl]
    | cons e rest ih =>
      have he : ¬ e.1 = k := by
        intro h
        exact hmem (List.mem_map.mpr ⟨e, List.mem_cons_self e rest, h⟩)
      have hmem' : k ∉ rest.map Prod.fst := by
        intro h
        rcases List.mem_map.mp h with ⟨x, hx, hk⟩
        exact hmem (List.mem_map.mpr ⟨x, List.mem_cons_of_mem e hx, hk⟩)
      rw [List.cons_append, lookupA, if_neg he]
      exact ih hmem'

theorem lookupA_insertA_ne {α β : Type} [DecidableEq α]
    (l : List (α × β)) (k k' : α) (v : β) (h : k' ≠ k) :
    lookupA (insertA l k v) k' = lookupA l k' := by
  unfold insertA
  by_cases hmem : k ∈ l.map Prod.fst
  · rw [if_pos hmem]
    exact lookupA_replaceA_ne l k k' v h
  · rw [if_neg hmem]
    induction l with
    | nil =>
      have hk : ¬ k = k' := fun hh => h hh.symm
      simp [lookupA, hk]
    | cons e rest ih =>
      have hmem' : k ∉ rest.map Prod.fst := by
        intro hx
        rcases List.mem_map.mp hx with ⟨x, hxx, hk⟩
        exact hmem (List.mem_map.mpr ⟨x, List.mem_cons_of_mem e hxx, hk⟩)
      by_cases he' : e.1 = k'
      · rw [List.cons_append, lookupA, if_pos he', lookupA, if_pos he']
      · rw [List.cons_append, lookupA, if_neg he', lookupA, if_neg he']
        exact ih hmem'

/-- Lookup through a filter whose predicate only inspects the key. -/
theorem insertA_notmem {α β : Type} [DecidableEq α]
    (l : List (α × β)) (k : α) (v : β) (h : k ∉ l.map Prod.fst) :
    insertA l k v = l ++ [(k, v)] := by
  unfold insertA
  rw [if_neg h]

theorem lookupA_filter_key {α β : Type} [DecidableEq α]
    (l : List (α × β)) (q : α → Bool) (k : α) :
    lookupA (l.filter (fun e => q e.1)) k =
      if q k then lookupA l k else none := by
  induction l with
  | nil => simp [lookupA]
  | cons e rest ih =>
    by_cases he : e.1 = k
    · by_cases hq : q k
      · simp [List.filter_cons, he, hq, lookupA]
      · simp [List.filter_cons, he, hq, lookupA, ih]
    · by_cases hq : q e.1 <;> simp [List.filter_cons, he, hq, lookupA, ih]

theorem lookupA_removeA {α β : Type} [DecidableEq α]
    (l : List (α × β)) (k k' : α) :
    lookupA (removeA l k) k' = if k' = k then none else lookupA l k' := by
  have h := lookupA_filter_key l (fun a => decide (a ≠ k)) k'
  by_cases hk : k' = k <;> simp_all [removeA]

theorem lookupA_append {α β : Type} [DecidableEq α]
    (l l' : List (α × β)) (k : α) :
    lookupA (l ++ l') k =
      match lookupA l k with
      | some v => some v
      | none => lookupA l' k := by
  induction l with
  | nil => simp [lookupA]
  | cons e rest ih =>
    by_cases he : e.1 = k <;> simp [lookupA, he, ih]

/-- Lookup in a map built by tagging each element of a list. -/
theorem lookupA_map_tag {α β : Type} [DecidableEq α]
    (ks : List α) (f : α → β) (k : α) :
    lookupA (ks.map (fun x => (x, f x))) k =
      if k ∈ ks then some (f k) else none := by
  induction ks with
  | nil => simp [lookupA]
  | cons x rest ih =>
    by_cases hx : x = k
    · subst hx; simp [lookupA]
    · have : ¬ k = x := fun h => hx h.symm
      simp [lookupA, hx, this, ih]

/-! ### Lemmas about the block maps built from store listings -/

theorem foldl_insertA_lookup_notmem (id : BlockId) :
    ∀ (l : List BlockMeta) (acc : List (BlockId × BlockMeta)),
    (∀ b ∈ l, b.Id ≠ id) →
    lookupA (l.foldl (fun m b => insertA m b.Id b) acc) id = lookupA acc id := by
  intro l
  induction l with
  | nil => intro acc _; rfl
  | cons b rest ih =>
    intro acc h
    have hb : b.Id ≠ id := h b (List.mem_cons_self b rest)
    have hrest : ∀ x ∈ rest, x.Id ≠ id := fun x hx => h x (List.mem_cons_of_mem b hx)
    rw [List.foldl_cons, ih _ hrest, lookupA_insertA_ne _ _ _ _ (Ne.symm hb)]

theorem foldl_insertA_lookup_mem (b : BlockMeta) :
    ∀ (l : List BlockMeta) (acc : List (BlockId × BlockMeta)),
    (∀ b' ∈ l, b'.Id = b.Id → b' = b) → b ∈ l →
    lookupA (l.foldl (fun m x => insertA m x.Id x) acc) b.Id = some b := by
  intro l
  induction l with
  | nil => intro acc _ hmem; cases hmem
  | cons x rest ih =>
    intro acc huniq hmem
    rw [List.foldl_cons]
    by_cases hr : ∃ b' ∈ rest, b'.Id = b.Id
    · rcases hr with ⟨b', hb', hid⟩
      have hbb : b' = b := huniq b' (List.mem_cons_of_mem x hb') hid
      subst hbb
      exact ih _ (fun y hy hid => huniq y (List.mem_cons_of_mem x hy) hid) hb'
    · push_neg at hr
      have hx : x = b := by
        rcases List.mem_cons.mp hmem with h | h
        · exact h.symm
        · exact absurd rfl (hr b h)
      subst hx
      rw [foldl_insertA_lookup_notmem _ _ _ hr, lookupA_insertA_self]

theorem blocksMapOf_lookup_none (l : List BlockMeta) (id : BlockId)
    (h : ∀ b ∈ l, b.Id ≠ id) : lookupA (blocksMapOf l) id = none := by
  unfold blocksMapOf
  rw [foldl_insertA_lookup_notmem _ _ _ h]; rfl

theorem foldl_insertA_lookup_isSome (l : List BlockMeta)
    (acc : List (BlockId × BlockMeta)) (id : BlockId)
    (h : (lookupA acc id).isSome = true ∨ ∃ b ∈ l, b.Id = id) :
    (lookupA (l.foldl (fun m x => insertA m x.Id x) acc) id).isSome = true := by
  induction l generalizing acc with
  | nil =>
    rcases h with h | h
    · exact h
    · simp at h
  | cons x rest ih =>
    rw [List.foldl_cons]
    apply ih
    by_cases hx : x.Id = id
    · left; rw [← hx, lookupA_insertA_self]; rfl
    · rcases h with h | h
      · left; rwa [lookupA_insertA_ne _ _ _ _ (Ne.symm hx)]
      · rcases h with ⟨b, hb, hid⟩
        rcases List.mem_cons.mp hb with rfl | hb'
        · exact absurd hid hx
        · right; exact ⟨b, hb', hid⟩

theorem blocksMapOf_lookup_none_iff (l : List BlockMeta) (id : BlockId) :
    lookupA (blocksMapOf l) id = none ↔ ∀ b ∈ l, b.Id ≠ id := by
  constructor
  · intro h b hb hid
    have := foldl_insertA_lookup_isSome l [] id (Or.inr ⟨b, hb, hid⟩)
    unfold blocksMapOf at h
    rw [h] at this
    simp at this
  · exact blocksMapOf_lookup_none l id

/-! ### Store lemmas -/

theorem mem_listBlocks (store : StoreState) (pk : PartitionKey) (sh : Nat)
    (t : String) (b : BlockMeta) :
    b ∈ listBlocks store pk sh t ↔
      (⟨pk, sh, t, b⟩ : StoreEntry) ∈ store.entries := by
  unfold listBlocks
  constructor
  · intro h
    rcases List.mem_map.mp h with ⟨e, he, hb⟩
    have := List.mem_filter.mp he
    rcases this with ⟨he', hcond⟩
    simp only [decide_eq_true_eq] at hcond
    obtain ⟨h1, h2, h3⟩ := hcond
    have : e = ⟨pk, sh, t, b⟩ := by
      cases e; simp_all
    rwa [this] at he'
  · intro h
    exact List.mem_map.mpr ⟨⟨pk, sh, t, b⟩, List.mem_filter.mpr ⟨h, by simp⟩, rfl⟩

theorem shard_mem_of_mem_listBlocks (store : StoreState) (pk : PartitionKey)
    (sh : Nat) (t : String) (b : BlockMeta) (h : b ∈ listBlocks store pk sh t) :
    sh ∈ listShards store pk := by
  rw [mem_listBlocks] at h
  unfold listShards
  rw [List.mem_dedup]
  exact List.mem_map.mpr ⟨⟨pk, sh, t, b⟩, List.mem_filter.mpr ⟨h, by simp⟩, rfl⟩

theorem listBlocks_eq_nil_of_not_shard (store : StoreState)
    (pk : PartitionKey) (sh : Nat) (t : String)
    (h : sh ∉ listShards store pk) : listBlocks store pk sh t = [] := by
  cases hb : listBlocks store pk sh t with
  | nil => rfl
  | cons b rest =>
    exact absurd
      (shard_mem_of_mem_listBlocks store pk sh t b (hb ▸ List.mem_cons_self b rest)) h

theorem lookupA_loadShards (store : StoreState) (pk : PartitionKey)
    (t : String) (sh : Nat) :
    lookupA (loadShards store pk t) sh =
      if sh ∈ listShards store pk then
        some ⟨blocksMapOf (listBlocks store pk sh t)⟩
      else none := by
  unfold loadShards
  exact lookupA_map_tag (listShards store pk)
    (fun sh => (⟨blocksMapOf (listBlocks store pk sh t)⟩ : IndexShard)) sh

/-- A freshly loaded shard map answers point lookups exactly like the
store. -/
theorem shardLookup_loadShards (store : StoreState) (pk : PartitionKey)
    (t : String) (p : IndexPartition) (hp : p.shards = loadShards store pk t)
    (sh : Nat) (id : BlockId) :
    shardLookup p sh id = storeLookup store pk sh t id := by
  unfold shardLookup
  rw [hp, lookupA_loadShards]
  by_cases hsh : sh ∈ listShards store pk
  · rw [if_pos hsh]; rfl
  · rw [if_neg hsh]
    unfold storeLookup
    rw [listBlocks_eq_nil_of_not_shard store pk sh t hsh]
    rfl

/-! ### Eviction-pass lemmas -/

theorem unloadPartitions_allPartitions (cfg : Config) (now : Int)
    (s : IndexState) : (unloadPartitions cfg now s).allPartitions = s.allPartitions := rfl

theorem unloadPartitions_lookup (cfg : Config) (now : Int) (s : IndexState)
    (ck : CacheKey) :
    lookupA (unloadPartitions cfg now s).loadedPartitions ck =
      if ck ∉ evictKeys now ck.tenant (tenantExcess cfg s ck.tenant)
          (sortByAccessed (entriesFor s ck.tenant)) then
        lookupA s.loadedPartitions ck
      else none := by
  unfold unloadPartitions
  have h := lookupA_filter_key s.loadedPartitions
    (fun a => decide (a ∉ evictKeys now a.tenant (tenantExcess cfg s a.tenant)
      (sortByAccessed (entriesFor s a.tenant)))) ck
  simp only [decide_eq_true_eq] at h
  exact h

theorem unloadPartitions_lookup_some (cfg : Config) (now : Int)
    (s : IndexState) (ck : CacheKey) (p : IndexPartition)
    (h : lookupA (unloadPartitions cfg now s).loadedPartitions ck = some p) :
    lookupA s.loadedPartitions ck = some p := by
  rw [unloadPartitions_lookup] at h
  by_cases hc : ck ∉ evictKeys now ck.tenant (tenantExcess cfg s ck.tenant)
      (sortByAccessed (entriesFor s ck.tenant))
  · rwa [if_pos hc] at h
  · rw [if_neg hc] at h; cases h

/-! ### `getOrLoadPartition` lemmas -/

theorem getOrLoadPartition_allPartitions (cfg : Config) (store : StoreState)
    (now : Int) (s : IndexState) (meta : PartitionMeta) (tenant : String) :
    (getOrLoadPartition cfg store now s meta tenant).2.allPartitions =
      s.allPartitions := by
  unfold getOrLoadPartition
  cases lookupA s.loadedPartitions ⟨meta.Key, tenant⟩ <;> rfl

theorem getOrLoadPartition_accessedAt (cfg : Config) (store : StoreState)
    (now : Int) (s : IndexState) (meta : PartitionMeta) (tenant : String) :
    (getOrLoadPartition cfg store now s meta tenant).1.accessedAt = now := by
  unfold getOrLoadPartition
  cases lookupA s.loadedPartitions ⟨meta.Key, tenant⟩ <;> rfl

/-- The entry the eviction pass sees at the requested cache key is the
returned partition. -/
theorem getOrLoadPartition_lookup_self (cfg : Config) (store : StoreState)
    (now : Int) (s : IndexState) (meta : PartitionMeta) (tenant : String)
    (p' : IndexPartition)
    (h : lookupA (getOrLoadPartition cfg store now s meta tenant).2.loadedPartitions
      ⟨meta.Key, tenant⟩ = some p') :
    p' = (getOrLoadPartition cfg store now s meta tenant).1 := by
  unfold getOrLoadPartition at h ⊢
  cases hl : lookupA s.loadedPartitions ⟨meta.Key, tenant⟩ with
  | none =>
    simp only [hl] at h ⊢
    have := unloadPartitions_lookup_some _ _ _ _ _ h
    rw [lookupA_insertA_self] at this
    exact (Option.some.injEq _ _).mp this.symm
  | some p0 =>
    simp only [hl] at h ⊢
    have := unloadPartitions_lookup_some _ _ _ _ _ h
    rw [lookupA_insertA_self] at this
    exact (Option.some.injEq _ _).mp this.symm

/-- Entries at other cache keys come unchanged from the pre-state. -/
theorem getOrLoadPartition_lookup_other (cfg : Config) (store : StoreState)
    (now : Int) (s : IndexState) (meta : PartitionMeta) (tenant : String)
    (ck : CacheKey) (q : IndexPartition) (hck : ck ≠ ⟨meta.Key, tenant⟩)
    (h : lookupA (getOrLoadPartition cfg store now s meta tenant).2.loadedPartitions
      ck = some q) :
    lookupA s.loadedPartitions ck = some q := by
  unfold getOrLoadPartition at h
  cases hl : lookupA s.loadedPartitions ⟨meta.Key, tenant⟩ with
  | none =>
    simp only [hl] at h
    have := unloadPartitions_lookup_some _ _ _ _ _ h
    rwa [lookupA_insertA_ne _ _ _ _ hck] at this
  | some p0 =>
    simp only [hl] at h
    have := unloadPartitions_lookup_some _ _ _ _ _ h
    rwa [lookupA_insertA_ne _ _ _ _ hck] at this

/-- Under coherence the returned partition carries a fresh load's shard map
and the requested meta's key. -/
theorem getOrLoadPartition_fst (cfg : Config) (store : StoreState)
    (now : Int) (s : IndexState) (meta : PartitionMeta) (tenant : String)
    (hcoh : Coherent store s) :
    (getOrLoadPartition cfg store now s meta tenant).1.shards =
      loadShards store meta.Key tenant ∧
    (getOrLoadPartition cfg store now s meta tenant).1.meta.Key = meta.Key := by
  cases hl : lookupA s.loadedPartitions ⟨meta.Key, tenant⟩ with
  | none => simp only [getOrLoadPartition, hl]; exact ⟨rfl, rfl⟩
  | some p0 =>
    have hc := hcoh _ _ hl
    simp only [getOrLoadPartition, hl]
    exact ⟨hc.2, hc.1⟩

/-- `getOrLoadPartition` preserves coherence (the store is not written). -/
theorem getOrLoadPartition_coherent (cfg : Config) (store : StoreState)
    (now : Int) (s : IndexState) (meta : PartitionMeta) (tenant : String)
    (hcoh : Coherent store s) :
    Coherent store (getOrLoadPartition cfg store now s meta tenant).2 := by
  intro ck q h
  by_cases hck : ck = ⟨meta.Key, tenant⟩
  · subst hck
    have hq := getOrLoadPartition_lookup_self cfg store now s meta tenant q h
    have hfst := getOrLoadPartition_fst cfg store now s meta tenant hcoh
    rw [hq]
    exact ⟨hfst.2, hfst.1⟩
  · exact hcoh _ _ (getOrLoadPartition_lookup_other cfg store now s meta tenant ck q hck h)

/-! ### `getOrCreatePartitionMeta` and `insertBlock` lemmas -/

theorem AddTenant_Key (m : PartitionMeta) (t : String) :
    (m.AddTenant t).Key = m.Key := by
  unfold PartitionMeta.AddTenant
  split <;> rfl

theorem addTenantsOfBlock_Key (b : BlockMeta) (m : PartitionMeta) :
    (addTenantsOfBlock b m).Key = m.Key := by
  unfold addTenantsOfBlock
  split
  · exact AddTenant_Key m b.TenantId
  · generalize b.Datasets = l
    induction l generalizing m with
    | nil => rfl
    | cons d rest ih => rw [List.foldl_cons, ih]; exact AddTenant_Key m d.TenantId

theorem findPartitionMeta_key (s : IndexState) (key : PartitionKey)
    (m : PartitionMeta) (h : findPartitionMeta s key = some m) : m.Key = key := by
  have := List.find?_some h
  simpa using this

theorem findPartitionMeta_mem (s : IndexState) (key : PartitionKey)
    (m : PartitionMeta) (h : findPartitionMeta s key = some m) :
    m ∈ s.allPartitions :=
  List.mem_of_find?_eq_some h

theorem getOrCreatePartitionMeta_loaded (cfg : Config) (s : IndexState)
    (b : BlockMeta) :
    (getOrCreatePartitionMeta cfg s b).2.loadedPartitions = s.loadedPartitions := by
  simp only [getOrCreatePartitionMeta]
  cases findPartitionMeta s (createPartitionKey b.Id cfg.PartitionDuration) <;> rfl

theorem getOrCreatePartitionMeta_key (cfg : Config) (s : IndexState)
    (b : BlockMeta) :
    (getOrCreatePartitionMeta cfg s b).1.Key =
      createPartitionKey b.Id cfg.PartitionDuration := by
  cases hf : findPartitionMeta s (createPartitionKey b.Id cfg.PartitionDuration) with
  | none => simp only [getOrCreatePartitionMeta, hf, addTenantsOfBlock_Key]
  | some m =>
    simp only [getOrCreatePartitionMeta, hf, addTenantsOfBlock_Key]
    exact findPartitionMeta_key s _ m hf

/-- The shard map `getOrLoadPartition` hands to its caller: the cached one on
a hit, a fresh load on a miss. -/
theorem getOrLoadPartition_fst_shards (cfg : Config) (store : StoreState)
    (now : Int) (s : IndexState) (meta : PartitionMeta) (tenant : String) :
    (getOrLoadPartition cfg store now s meta tenant).1.shards =
      match lookupA s.loadedPartitions ⟨meta.Key, tenant⟩ with
      | some p0 => p0.shards
      | none => loadShards store meta.Key tenant := by
  cases hl : lookupA s.loadedPartitions ⟨meta.Key, tenant⟩ <;>
    simp only [getOrLoadPartition, hl] <;> rfl

theorem shardLookup_eq_shardsLookup (p : IndexPartition) (sh : Nat)
    (id : BlockId) : shardLookup p sh id = shardsLookup p.shards sh id := rfl

/-- Full description of the shard-map update of `insertBlock`: the pair at
`(b.Shard, b.Id)` becomes the existing record if any, else `b`; every other
pair is untouched. -/
theorem insertBlockShards_lookup (shards : List (Nat × IndexShard))
    (b : BlockMeta) (sh : Nat) (id : BlockId) :
    shardsLookup (insertBlockShards shards b) sh id =
      if sh = b.Shard ∧ id = b.Id then
        match shardsLookup shards b.Shard b.Id with
        | some m => some m
        | none => some b
      else shardsLookup shards sh id := by
  by_cases hsh : sh = b.Shard
  · subst hsh
    cases hs : lookupA shards b.Shard with
    | none =>
      simp only [insertBlockShards, shardsLookup, hs, lookupA_insertA_self]
      by_cases hid : id = b.Id
      · subst hid
        simp only [and_self, if_pos]
        simp only [lookupA, lookupA_insertA_self]
        simp
      · rw [if_neg (fun h => hid h.2)]
        simp only [lookupA, lookupA_insertA_ne _ _ _ _ hid]
        exact if_neg (fun h => hid h.symm)
    | some shm =>
      simp only [insertBlockShards, shardsLookup, hs, lookupA_insertA_self]
      cases hbl : lookupA shm.blocks b.Id with
      | some m =>
        by_cases hid : id = b.Id
        · subst hid
          simp only [and_self, if_pos, hbl]
        · rw [if_neg (fun h => hid h.2)]
      | none =>
        by_cases hid : id = b.Id
        · subst hid
          simp only [and_self, if_pos, hbl, lookupA_insertA_self]
        · rw [if_neg (fun h => hid h.2)]
          simp only [hbl, lookupA_insertA_ne _ _ _ _ hid]
  · have hne : ¬ (sh = b.Shard ∧ id = b.Id) := fun h => hsh h.1
    rw [if_neg hne]
    simp only [insertBlockShards, shardsLookup, lookupA_insertA_ne _ _ _ _ hsh]

/-- Lookup at the inserted cache key after `insertBlock`: the entry, if still
loaded, carries the updated target shard map. -/
theorem insertBlock_lookup_self (cfg : Config) (store : StoreState)
    (now : Int) (s : IndexState) (b : BlockMeta) (p' : IndexPartition)
    (hp' : lookupA (insertBlock cfg store now s b).loadedPartitions
      ⟨createPartitionKey b.Id cfg.PartitionDuration, b.TenantId⟩ = some p') :
    p'.shards = insertBlockShards
      (targetShards store s ⟨createPartitionKey b.Id cfg.PartitionDuration, b.TenantId⟩) b := by
  have hkey := getOrCreatePartitionMeta_key cfg s b
  have hloaded := getOrCreatePartitionMeta_loaded cfg s b
  have hshards : (getOrLoadPartition cfg store now
      (getOrCreatePartitionMeta cfg s b).2 (getOrCreatePartitionMeta cfg s b).1
      b.TenantId).1.shards =
      targetShards store s ⟨createPartitionKey b.Id cfg.PartitionDuration, b.TenantId⟩ := by
    rw [getOrLoadPartition_fst_shards, hkey, hloaded]
    rfl
  simp only [insertBlock, hkey] at hp'
  cases hfin : lookupA (getOrLoadPartition cfg store now
      (getOrCreatePartitionMeta cfg s b).2 (getOrCreatePartitionMeta cfg s b).1
      b.TenantId).2.loadedPartitions
      ⟨createPartitionKey b.Id cfg.PartitionDuration, b.TenantId⟩ with
  | none =>
    rw [hfin] at hp'
    simp only at hp'
    rw [hfin] at hp'
    cases hp'
  | some q =>
    rw [hfin] at hp'
    simp only at hp'
    rw [lookupA_insertA_self] at hp'
    have := (Option.some.injEq _ _).mp hp'
    rw [← this]
    simp only
    rw [hshards]

/-- Entries at other cache keys after `insertBlock` come unchanged from the
pre-state. -/
theorem insertBlock_lookup_other (cfg : Config) (store : StoreState)
    (now : Int) (s : IndexState) (b : BlockMeta) (ck : CacheKey)
    (q : IndexPartition)
    (hck : ck ≠ ⟨createPartitionKey b.Id cfg.PartitionDuration, b.TenantId⟩)
    (h : lookupA (insertBlock cfg store now s b).loadedPartitions ck = some q) :
    lookupA s.loadedPartitions ck = some q := by
  have hkey := getOrCreatePartitionMeta_key cfg s b
  have hloaded := getOrCreatePartitionMeta_loaded cfg s b
  simp only [insertBlock, hkey] at h
  have hother : lookupA (getOrLoadPartition cfg store now
      (getOrCreatePartitionMeta cfg s b).2 (getOrCreatePartitionMeta cfg s b).1
      b.TenantId).2.loadedPartitions ck = some q → lookupA s.loadedPartitions ck = some q := by
    intro hq
    have := getOrLoadPartition_lookup_other cfg store now
      (getOrCreatePartitionMeta cfg s b).2 (getOrCreatePartitionMeta cfg s b).1
      b.TenantId ck q (by rw [hkey]; exact hck) hq
    rwa [hloaded] at this
  cases hfin : lookupA (getOrLoadPartition cfg store now
      (getOrCreatePartitionMeta cfg s b).2 (getOrCreatePartitionMeta cfg s b).1
      b.TenantId).2.loadedPartitions
      ⟨createPartitionKey b.Id cfg.PartitionDuration, b.TenantId⟩ with
  | none =>
    rw [hfin] at h
    simp only at h
    exact hother h
  | some q0 =>
    rw [hfin] at h
    simp only at h
    rw [lookupA_insertA_ne _ _ _ _ hck] at h
    exact hother h

/-- `insertBlock` never overwrites: if the target shard map already pairs the
block id with a record `m`, the state after `insertBlock` answers every point
lookup exactly as before, wherever the entry is still loaded. -/
theorem insertBlock_preserves_existing (cfg : Config) (store : StoreState)
    (now : Int) (s : IndexState) (b : BlockMeta) (m : BlockMeta)
    (hm : targetLookup store s
      ⟨createPartitionKey b.Id cfg.PartitionDuration, b.TenantId⟩ b.Shard b.Id =
      some m)
    (p' : IndexPartition)
    (hp' : lookupA (insertBlock cfg store now s b).loadedPartitions
      ⟨createPartitionKey b.Id cfg.PartitionDuration, b.TenantId⟩ = some p')
    (sh : Nat) (id : BlockId) :
    shardLookup p' sh id = targetLookup store s
      ⟨createPartitionKey b.Id cfg.PartitionDuration, b.TenantId⟩ sh id := by
  have hshards := insertBlock_lookup_self cfg store now s b p' hp'
  rw [shardLookup_eq_shardsLookup, hshards, insertBlockShards_lookup]
  by_cases hc : sh = b.Shard ∧ id = b.Id
  · rw [if_pos hc]
    have hm' : shardsLookup (targetShards store s
        ⟨createPartitionKey b.Id cfg.PartitionDuration, b.TenantId⟩) b.Shard b.Id =
        some m := hm
    rw [hm']
    unfold targetLookup
    rw [hc.1, hc.2]
    exact hm.symm
  · rw [if_neg hc]
    rfl

/-! ### Well-keyedness lemmas -/

theorem lookupA_mem {α β : Type} [DecidableEq α] (l : List (α × β)) (k : α)
    (v : β) (h : lookupA l k = some v) : (k, v) ∈ l := by
  induction l with
  | nil => cases h
  | cons e rest ih =>
    by_cases he : e.1 = k
    · rw [lookupA, if_pos he] at h
      have he2 : e = (k, v) := by
        cases e
        cases h
        simp_all
      rw [← he2]
      exact List.mem_cons_self e rest
    · rw [lookupA, if_neg he] at h
      exact List.mem_cons_of_mem e (ih h)

theorem mem_replaceA {α β : Type} [DecidableEq α] (l : List (α × β))
    (k : α) (v : β) (e : α × β) (h : e ∈ replaceA l k v) :
    e ∈ l ∨ e = (k, v) := by
  induction l with
  | nil => cases h
  | cons x rest ih =>
    by_cases hx : x.1 = k
    · rw [replaceA, if_pos hx] at h
      rcases List.mem_cons.mp h with h | h
      · exact Or.inr h
      · rcases ih h with h | h
        · exact Or.inl (List.mem_cons_of_mem x h)
        · exact Or.inr h
    · rw [replaceA, if_neg hx] at h
      rcases List.mem_cons.mp h with h | h
      · exact Or.inl (h ▸ List.mem_cons_self x rest)
      · rcases ih h with h | h
        · exact Or.inl (List.mem_cons_of_mem x h)
        · exact Or.inr h

theorem mem_insertA {α β : Type} [DecidableEq α] (l : List (α × β))
    (k : α) (v : β) (e : α × β) (h : e ∈ insertA l k v) :
    e ∈ l ∨ e = (k, v) := by
  unfold insertA at h
  by_cases hmem : k ∈ l.map Prod.fst
  · rw [if_pos hmem] at h
    exact mem_replaceA l k v e h
  · rw [if_neg hmem] at h
    rcases List.mem_append.mp h with h | h
    · exact Or.inl h
    · exact Or.inr (List.mem_singleton.mp h)

theorem foldl_insertA_wellKeyed (l : List BlockMeta) :
    ∀ acc : List (BlockId × BlockMeta), (∀ e ∈ acc, e.1 = e.2.Id) →
    ∀ e ∈ l.foldl (fun m b => insertA m b.Id b) acc, e.1 = e.2.Id := by
  induction l with
  | nil => intro acc hacc; exact hacc
  | cons b rest ih =>
    intro acc hacc
    rw [List.foldl_cons]
    apply ih
    intro e he
    rcases mem_insertA _ _ _ _ he with h | h
    · exact hacc e h
    · rw [h]

theorem blocksMapOf_wellKeyed (l : List BlockMeta) :
    ∀ e ∈ blocksMapOf l, e.1 = e.2.Id :=
  foldl_insertA_wellKeyed l [] (by intro e he; cases he)

theorem loadShards_wellKeyed (store : StoreState) (key : PartitionKey)
    (tenant : String) : WellKeyedShards (loadShards store key tenant) := by
  intro she hshe e he
  unfold loadShards at hshe
  rcases List.mem_map.mp hshe with ⟨sh, _, hsh⟩
  rw [← hsh] at he
  exact blocksMapOf_wellKeyed _ e he

theorem getOrLoadPartition_wellKeyed (cfg : Config) (store : StoreState)
    (now : Int) (s : IndexState) (meta : PartitionMeta) (tenant : String)
    (h : WellKeyed s) :
    WellKeyed (getOrLoadPartition cfg store now s meta tenant).2 ∧
    WellKeyedShards (getOrLoadPartition cfg store now s meta tenant).1.shards := by
  have hfst : WellKeyedShards
      (getOrLoadPartition cfg store now s meta tenant).1.shards := by
    rw [getOrLoadPartition_fst_shards]
    cases hl : lookupA s.loadedPartitions ⟨meta.Key, tenant⟩ with
    | none => exact loadShards_wellKeyed store meta.Key tenant
    | some p0 => exact h _ (lookupA_mem _ _ _ hl)
  refine ⟨?_, hfst⟩
  intro ckp hmem
  cases hl : lookupA s.loadedPartitions ⟨meta.Key, tenant⟩ with
  | none =>
    simp only [getOrLoadPartition, hl] at hmem
    have hmem' := List.mem_of_mem_filter hmem
    rcases mem_insertA _ _ _ _ hmem' with hm | hm
    · exact h _ hm
    · rw [hm]
      exact loadShards_wellKeyed store meta.Key tenant
  | some p0 =>
    simp only [getOrLoadPartition, hl] at hmem
    have hmem' := List.mem_of_mem_filter hmem
    rcases mem_insertA _ _ _ _ hmem' with hm | hm
    · exact h _ hm
    · rw [hm]
      exact h (⟨meta.Key, tenant⟩, p0) (lookupA_mem _ _ _ hl)

/-! ### `FindBlocks` lemmas -/

theorem probeLeft_perm (sh : IndexShard)
    (hwk : ∀ e ∈ sh.blocks, e.1 = e.2.Id) :
    ∀ left : List BlockId,
    ((probeLeft sh left).1.map (fun b => b.Id) ++ (probeLeft sh left).2).Perm
      left := by
  intro left
  induction left with
  | nil => simp [probeLeft]
  | cons id rest ih =>
    cases hl : lookupA sh.blocks id with
    | some b =>
      have hid : b.Id = id := (hwk _ (lookupA_mem _ _ _ hl)).symm
      simp only [probeLeft, hl, List.map_cons, List.cons_append, hid]
      exact ih.cons id
    | none =>
      simp only [probeLeft, hl]
      exact List.perm_middle.trans (ih.cons id)

theorem findBlocksLoop_spec (cfg : Config) (store : StoreState) (now : Int)
    (tenant : String) (shard : Nat) :
    ∀ (ks : List PartitionKey) (left : List BlockId) (s : IndexState),
    WellKeyed s → left.Nodup →
    ((findBlocksLoop cfg store now tenant shard ks left s).1.map
      (fun b => b.Id)).Nodup ∧
    (∀ id ∈ (findBlocksLoop cfg store now tenant shard ks left s).1.map
      (fun b => b.Id), id ∈ left) := by
  intro ks
  induction ks with
  | nil =>
    intro left s _ _
    constructor
    · exact List.nodup_nil
    · intro id hid; cases hid
  | cons k ks ih =>
    intro left s hwk hnd
    cases hf : findPartitionMeta s k with
    | none =>
      simp only [findBlocksLoop, hf]
      exact ih left s hwk hnd
    | some meta =>
      have hwk2 := getOrLoadPartition_wellKeyed cfg store now s meta tenant hwk
      cases hsh : lookupA (getOrLoadPartition cfg store now s meta tenant).1.shards
          shard with
      | none =>
        simp only [findBlocksLoop, hf, hsh]
        exact ih left _ hwk2.1 hnd
      | some shm =>
        simp only [findBlocksLoop, hf, hsh]
        have hwkshm : ∀ e ∈ shm.blocks, e.1 = e.2.Id :=
          hwk2.2 _ (lookupA_mem _ _ _ hsh)
        have hperm := probeLeft_perm shm hwkshm left
        have hnd2 : ((probeLeft shm left).1.map (fun b => b.Id) ++
            (probeLeft shm left).2).Nodup := hperm.symm.nodup hnd
        have hnd3 := List.nodup_append.mp hnd2
        have hrec := ih (probeLeft shm left).2
          (getOrLoadPartition cfg store now s meta tenant).2 hwk2.1 hnd3.2.1
        constructor
        · rw [List.map_append, List.nodup_append]
          refine ⟨hnd3.1, hrec.1, ?_⟩
          intro a ha hb
          exact hnd3.2.2 ha (hrec.2 a hb)
        · intro id hid
          rw [List.map_append, List.mem_append] at hid
          rcases hid with hid | hid
          · exact hperm.subset (List.mem_append.mpr (Or.inl hid))
          · exact hperm.subset (List.mem_append.mpr (Or.inr (hrec.2 id hid)))

/-! ### Sorting lemmas -/

theorem pmLe_total (a b : PartitionMeta) : pmLe a b ∨ pmLe b a := by
  unfold pmLe
  rcases lt_trichotomy a.Ts b.Ts with h | h | h
  · exact Or.inl (Or.inl h)
  · rcases le_total a.Duration b.Duration with hd | hd
    · exact Or.inl (Or.inr ⟨h, hd⟩)
    · exact Or.inr (Or.inr ⟨h.symm, hd⟩)
  · exact Or.inr (Or.inl h)

theorem pmLe_trans (a b c : PartitionMeta) (h1 : pmLe a b) (h2 : pmLe b c) :
    pmLe a c := by
  unfold pmLe at *
  rcases h1 with h1 | h1
  · rcases h2 with h2 | h2
    · exact Or.inl (h1.trans h2)
    · exact Or.inl (h2.1 ▸ h1)
  · rcases h2 with h2 | h2
    · exact Or.inl (h1.1 ▸ h2)
    · exact Or.inr ⟨h1.1.trans h2.1, h1.2.trans h2.2⟩

theorem insertByCompare_perm (m : PartitionMeta) (l : List PartitionMeta) :
    (insertByCompare m l).Perm (m :: l) := by
  induction l with
  | nil => exact List.Perm.refl _
  | cons x xs ih =>
    rw [insertByCompare]
    split
    · exact List.Perm.refl _
    · exact (ih.cons x).trans (List.Perm.swap m x xs)

theorem sortPartitionList_perm (l : List PartitionMeta) :
    (sortPartitionList l).Perm l := by
  induction l with
  | nil => exact List.Perm.refl _
  | cons x xs ih =>
    exact (insertByCompare_perm x (sortPartitionList xs)).trans (ih.cons x)

theorem insertByCompare_pairwise (m : PartitionMeta) (l : List PartitionMeta)
    (h : l.Pairwise pmLe) : (insertByCompare m l).Pairwise pmLe := by
  induction l with
  | nil => exact List.pairwise_singleton pmLe m
  | cons x xs ih =>
    rw [insertByCompare]
    rcases List.pairwise_cons.mp h with ⟨hx, hxs⟩
    split
    · rename_i hc
      refine List.pairwise_cons.mpr ⟨?_, h⟩
      intro y hy
      rcases List.mem_cons.mp hy with rfl | hy
      · exact hc.1
      · exact pmLe_trans m x y hc.1 (hx y hy)
    · rename_i hc
      have hxm : pmLe x m := by
        by_cases hxm : pmLe x m
        · exact hxm
        · rcases pmLe_total m x with hmx | h'
          · exact absurd ⟨hmx, hxm⟩ hc
          · exact h'
      refine List.pairwise_cons.mpr ⟨?_, ih hxs⟩
      intro y hy
      rcases List.mem_cons.mp ((insertByCompare_perm m xs).mem_iff.mp hy) with
        rfl | h'
      · exact hxm
      · exact hx y h'

theorem sortPartitionList_pairwise (l : List PartitionMeta) :
    (sortPartitionList l).Pairwise pmLe := by
  induction l with
  | nil => exact List.Pairwise.nil
  | cons x xs ih => exact insertByCompare_pairwise x (sortPartitionList xs) ih

/-! ### `Restore` lemmas -/

theorem tenant_mem_of_mem_listBlocks (store : StoreState) (pk : PartitionKey)
    (sh : Nat) (t : String) (b : BlockMeta) (h : b ∈ listBlocks store pk sh t) :
    t ∈ listTenants store pk sh := by
  rw [mem_listBlocks] at h
  unfold listTenants
  rw [List.mem_dedup]
  exact List.mem_map.mpr ⟨⟨pk, sh, t, b⟩, List.mem_filter.mpr ⟨h, by simp⟩, rfl⟩

theorem listBlocks_eq_nil_of_not_tenant (store : StoreState)
    (pk : PartitionKey) (sh : Nat) (t : String)
    (h : t ∉ listTenants store pk sh) : listBlocks store pk sh t = [] := by
  cases hb : listBlocks store pk sh t with
  | nil => rfl
  | cons b rest =>
    exact absurd
      (tenant_mem_of_mem_listBlocks store pk sh t b (hb ▸ List.mem_cons_self b rest)) h

theorem lookupA_restoreShardsFor (store : StoreState) (k : PartitionKey)
    (processed : List Nat) (t : String) (sh : Nat) :
    lookupA (restoreShardsFor store k processed t) sh =
      if sh ∈ processed.filter (fun sh => decide (t ∈ listTenants store k sh))
      then some ⟨blocksMapOf (listBlocks store k sh t)⟩ else none := by
  unfold restoreShardsFor
  exact lookupA_map_tag _ (fun sh => (⟨blocksMapOf (listBlocks store k sh t)⟩ : IndexShard)) sh

/-- The entry `loadEntirePartition` builds answers point lookups exactly like
the store once every shard of the partition has been processed. -/
theorem restoreShardsFor_shardLookup (store : StoreState) (k : PartitionKey)
    (t : String) (meta : PartitionMeta) (now : Int) (sh' : Nat) (id : BlockId) :
    shardLookup ⟨meta, now, restoreShardsFor store k (listShards store k) t⟩
      sh' id = storeLookup store k sh' t id := by
  rw [shardLookup]
  simp only
  rw [lookupA_restoreShardsFor]
  by_cases hsh : sh' ∈ (listShards store k).filter
      (fun sh => decide (t ∈ listTenants store k sh))
  · rw [if_pos hsh]; rfl
  · rw [if_neg hsh]
    by_cases h1 : sh' ∈ listShards store k
    · have h2 : t ∉ listTenants store k sh' := by
        intro h2
        exact hsh (List.mem_filter.mpr ⟨h1, by simpa using h2⟩)
      unfold storeLookup
      rw [listBlocks_eq_nil_of_not_tenant store k sh' t h2]
      rfl
    · unfold storeLookup
      rw [listBlocks_eq_nil_of_not_shard store k sh' t h1]
      rfl

theorem restoreShardsFor_append (store : StoreState) (k : PartitionKey)
    (processed : List Nat) (sh : Nat) (t : String) :
    restoreShardsFor store k (processed ++ [sh]) t =
      restoreShardsFor store k processed t ++
        (if t ∈ listTenants store k sh then
          [(sh, (⟨blocksMapOf (listBlocks store k sh t)⟩ : IndexShard))] else []) := by
  unfold restoreShardsFor
  rw [List.filter_append, List.map_append]
  by_cases ht : t ∈ listTenants store k sh
  · rw [if_pos ht]
    simp [List.filter_cons, ht]
  · rw [if_neg ht]
    simp [List.filter_cons, ht]

theorem restoreShardsFor_keys_sub (store : StoreState) (k : PartitionKey)
    (processed : List Nat) (t : String) (sh : Nat)
    (h : sh ∈ (restoreShardsFor store k processed t).map Prod.fst) :
    sh ∈ processed := by
  unfold restoreShardsFor at h
  rw [List.map_map] at h
  rcases List.mem_map.mp h with ⟨x, hx, hsh⟩
  have := List.mem_of_mem_filter hx
  simpa [← hsh] using this

theorem loadShardTenant_lookup (store : StoreState) (now : Int)
    (meta : PartitionMeta) (sh : Nat) (t : String) (s : IndexState)
    (ck : CacheKey) :
    lookupA (loadShardTenant store now meta sh t s).loadedPartitions ck =
      if ck = ⟨meta.Key, t⟩ then
        some (stepEntry store now meta sh t
          (lookupA s.loadedPartitions ⟨meta.Key, t⟩))
      else lookupA s.loadedPartitions ck := by
  unfold loadShardTenant
  by_cases hck : ck = ⟨meta.Key, t⟩
  · rw [if_pos hck, hck, lookupA_insertA_self]
  · rw [if_neg hck, lookupA_insertA_ne _ _ _ _ hck]

theorem foldl_allPartitions_eq {γ : Type} (f : IndexState → γ → IndexState)
    (h : ∀ st x, (f st x).allPartitions = st.allPartitions) :
    ∀ (l : List γ) (st : IndexState),
    (l.foldl f st).allPartitions = st.allPartitions := by
  intro l
  induction l with
  | nil => intro st; rfl
  | cons x xs ih => intro st; rw [List.foldl_cons, ih, h]

theorem loadEntirePartition_allPartitions (store : StoreState) (now : Int)
    (s : IndexState) (meta : PartitionMeta) :
    (loadEntirePartition store now s meta).allPartitions = s.allPartitions := by
  unfold loadEntirePartition
  apply foldl_allPartitions_eq
  intro st sh
  apply foldl_allPartitions_eq
  intro st' t
  rfl

/-- The inner tenant loop of `loadEntirePartition`, at the partition's own
cache keys. -/
theorem tenantFold_lookup (store : StoreState) (now : Int)
    (meta : PartitionMeta) (sh : Nat) :
    ∀ (tl : List String), tl.Nodup → ∀ (st : IndexState) (t : String),
    lookupA ((tl.foldl (fun st t0 => loadShardTenant store now meta sh t0 st)
        st).loadedPartitions) ⟨meta.Key, t⟩ =
      if t ∈ tl then
        some (stepEntry store now meta sh t
          (lookupA st.loadedPartitions ⟨meta.Key, t⟩))
      else lookupA st.loadedPartitions ⟨meta.Key, t⟩ := by
  intro tl
  induction tl with
  | nil =>
    intro _ st t
    rw [if_neg (List.not_mem_nil t)]
    rfl
  | cons t0 tl ih =>
    intro hnd st t
    rw [List.foldl_cons]
    rcases List.nodup_cons.mp hnd with ⟨ht0, hnd'⟩
    by_cases ht : t = t0
    · subst ht
      rw [ih hnd' _ t, if_neg ht0, loadShardTenant_lookup, if_pos rfl,
        if_pos (List.mem_cons_self t tl)]
    · rw [ih hnd' _ t, loadShardTenant_lookup,
        if_neg (fun h => ht (congrArg CacheKey.tenant h))]
      by_cases htl : t ∈ tl
      · rw [if_pos htl, if_pos (List.mem_cons_of_mem t0 htl)]
      · rw [if_neg htl, if_neg (by
          intro h
          rcases List.mem_cons.mp h with h | h
          · exact ht h
          · exact htl h)]

/-- The inner tenant loop leaves other partitions' cache keys untouched. -/
theorem tenantFold_lookup_other (store : StoreState) (now : Int)
    (meta : PartitionMeta) (sh : Nat) :
    ∀ (tl : List String) (st : IndexState) (ck : CacheKey),
    ck.partitionKey ≠ meta.Key →
    lookupA ((tl.foldl (fun st t0 => loadShardTenant store now meta sh t0 st)
        st).loadedPartitions) ck = lookupA st.loadedPartitions ck := by
  intro tl
  induction tl with
  | nil => intro st ck _; rfl
  | cons t0 tl ih =>
    intro st ck hck
    rw [List.foldl_cons, ih _ _ hck, loadShardTenant_lookup,
      if_neg (fun h => hck (congrArg CacheKey.partitionKey h))]

theorem listShards_nodup (store : StoreState) (pk : PartitionKey) :
    (listShards store pk).Nodup := List.nodup_dedup _

theorem listTenants_nodup (store : StoreState) (pk : PartitionKey) (sh : Nat) :
    (listTenants store pk sh).Nodup := List.nodup_dedup _

theorem listPartitions_nodup (store : StoreState) :
    (listPartitions store).Nodup := List.nodup_dedup _

theorem stepEntry_rsf (store : StoreState) (now : Int) (meta : PartitionMeta)
    (sh : Nat) (t : String) (processed : List Nat) (hsh : sh ∉ processed) :
    stepEntry store now meta sh t
      (if restoreShardsFor store meta.Key processed t = [] then none
       else some ⟨meta, now, restoreShardsFor store meta.Key processed t⟩) =
    ⟨meta, now, restoreShardsFor store meta.Key processed t ++
      [(sh, ⟨blocksMapOf (listBlocks store meta.Key sh t)⟩)]⟩ := by
  have hkeys : sh ∉ (restoreShardsFor store meta.Key processed t).map Prod.fst :=
    fun h => hsh (restoreShardsFor_keys_sub store meta.Key processed t sh h)
  by_cases hempty : restoreShardsFor store meta.Key processed t = []
  · rw [if_pos hempty, hempty]
    simp only [stepEntry, lookupA]
    rw [insertA_notmem _ _ _ (by simp), List.nil_append]
    rfl
  · rw [if_neg hempty]
    have hlk : lookupA (restoreShardsFor store meta.Key processed t) sh = none := by
      cases hl : lookupA (restoreShardsFor store meta.Key processed t) sh with
      | none => rfl
      | some v =>
        exact absurd (List.mem_map.mpr ⟨(sh, v), lookupA_mem _ _ _ hl, rfl⟩) hkeys
    simp only [stepEntry, hlk]
    rw [insertA_notmem _ _ _ hkeys]
    rfl

/-- The outer shard loop of `loadEntirePartition` builds, for every tenant,
exactly the per-tenant shard map of the processed shards. -/
theorem shardFold_inv (store : StoreState) (now : Int) (meta : PartitionMeta) :
    ∀ (sl processed : List Nat) (st : IndexState), sl.Nodup →
    (∀ sh ∈ sl, sh ∉ processed) →
    (∀ t, lookupA st.loadedPartitions ⟨meta.Key, t⟩ =
      if restoreShardsFor store meta.Key processed t = [] then none
      else some ⟨meta, now, restoreShardsFor store meta.Key processed t⟩) →
    ∀ t, lookupA ((sl.foldl (fun st sh =>
        (listTenants store meta.Key sh).foldl
          (fun st t0 => loadShardTenant store now meta sh t0 st) st)
        st).loadedPartitions) ⟨meta.Key, t⟩ =
      if restoreShardsFor store meta.Key (processed ++ sl) t = [] then none
      else some ⟨meta, now, restoreShardsFor store meta.Key (processed ++ sl) t⟩ := by
  intro sl
  induction sl with
  | nil =>
    intro processed st _ _ hInv t
    rw [List.foldl_nil, List.append_nil]
    exact hInv t
  | cons sh sl ih =>
    intro processed st hnd hdis hInv t
    rw [List.foldl_cons]
    have hnd' := (List.nodup_cons.mp hnd).2
    have hshsl := (List.nodup_cons.mp hnd).1
    have hshp : sh ∉ processed := hdis sh (List.mem_cons_self sh sl)
    have hInv1 : ∀ t', lookupA ((listTenants store meta.Key sh).foldl
        (fun st t0 => loadShardTenant store now meta sh t0 st)
        st).loadedPartitions ⟨meta.Key, t'⟩ =
        if restoreShardsFor store meta.Key (processed ++ [sh]) t' = [] then none
        else some ⟨meta, now, restoreShardsFor store meta.Key (processed ++ [sh]) t'⟩ := by
      intro t'
      rw [tenantFold_lookup store now meta sh (listTenants store meta.Key sh)
        (listTenants_nodup store meta.Key sh) st t']
      by_cases ht' : t' ∈ listTenants store meta.Key sh
      · rw [if_pos ht', hInv t', stepEntry_rsf store now meta sh t' processed hshp,
          restoreShardsFor_append, if_pos ht']
        rw [if_neg (by simp)]
      · rw [if_neg ht', hInv t', restoreShardsFor_append, if_neg ht',
          List.append_nil]
    have hdis' : ∀ sh' ∈ sl, sh' ∉ processed ++ [sh] := by
      intro sh' hsh' hmem
      rcases List.mem_append.mp hmem with h | h
      · exact hdis sh' (List.mem_cons_of_mem sh hsh') h
      · exact hshsl (List.mem_singleton.mp h ▸ hsh')
    have := ih (processed ++ [sh]) _ hnd' hdis' hInv1 t
    rwa [List.append_assoc, List.singleton_append] at this

/-- The shard loop of `loadEntirePartition` leaves other partitions' cache
keys untouched. -/
theorem shardFold_other (store : StoreState) (now : Int)
    (meta : PartitionMeta) :
    ∀ (sl : List Nat) (st : IndexState) (ck : CacheKey),
    ck.partitionKey ≠ meta.Key →
    lookupA ((sl.foldl (fun st sh =>
        (listTenants store meta.Key sh).foldl
          (fun st t0 => loadShardTenant store now meta sh t0 st) st)
        st).loadedPartitions) ck = lookupA st.loadedPartitions ck := by
  intro sl
  induction sl with
  | nil => intro st ck _; rfl
  | cons sh sl ih =>
    intro st ck hck
    rw [List.foldl_cons, ih _ _ hck, tenantFold_lookup_other _ _ _ _ _ _ _ hck]

theorem loadEntirePartition_lookup (store : StoreState) (now : Int)
    (st : IndexState) (meta : PartitionMeta)
    (hstart : ∀ t, lookupA st.loadedPartitions ⟨meta.Key, t⟩ = none)
    (t : String) :
    lookupA (loadEntirePartition store now st meta).loadedPartitions
      ⟨meta.Key, t⟩ =
      if restoreShardsFor store meta.Key (listShards store meta.Key) t = []
      then none
      else some ⟨meta, now,
        restoreShardsFor store meta.Key (listShards store meta.Key) t⟩ := by
  have h := shardFold_inv store now meta (listShards store meta.Key) [] st
    (listShards_nodup store meta.Key) (by intro sh _ hmem; cases hmem)
    (by
      intro t'
      rw [hstart t']
      have : restoreShardsFor store meta.Key [] t' = [] := rfl
      rw [this, if_pos rfl]) t
  rw [List.nil_append] at h
  exact h

theorem loadEntirePartition_other (store : StoreState) (now : Int)
    (st : IndexState) (meta : PartitionMeta) (ck : CacheKey)
    (hck : ck.partitionKey ≠ meta.Key) :
    lookupA (loadEntirePartition store now st meta).loadedPartitions ck =
      lookupA st.loadedPartitions ck :=
  shardFold_other store now meta (listShards store meta.Key) st ck hck

theorem foldl_presKey {γ : Type} (f : PartitionMeta → γ → PartitionMeta)
    (h : ∀ m x, (f m x).Key = m.Key) :
    ∀ (l : List γ) (m : PartitionMeta), (l.foldl f m).Key = m.Key := by
  intro l
  induction l with
  | nil => intro m; rfl
  | cons x xs ih => intro m; rw [List.foldl_cons, ih, h]

theorem loadPartitionMeta_Key (store : StoreState) (k : PartitionKey) :
    (loadPartitionMeta store k).Key = k := by
  unfold loadPartitionMeta
  rw [foldl_presKey]
  intro m sh
  rw [foldl_presKey]
  intro m' t
  exact AddTenant_Key m' t

/-- The restore fold of `LoadPartitions`: partition metas accumulate in
listing order, every active partition's entries are fully loaded, and
partitions outside the listing are untouched. -/
theorem loadPartitionsFold (store : StoreState) (now : Int) :
    ∀ (kl : List PartitionKey) (st : IndexState), kl.Nodup →
    (∀ k ∈ kl, ∀ t, lookupA st.loadedPartitions ⟨k, t⟩ = none) →
    ((kl.foldl (fun st key =>
        let pMeta := loadPartitionMeta store key
        let st' : IndexState :=
          { st with allPartitions := st.allPartitions ++ [pMeta] }
        if pMeta.contains now then loadEntirePartition store now st' pMeta
        else st') st).allPartitions =
      st.allPartitions ++ kl.map (loadPartitionMeta store)) ∧
    (∀ ck : CacheKey, ck.partitionKey ∉ kl →
      lookupA ((kl.foldl (fun st key =>
        let pMeta := loadPartitionMeta store key
        let st' : IndexState :=
          { st with allPartitions := st.allPartitions ++ [pMeta] }
        if pMeta.contains now then loadEntirePartition store now st' pMeta
        else st') st).loadedPartitions) ck = lookupA st.loadedPartitions ck) ∧
    (∀ k ∈ kl, (loadPartitionMeta store k).contains now → ∀ t,
      lookupA ((kl.foldl (fun st key =>
        let pMeta := loadPartitionMeta store key
        let st' : IndexState :=
          { st with allPartitions := st.allPartitions ++ [pMeta] }
        if pMeta.contains now then loadEntirePartition store now st' pMeta
        else st') st).loadedPartitions) ⟨k, t⟩ =
        if restoreShardsFor store k (listShards store k) t = [] then none
        else some ⟨loadPartitionMeta store k, now,
          restoreShardsFor store k (listShards store k) t⟩) := by
  intro kl
  induction kl with
  | nil =>
    intro st _ _
    refine ⟨by simp, fun ck _ => rfl, fun k hk => absurd hk (List.not_mem_nil k)⟩
  | cons k kl ih =>
    intro st hnd hstart
    rcases List.nodup_cons.mp hnd with ⟨hkkl, hnd'⟩
    rw [List.foldl_cons]
    simp only
    set pMeta := loadPartitionMeta store k with hpM
    have hpMK : pMeta.Key = k := loadPartitionMeta_Key store k
    set st1 : IndexState :=
      if pMeta.contains now then
        loadEntirePartition store now
          { st with allPartitions := st.allPartitions ++ [pMeta] } pMeta
      else { st with allPartitions := st.allPartitions ++ [pMeta] } with hst1
    have hall1 : st1.allPartitions = st.allPartitions ++ [pMeta] := by
      rw [hst1]
      split
      · rw [loadEntirePartition_allPartitions]
      · rfl
    have hother1 : ∀ ck : CacheKey, ck.partitionKey ≠ k →
        lookupA st1.loadedPartitions ck = lookupA st.loadedPartitions ck := by
      intro ck hck
      rw [hst1]
      split
      · rw [loadEntirePartition_other _ _ _ _ _ (hpMK ▸ hck)]
      · rfl
    have hstart1 : ∀ k' ∈ kl, ∀ t,
        lookupA st1.loadedPartitions ⟨k', t⟩ = none := by
      intro k' hk' t
      have hne : (⟨k', t⟩ : CacheKey).partitionKey ≠ k := by
        intro h
        exact hkkl (h ▸ hk')
      rw [hother1 _ hne]
      exact hstart k' (List.mem_cons_of_mem k hk') t
    have hself1 : pMeta.contains now → ∀ t,
        lookupA st1.loadedPartitions ⟨k, t⟩ =
          if restoreShardsFor store k (listShards store k) t = [] then none
          else some ⟨pMeta, now, restoreShardsFor store k (listShards store k) t⟩ := by
      intro hcont t
      rw [hst1, if_pos hcont]
      have h := loadEntirePartition_lookup store now
        { st with allPartitions := st.allPartitions ++ [pMeta] } pMeta
        (by
          intro t'
          rw [hpMK]
          exact hstart k (List.mem_cons_self k kl) t') t
      rw [hpMK] at h
      exact h
    obtain ⟨iha, ihb, ihc⟩ := ih st1 hnd' hstart1
    refine ⟨?_, ?_, ?_⟩
    · rw [iha, hall1, List.map_cons, List.append_assoc, List.singleton_append]
    · intro ck hck
      have hckk : ck.partitionKey ≠ k := fun h => hck (h ▸ List.mem_cons_self k kl)
      have hckkl : ck.partitionKey ∉ kl :=
        fun h => hck (List.mem_cons_of_mem k h)
      rw [ihb ck hckkl, hother1 ck hckk]
    · intro k' hk' hcont t
      rcases List.mem_cons.mp hk' with rfl | hk'
      · have hckkl : (⟨k', t⟩ : CacheKey).partitionKey ∉ kl := hkkl
        rw [ihb _ hckkl]
        exact hself1 hcont t
      · exact ihc k' hk' hcont t

/-! ### `allPartitions` invariant lemmas -/

theorem foldl_presProj {α γ : Type} (g : PartitionMeta → α)
    (f : PartitionMeta → γ → PartitionMeta) (h : ∀ m x, g (f m x) = g m) :
    ∀ (l : List γ) (m : PartitionMeta), g (l.foldl f m) = g m := by
  intro l
  induction l with
  | nil => intro m; rfl
  | cons x xs ih => intro m; rw [List.foldl_cons, ih, h]

theorem AddTenant_Ts (m : PartitionMeta) (t : String) :
    (m.AddTenant t).Ts = m.Ts := by
  unfold PartitionMeta.AddTenant
  split <;> rfl

theorem AddTenant_Duration (m : PartitionMeta) (t : String) :
    (m.AddTenant t).Duration = m.Duration := by
  unfold PartitionMeta.AddTenant
  split <;> rfl

theorem addTenantsOfBlock_Ts (b : BlockMeta) (m : PartitionMeta) :
    (addTenantsOfBlock b m).Ts = m.Ts := by
  unfold addTenantsOfBlock
  split
  · exact AddTenant_Ts m b.TenantId
  · exact foldl_presProj (fun m => m.Ts) _
      (fun m' d => AddTenant_Ts m' d.TenantId) b.Datasets m

theorem addTenantsOfBlock_Duration (b : BlockMeta) (m : PartitionMeta) :
    (addTenantsOfBlock b m).Duration = m.Duration := by
  unfold addTenantsOfBlock
  split
  · exact AddTenant_Duration m b.TenantId
  · exact foldl_presProj (fun m => m.Duration) _
      (fun m' d => AddTenant_Duration m' d.TenantId) b.Datasets m

theorem loadPartitionMeta_Ts (store : StoreState) (k : PartitionKey) :
    (loadPartitionMeta store k).Ts = k.ts := by
  unfold loadPartitionMeta
  rw [foldl_presProj (fun m => m.Ts)]
  intro m sh
  rw [foldl_presProj (fun m => m.Ts)]
  intro m' t
  exact AddTenant_Ts m' t

theorem loadPartitionMeta_Duration (store : StoreState) (k : PartitionKey) :
    (loadPartitionMeta store k).Duration = k.duration := by
  unfold loadPartitionMeta
  rw [foldl_presProj (fun m => m.Duration)]
  intro m sh
  rw [foldl_presProj (fun m => m.Duration)]
  intro m' t
  exact AddTenant_Duration m' t

theorem pmLe_congr (a a' b b' : PartitionMeta) (ha1 : a.Ts = a'.Ts)
    (ha2 : a.Duration = a'.Duration) (hb1 : b.Ts = b'.Ts)
    (hb2 : b.Duration = b'.Duration) (h : pmLe a b) : pmLe a' b' := by
  unfold pmLe at h ⊢
  rw [← ha1, ← ha2, ← hb1, ← hb2]
  exact h

theorem mem_updateFirstMeta (l : List PartitionMeta) (key : PartitionKey)
    (m' : PartitionMeta) (y : PartitionMeta)
    (h : y ∈ updateFirstMeta l key m') :
    y ∈ l ∨ (y = m' ∧ ∃ e ∈ l, e.Key = key) := by
  induction l with
  | nil => cases h
  | cons m rest ih =>
    by_cases hmk : m.Key = key
    · rw [updateFirstMeta, if_pos hmk] at h
      rcases List.mem_cons.mp h with rfl | h
      · exact Or.inr ⟨rfl, m, List.mem_cons_self m rest, hmk⟩
      · exact Or.inl (List.mem_cons_of_mem m h)
    · rw [updateFirstMeta, if_neg hmk] at h
      rcases List.mem_cons.mp h with rfl | h
      · exact Or.inl (List.mem_cons_self y rest)
      · rcases ih h with h | ⟨rfl, e, he, hek⟩
        · exact Or.inl (List.mem_cons_of_mem m h)
        · exact Or.inr ⟨rfl, e, List.mem_cons_of_mem m he, hek⟩

theorem updateFirstMeta_keys (l : List PartitionMeta) (key : PartitionKey)
    (m' : PartitionMeta) (hk : m'.Key = key) :
    (updateFirstMeta l key m').map (fun m => m.Key) =
      l.map (fun m => m.Key) := by
  induction l with
  | nil => rfl
  | cons m rest ih =>
    by_cases hmk : m.Key = key
    · rw [updateFirstMeta, if_pos hmk, List.map_cons, List.map_cons, hk, hmk]
    · rw [updateFirstMeta, if_neg hmk, List.map_cons, List.map_cons, ih]

theorem updateFirstMeta_pres (l : List PartitionMeta) (key : PartitionKey)
    (m' : PartitionMeta) (hinv : PartitionsInv l) (hk : m'.Key = key)
    (hts : m'.Ts = key.ts) (hd : m'.Duration = key.duration) :
    PartitionsInv (updateFirstMeta l key m') := by
  induction l with
  | nil => exact hinv
  | cons m rest ih =>
    obtain ⟨hp, hnd, hco⟩ := hinv
    rcases List.pairwise_cons.mp hp with ⟨hm, hrest⟩
    have hnd2 : (m.Key :: rest.map (fun m => m.Key)).Nodup := by
      simpa using hnd
    rcases List.nodup_cons.mp hnd2 with ⟨hknotin, hkndrest⟩
    have hcoM := hco m (List.mem_cons_self m rest)
    by_cases hmk : m.Key = key
    · rw [updateFirstMeta, if_pos hmk]
      have hts' : m.Ts = m'.Ts := by rw [hts, ← hmk, hcoM.1]
      have hd' : m.Duration = m'.Duration := by rw [hd, ← hmk, hcoM.2]
      refine ⟨List.pairwise_cons.mpr ⟨?_, hrest⟩, ?_, ?_⟩
      · intro y hy
        exact pmLe_congr m m' y y hts' hd' rfl rfl (hm y hy)
      · rw [List.map_cons, hk, ← hmk]
        exact hnd2
      · intro y hy
        rcases List.mem_cons.mp hy with rfl | hy
        · exact ⟨by rw [hts, hk], by rw [hd, hk]⟩
        · exact hco y (List.mem_cons_of_mem m hy)
    · rw [updateFirstMeta, if_neg hmk]
      have hinv' : PartitionsInv rest :=
        ⟨hrest, hkndrest, fun y hy => hco y (List.mem_cons_of_mem m hy)⟩
      obtain ⟨ihp, ihnd, ihco⟩ := ih hinv'
      refine ⟨List.pairwise_cons.mpr ⟨?_, ihp⟩, ?_, ?_⟩
      · intro y hy
        rcases mem_updateFirstMeta rest key m' y hy with h | ⟨rfl, e, he, hek⟩
        · exact hm y h
        · have hce := hco e (List.mem_cons_of_mem m he)
          have h1 : e.Ts = y.Ts := by rw [hts, ← hek, hce.1]
          have h2 : e.Duration = y.Duration := by rw [hd, ← hek, hce.2]
          exact pmLe_congr m m e y rfl rfl h1 h2 (hm e he)
      · rw [List.map_cons, updateFirstMeta_keys rest key m' hk]
        exact hnd2
      · intro y hy
        rcases List.mem_cons.mp hy with rfl | hy
        · exact hcoM
        · exact ihco y hy

theorem findPartitionMeta_none (s : IndexState) (key : PartitionKey)
    (h : findPartitionMeta s key = none) :
    ∀ m ∈ s.allPartitions, m.Key ≠ key := by
  intro m hm
  have := List.find?_eq_none.mp h m hm
  simpa using this

theorem getOrCreatePartitionMeta_inv (cfg : Config) (s : IndexState)
    (b : BlockMeta) (h : PartitionsInv s.allPartitions) :
    PartitionsInv (getOrCreatePartitionMeta cfg s b).2.allPartitions := by
  cases hf : findPartitionMeta s (createPartitionKey b.Id cfg.PartitionDuration) with
  | some m =>
    simp only [getOrCreatePartitionMeta, hf]
    have hmk := findPartitionMeta_key s _ m hf
    have hmem := findPartitionMeta_mem s _ m hf
    have hcm := h.2.2 m hmem
    apply updateFirstMeta_pres _ _ _ h
    · rw [addTenantsOfBlock_Key, hmk]
    · rw [addTenantsOfBlock_Ts, hcm.1, hmk]
    · rw [addTenantsOfBlock_Duration, hcm.2, hmk]
  | none =>
    simp only [getOrCreatePartitionMeta, hf]
    have hnotin := findPartitionMeta_none s _ hf
    apply updateFirstMeta_pres
    · refine ⟨sortPartitionList_pairwise _, ?_, ?_⟩
      · have hperm := (sortPartitionList_perm
          (s.allPartitions ++
            [⟨createPartitionKey b.Id cfg.PartitionDuration,
              (createPartitionKey b.Id cfg.PartitionDuration).ts,
              (createPartitionKey b.Id cfg.PartitionDuration).duration, []⟩])).map
          (fun m => m.Key)
        apply hperm.symm.nodup
        rw [List.map_append]
        rw [List.nodup_append]
        refine ⟨h.2.1, List.nodup_singleton _, ?_⟩
        intro k hk1 hk2
        rcases List.mem_map.mp hk1 with ⟨m, hm, hmk⟩
        rw [List.map_cons, List.map_nil] at hk2
        have : k = createPartitionKey b.Id cfg.PartitionDuration := by
          simpa using hk2
        exact hnotin m hm (hmk.symm ▸ this ▸ rfl)
      · intro y hy
        have hy' := (sortPartitionList_perm _).subset hy
        rcases List.mem_append.mp hy' with hy' | hy'
        · exact h.2.2 y hy'
        · have : y = ⟨createPartitionKey b.Id cfg.PartitionDuration,
              (createPartitionKey b.Id cfg.PartitionDuration).ts,
              (createPartitionKey b.Id cfg.PartitionDuration).duration, []⟩ := by
            simpa using hy'
          rw [this]
          exact ⟨rfl, rfl⟩
    · rw [addTenantsOfBlock_Key]
    · rw [addTenantsOfBlock_Ts]
    · rw [addTenantsOfBlock_Duration]

theorem insertBlock_allPartitions (cfg : Config) (store : StoreState)
    (now : Int) (s : IndexState) (b : BlockMeta) :
    (insertBlock cfg store now s b).allPartitions =
      (getOrCreatePartitionMeta cfg s b).2.allPartitions := by
  simp only [insertBlock]
  cases hfin : lookupA (getOrLoadPartition cfg store now
      (getOrCreatePartitionMeta cfg s b).2 (getOrCreatePartitionMeta cfg s b).1
      b.TenantId).2.loadedPartitions
      ⟨(getOrCreatePartitionMeta cfg s b).1.Key, b.TenantId⟩ with
  | none =>
    exact getOrLoadPartition_allPartitions cfg store now
      (getOrCreatePartitionMeta cfg s b).2 (getOrCreatePartitionMeta cfg s b).1
      b.TenantId
  | some q =>
    exact getOrLoadPartition_allPartitions cfg store now
      (getOrCreatePartitionMeta cfg s b).2 (getOrCreatePartitionMeta cfg s b).1
      b.TenantId

theorem insertBlock_inv (cfg : Config) (store : StoreState) (now : Int)
    (s : IndexState) (b : BlockMeta) (h : PartitionsInv s.allPartitions) :
    PartitionsInv (insertBlock cfg store now s b).allPartitions := by
  rw [insertBlock_allPartitions]
  exact getOrCreatePartitionMeta_inv cfg s b h

theorem findBlockInPartition_allPartitions (cfg : Config)
    (store : StoreState) (now : Int) (s : IndexState) (key : PartitionKey)
    (shard : Nat) (tenant : String) (blockId : BlockId) :
    (findBlockInPartition cfg store now s key shard tenant blockId).2.allPartitions =
      s.allPartitions := by
  unfold findBlockInPartition
  cases hf : findPartitionMeta s key with
  | none => rfl
  | some meta =>
    simp only
    cases hsh : lookupA (getOrLoadPartition cfg store now s meta tenant).1.shards
        shard with
    | none => exact getOrLoadPartition_allPartitions cfg store now s meta tenant
    | some sh => exact getOrLoadPartition_allPartitions cfg store now s meta tenant

theorem findBlockLoop_allPartitions (cfg : Config) (store : StoreState)
    (now : Int) (t : Int) (shard : Nat) (tenant : String) (blockId : BlockId) :
    ∀ (metas : List PartitionMeta) (s : IndexState),
    (findBlockLoop cfg store now metas s t shard tenant blockId).2.allPartitions =
      s.allPartitions := by
  intro metas
  induction metas with
  | nil => intro s; rfl
  | cons m rest ih =>
    intro s
    simp only [findBlockLoop]
    split
    · split
      · rename_i b s' hp
        have h := findBlockInPartition_allPartitions cfg store now s m.Key shard
          tenant blockId
        rw [hp] at h
        exact h
      · rename_i s' hp
        have h := findBlockInPartition_allPartitions cfg store now s m.Key shard
          tenant blockId
        rw [hp] at h
        rw [ih s']
        exact h
    · exact ih s

theorem findBlock_allPartitions (cfg : Config) (store : StoreState)
    (now : Int) (s : IndexState) (shard : Nat) (tenant : String)
    (blockId : BlockId) :
    (findBlock cfg store now s shard tenant blockId).2.allPartitions =
      s.allPartitions := by
  simp only [findBlock]
  split
  · rename_i b s' hp
    have h := findBlockInPartition_allPartitions cfg store now s
      (createPartitionKey blockId cfg.PartitionDuration) shard tenant blockId
    rw [hp] at h
    exact h
  · rename_i s' hp
    have h := findBlockInPartition_allPartitions cfg store now s
      (createPartitionKey blockId cfg.PartitionDuration) shard tenant blockId
    rw [hp] at h
    rw [findBlockLoop_allPartitions, h]

theorem findBlocksLoop_allPartitions (cfg : Config) (store : StoreState)
    (now : Int) (tenant : String) (shard : Nat) :
    ∀ (ks : List PartitionKey) (left : List BlockId) (s : IndexState),
    (findBlocksLoop cfg store now tenant shard ks left s).2.allPartitions =
      s.allPartitions := by
  intro ks
  induction ks with
  | nil => intro left s; rfl
  | cons k ks ih =>
    intro left s
    cases hf : findPartitionMeta s k with
    | none => simp only [findBlocksLoop, hf]; exact ih left s
    | some meta =>
      simp only [findBlocksLoop, hf]
      cases hsh : lookupA (getOrLoadPartition cfg store now s meta tenant).1.shards
          shard with
      | none =>
        rw [ih]
        exact getOrLoadPartition_allPartitions cfg store now s meta tenant
      | some shm =>
        simp only
        rw [ih]
        exact getOrLoadPartition_allPartitions cfg store now s meta tenant

theorem rangeTenantsLoop_allPartitions (cfg : Config) (store : StoreState)
    (now : Int) (meta : PartitionMeta) (startMs endMs : Int) :
    ∀ (ts : List String) (s : IndexState),
    (rangeTenantsLoop cfg store now meta startMs endMs ts s).2.allPartitions =
      s.allPartitions := by
  intro ts
  induction ts with
  | nil => intro s; rfl
  | cons t ts ih =>
    intro s
    simp only [rangeTenantsLoop]
    split
    · simp only
      rw [ih]
      rw [getOrLoadPartition_allPartitions, getOrLoadPartition_allPartitions]
    · exact ih s

theorem rangeMetasLoop_allPartitions (cfg : Config) (store : StoreState)
    (now : Int) (startMs endMs sw ew : Int) (tenants : List String) :
    ∀ (metas : List PartitionMeta) (s : IndexState),
    (rangeMetasLoop cfg store now startMs endMs sw ew tenants metas s).2.allPartitions =
      s.allPartitions := by
  intro metas
  induction metas with
  | nil => intro s; rfl
  | cons m rest ih =>
    intro s
    simp only [rangeMetasLoop]
    split
    · simp only
      rw [ih, rangeTenantsLoop_allPartitions]
    · exact ih s

theorem deleteListStep_allPartitions (cfg : Config) (src : BlockList)
    (k : PartitionKey) (s : IndexState) (store : StoreState) :
    (deleteListStep cfg src k s store).1.allPartitions = s.allPartitions := by
  unfold deleteListStep
  simp only
  split
  · rfl
  · split
    · rfl
    · rfl

theorem deleteListLoop_allPartitions (cfg : Config) (src : BlockList) :
    ∀ (ks : List PartitionKey) (s : IndexState) (store : StoreState),
    (deleteListLoop cfg src ks s store).1.allPartitions = s.allPartitions := by
  intro ks
  induction ks with
  | nil => intro s store; rfl
  | cons k ks ih =>
    intro s store
    simp only [deleteListLoop]
    rw [ih, deleteListStep_allPartitions]

theorem insertBlocks_inv (cfg : Config) (now : Int) :
    ∀ (bs : List BlockMeta) (s : IndexState) (store : StoreState),
    PartitionsInv s.allPartitions →
    PartitionsInv (insertBlocks cfg now bs s store).1.allPartitions := by
  intro bs
  induction bs with
  | nil => intro s store h; exact h
  | cons b bs ih =>
    intro s store h
    simp only [insertBlocks]
    exact ih _ _ (insertBlock_inv cfg store now s b h)

theorem tryDelete_allPartitions (s : IndexState) (key : PartitionKey)
    (shard : Nat) (tenant : String) (blockId : BlockId) :
    (tryDelete s key shard tenant blockId).2.allPartitions = s.allPartitions := by
  unfold tryDelete
  split
  · rfl
  · split
    · rfl
    · split
      · rfl
      · split
        · rfl
        · rfl

theorem deleteBlockLoop_allPartitions (shard : Nat) (tenant : String)
    (blockId : BlockId) (t : Int) :
    ∀ (metas : List PartitionMeta) (s : IndexState),
    (deleteBlockLoop shard tenant blockId t metas s).allPartitions =
      s.allPartitions := by
  intro metas
  induction metas with
  | nil => intro s; rfl
  | cons m rest ih =>
    intro s
    simp only [deleteBlockLoop]
    split
    · split
      · exact tryDelete_allPartitions s m.Key shard tenant blockId
      · rw [ih, tryDelete_allPartitions]
    · exact ih s

theorem deleteBlock_allPartitions (cfg : Config) (s : IndexState)
    (shard : Nat) (tenant : String) (blockId : BlockId) :
    (deleteBlock cfg s shard tenant blockId).allPartitions = s.allPartitions := by
  unfold deleteBlock
  simp only
  split
  · exact tryDelete_allPartitions s _ shard tenant blockId
  · rw [deleteBlockLoop_allPartitions, tryDelete_allPartitions]

theorem Restore_allPartitions (cfg : Config) (store : StoreState) (now : Int)
    (s : IndexState) :
    (Restore cfg store now s).allPartitions =
      sortPartitionList ((listPartitions store).map (loadPartitionMeta store)) := by
  obtain ⟨ha, _, _⟩ := loadPartitionsFold store now (listPartitions store)
    ⟨[], []⟩ (listPartitions_nodup store) (fun k _ t => rfl)
  have h1 : (Restore cfg store now s).allPartitions =
      sortPartitionList (((listPartitions store).foldl (fun st key =>
        let pMeta := loadPartitionMeta store key
        let st' : IndexState :=
          { st with allPartitions := st.allPartitions ++ [pMeta] }
        if pMeta.contains now then loadEntirePartition store now st' pMeta
        else st') ⟨[], []⟩).allPartitions) := rfl
  rw [h1, ha, List.nil_append]

theorem Restore_inv (cfg : Config) (store : StoreState) (now : Int)
    (s : IndexState) : PartitionsInv (Restore cfg store now s).allPartitions := by
  rw [Restore_allPartitions]
  refine ⟨sortPartitionList_pairwise _, ?_, ?_⟩
  · have hperm := (sortPartitionList_perm
      ((listPartitions store).map (loadPartitionMeta store))).map (fun m => m.Key)
    apply hperm.symm.nodup
    rw [List.map_map]
    rw [show ((fun m : PartitionMeta => m.Key) ∘ loadPartitionMeta store) =
      fun k => k from funext (fun k => loadPartitionMeta_Key store k)]
    rw [List.map_id']
    exact listPartitions_nodup store
  · intro y hy
    have hy' := (sortPartitionList_perm _).subset hy
    rcases List.mem_map.mp hy' with ⟨k, _, hk⟩
    rw [← hk]
    rw [loadPartitionMeta_Ts, loadPartitionMeta_Duration, loadPartitionMeta_Key]
    exact ⟨rfl, rfl⟩

/-! ### Eviction-pass lemmas (sorting and the eviction walk) -/

theorem insertByAccessed_perm (e : CacheKey × IndexPartition)
    (l : List (CacheKey × IndexPartition)) :
    (insertByAccessed e l).Perm (e :: l) := by
  induction l with
  | nil => exact List.Perm.refl _
  | cons x xs ih =>
    rw [insertByAccessed]
    split
    · exact List.Perm.refl _
    · exact (ih.cons x).trans (List.Perm.swap e x xs)

theorem sortByAccessed_perm (l : List (CacheKey × IndexPartition)) :
    (sortByAccessed l).Perm l := by
  induction l with
  | nil => exact List.Perm.refl _
  | cons x xs ih =>
    exact (insertByAccessed_perm x (sortByAccessed xs)).trans (ih.cons x)

theorem insertByAccessed_pairwise (e : CacheKey × IndexPartition)
    (l : List (CacheKey × IndexPartition))
    (h : l.Pairwise (fun a b => a.2.accessedAt ≤ b.2.accessedAt)) :
    (insertByAccessed e l).Pairwise (fun a b => a.2.accessedAt ≤ b.2.accessedAt) := by
  induction l with
  | nil => exact List.pairwise_singleton _ e
  | cons x xs ih =>
    rw [insertByAccessed]
    rcases List.pairwise_cons.mp h with ⟨hx, hxs⟩
    split
    · rename_i hc
      refine List.pairwise_cons.mpr ⟨?_, h⟩
      intro y hy
      rcases List.mem_cons.mp hy with rfl | hy
      · exact le_of_lt hc
      · exact (le_of_lt hc).trans (hx y hy)
    · rename_i hc
      push_neg at hc
      refine List.pairwise_cons.mpr ⟨?_, ih hxs⟩
      intro y hy
      rcases List.mem_cons.mp ((insertByAccessed_perm e xs).mem_iff.mp hy) with
        rfl | h'
      · exact hc
      · exact hx y h'

theorem sortByAccessed_pairwise (l : List (CacheKey × IndexPartition)) :
    (sortByAccessed l).Pairwise (fun a b => a.2.accessedAt ≤ b.2.accessedAt) := by
  induction l with
  | nil => exact List.Pairwise.nil
  | cons x xs ih => exact insertByAccessed_pairwise x (sortByAccessed xs) ih

theorem countP_congrA {α : Type} (p q : α → Bool) (l : List α)
    (h : ∀ x ∈ l, p x = q x) : l.countP p = l.countP q := by
  induction l with
  | nil => rfl
  | cons a l ih =>
    rw [List.countP_cons, List.countP_cons, h a (List.mem_cons_self a l),
      ih (fun x hx => h x (List.mem_cons_of_mem a hx))]

/-- The eviction walk collects exactly the first `n` non-pinned entries, in
order: entries of the currently active partition are skipped, the rest are
taken oldest-first (the list being sorted by `AccessedAt`). -/
theorem evictKeys_take_filter (now : Int) (t : String) :
    ∀ (n : Nat) (l : List (CacheKey × IndexPartition)),
    evictKeys now t n l =
      ((l.filter (fun e => !decide (e.2.meta.contains now))).take n).map
        (fun e => (⟨e.2.meta.Key, t⟩ : CacheKey)) := by
  intro n l
  induction l generalizing n with
  | nil => cases n <;> rfl
  | cons e rest ih =>
    cases n with
    | zero =>
      have hz : evictKeys now t 0 (e :: rest) = [] := rfl
      rw [hz, List.take_zero, List.map_nil]
    | succ n =>
      have hunf : evictKeys now t (n + 1) (e :: rest) =
          if e.2.meta.contains now then evictKeys now t (n + 1) rest
          else ⟨e.2.meta.Key, t⟩ :: evictKeys now t n rest := rfl
      by_cases hp : e.2.meta.contains now
      · rw [hunf, if_pos hp, List.filter_cons,
          if_neg (by simp [hp]), ih]
      · rw [hunf, if_neg hp, List.filter_cons,
          if_pos (by simp [hp]), List.take_succ_cons, List.map_cons, ih]

/-- The eviction walk deletes `min n (number of non-pinned entries)` keys. -/
theorem evictKeys_length (now : Int) (t : String) (n : Nat)
    (l : List (CacheKey × IndexPartition)) :
    (evictKeys now t n l).length =
      min n (l.countP (fun e => !decide (e.2.meta.contains now))) := by
  rw [evictKeys_take_filter, List.length_map, List.length_take,
    List.countP_eq_length_filter]

/-- Sorting entries does not change the number in a list; inserting a
strictly newest entry puts it last. -/
theorem sortByAccessed_append_max (l : List (CacheKey × IndexPartition))
    (e : CacheKey × IndexPartition)
    (h : ∀ x ∈ l, x.2.accessedAt < e.2.accessedAt) :
    sortByAccessed (l ++ [e]) = sortByAccessed l ++ [e] := by
  have hins : ∀ (m : List (CacheKey × IndexPartition)) (x : CacheKey × IndexPartition),
      x.2.accessedAt < e.2.accessedAt →
      insertByAccessed x (m ++ [e]) = insertByAccessed x m ++ [e] := by
    intro m
    induction m with
    | nil =>
      intro x hx
      have h1 : insertByAccessed x ([] ++ [e]) =
          if x.2.accessedAt < e.2.accessedAt then x :: [e]
          else e :: insertByAccessed x [] := rfl
      rw [h1, if_pos hx]
      rfl
    | cons y ys ih =>
      intro x hx
      have h1 : insertByAccessed x ((y :: ys) ++ [e]) =
          if x.2.accessedAt < y.2.accessedAt then x :: y :: (ys ++ [e])
          else y :: insertByAccessed x (ys ++ [e]) := rfl
      have h2 : insertByAccessed x (y :: ys) =
          if x.2.accessedAt < y.2.accessedAt then x :: y :: ys
          else y :: insertByAccessed x ys := rfl
      by_cases hc : x.2.accessedAt < y.2.accessedAt
      · rw [h1, if_pos hc, h2, if_pos hc]
        rfl
      · rw [h1, if_neg hc, h2, if_neg hc, ih x hx, List.cons_append]
  induction l with
  | nil =>
    rw [List.nil_append]
    rfl
  | cons x xs ih =>
    have h1 : sortByAccessed ((x :: xs) ++ [e]) =
        insertByAccessed x (sortByAccessed (xs ++ [e])) := rfl
    have h2 : sortByAccessed (x :: xs) = insertByAccessed x (sortByAccessed xs) := rfl
    rw [h1, ih (fun y hy => h y (List.mem_cons_of_mem x hy)), h2,
      hins _ x (h x (List.mem_cons_self x xs))]

theorem lookupA_eq_none {α β : Type} [DecidableEq α]
    (l : List (α × β)) (k : α) :
    lookupA l k = none ↔ k ∉ l.map Prod.fst := by
  induction l with
  | nil => simp [lookupA]
  | cons e rest ih =>
    by_cases he : e.1 = k
    · rw [lookupA, if_pos he]
      simp [he]
    · rw [lookupA, if_neg he]
      rw [List.map_cons, List.mem_cons]
      constructor
      · intro h hm
        rcases hm with hm | hm
        · exact he hm.symm
        · exact (ih.mp h) hm
      · intro h
        exact ih.mpr (fun hm => h (Or.inr hm))

/-- Entries of one tenant after the eviction pass: those whose key is not on
the tenant's eviction list. -/
theorem entriesFor_unloadPartitions (cfg : Config) (now : Int)
    (s : IndexState) (t : String) :
    entriesFor (unloadPartitions cfg now s) t =
      (entriesFor s t).filter (fun e =>
        decide (e.1 ∉ evictKeys now t (tenantExcess cfg s t)
          (sortByAccessed (entriesFor s t)))) := by
  unfold entriesFor unloadPartitions
  simp only
  rw [List.filter_filter, List.filter_filter]
  apply List.filter_congr
  intro e _
  by_cases ht : e.1.tenant = t
  · simp [ht, entriesFor]
  · simp [ht]

/-- Per-tenant cache size after the eviction pass, assuming distinct cache
keys and key-consistent entries. -/
theorem countAfter_evict (now : Int) (t : String) :
    ∀ (l' : List (CacheKey × IndexPartition)) (n : Nat),
    ((l'.map Prod.fst).Nodup) →
    (∀ e ∈ l', e.2.meta.Key = e.1.partitionKey ∧ e.1.tenant = t) →
    l'.countP (fun e => decide (e.1 ∉ evictKeys now t n l')) =
      l'.length - min n (l'.countP (fun e => !decide (e.2.meta.contains now))) := by
  intro l'
  induction l' with
  | nil => intro n _ _; simp
  | cons e rest ih =>
    intro n hnd hkc
    have hekey : e.2.meta.Key = e.1.partitionKey :=
      (hkc e (List.mem_cons_self e rest)).1
    have heten : e.1.tenant = t := (hkc e (List.mem_cons_self e rest)).2
    have hndrest : (rest.map Prod.fst).Nodup := (List.nodup_cons.mp hnd).2
    have hnotin : e.1 ∉ rest.map Prod.fst := (List.nodup_cons.mp hnd).1
    have hkcrest : ∀ x ∈ rest, x.2.meta.Key = x.1.partitionKey ∧ x.1.tenant = t :=
      fun x hx => hkc x (List.mem_cons_of_mem e hx)
    have hminle : ∀ m : Nat,
        min m (rest.countP (fun x => !decide (x.2.meta.contains now))) ≤
          rest.length := by
      intro m
      exact le_trans (min_le_right _ _) (List.countP_le_length _)
    -- keys appearing on an eviction list over `rest` are keys of `rest`
    have hkeysub : ∀ m, e.1 ∉ evictKeys now t m rest := by
      intro m hmem
      rw [evictKeys_take_filter] at hmem
      rcases List.mem_map.mp hmem with ⟨x, hx, hkx⟩
      have hx1 : x ∈ rest := List.mem_of_mem_filter (List.take_subset _ _ hx)
      have hkey : (⟨x.2.meta.Key, t⟩ : CacheKey) = x.1 := by
        rw [(hkcrest x hx1).1, ← (hkcrest x hx1).2]
      exact hnotin (List.mem_map.mpr ⟨x, hx1, by rw [← hkey, hkx]⟩)
    cases n with
    | zero =>
      have hz : evictKeys now t 0 (e :: rest) = [] := rfl
      rw [hz]
      have hall : ∀ a ∈ (e :: rest),
          (fun x : CacheKey × IndexPartition =>
            decide (x.1 ∉ ([] : List CacheKey))) a = true := by
        intro a _
        simp
      rw [List.countP_eq_length.mpr hall, Nat.zero_min, Nat.sub_zero]
    | succ n =>
      have hunf : evictKeys now t (n + 1) (e :: rest) =
          if e.2.meta.contains now then evictKeys now t (n + 1) rest
          else ⟨e.2.meta.Key, t⟩ :: evictKeys now t n rest := rfl
      by_cases hp : e.2.meta.contains now
      · have hev : evictKeys now t (n + 1) (e :: rest) =
            evictKeys now t (n + 1) rest := by
          rw [hunf, if_pos hp]
        rw [hev, List.countP_cons]
        have hpe : decide (e.1 ∉ evictKeys now t (n + 1) rest) = true := by
          simpa using hkeysub (n + 1)
        simp only [hpe]
        rw [ih (n + 1) hndrest hkcrest]
        have hnp : (e :: rest).countP (fun x => !decide (x.2.meta.contains now)) =
            rest.countP (fun x => !decide (x.2.meta.contains now)) := by
          rw [List.countP_cons]
          simp [hp]
        rw [hnp, List.length_cons]
        have hone : (if True then 1 else 0) = 1 := rfl
        rw [hone]
        have hmin := hminle (n + 1)
        set M := (n + 1) ⊓ rest.countP (fun x => !decide (x.2.meta.contains now)) with hM
        omega
      · have hhead : (⟨e.2.meta.Key, t⟩ : CacheKey) = e.1 := by
          rw [hekey, ← heten]
        have hev : evictKeys now t (n + 1) (e :: rest) =
            e.1 :: evictKeys now t n rest := by
          rw [hunf, if_neg hp, hhead]
        rw [hev, List.countP_cons]
        have hpe : decide (e.1 ∉ e.1 :: evictKeys now t n rest) = false := by
          simp
        simp only [hpe]
        have hcong : rest.countP (fun x : CacheKey × IndexPartition =>
            decide (x.1 ∉ e.1 :: evictKeys now t n rest)) =
            rest.countP (fun x : CacheKey × IndexPartition =>
              decide (x.1 ∉ evictKeys now t n rest)) := by
          apply countP_congrA
          intro x hx
          have hxne : x.1 ≠ e.1 := by
            intro hq
            exact hnotin (hq ▸ List.mem_map.mpr ⟨x, hx, rfl⟩)
          simp [List.mem_cons, hxne]
        rw [hcong, ih n hndrest hkcrest]
        have hnp : (e :: rest).countP (fun x => !decide (x.2.meta.contains now)) =
            rest.countP (fun x => !decide (x.2.meta.contains now)) + 1 := by
          rw [List.countP_cons]
          simp [hp]
        rw [hnp, List.length_cons, Nat.succ_min_succ]
        norm_num
        have hmin := hminle n
        set M := n ⊓ rest.countP (fun x => !decide (x.2.meta.contains now)) with hM
        omega

theorem replaceA_keys {α β : Type} [DecidableEq α]
    (l : List (α × β)) (k : α) (v : β) :
    (replaceA l k v).map Prod.fst = l.map Prod.fst := by
  induction l with
  | nil => rfl
  | cons e rest ih =>
    by_cases he : e.1 = k
    · rw [replaceA, if_pos he, List.map_cons, List.map_cons, ih, he]
    · rw [replaceA, if_neg he, List.map_cons, List.map_cons, ih]

theorem insertA_keys {α β : Type} [DecidableEq α]
    (l : List (α × β)) (k : α) (v : β) :
    (insertA l k v).map Prod.fst =
      if k ∈ l.map Prod.fst then l.map Prod.fst else l.map Prod.fst ++ [k] := by
  unfold insertA
  by_cases hmem : k ∈ l.map Prod.fst
  · rw [if_pos hmem, if_pos hmem, replaceA_keys]
  · rw [if_neg hmem, if_neg hmem, List.map_append]
    rfl

/-- Per-tenant cache-size bound after an eviction pass: at most the cache
budget, or the number of pinned (currently active) entries if that is
larger. -/
theorem unloadPartitions_count_bound (cfg : Config) (now : Int)
    (x : IndexState) (t : String)
    (hnd : (x.loadedPartitions.map Prod.fst).Nodup)
    (hkc : KeyConsistent x) :
    (entriesFor (unloadPartitions cfg now x) t).length ≤
      max cfg.PartitionCacheSize.toNat
        ((entriesFor (unloadPartitions cfg now x) t).countP
          (fun e => decide (e.2.meta.contains now))) := by
  set l := entriesFor x t with hl
  have hsubl : l.Sublist x.loadedPartitions := List.filter_sublist _
  have hndl : (l.map Prod.fst).Nodup := (hsubl.map Prod.fst).nodup hnd
  have hkcl : ∀ e ∈ l, e.2.meta.Key = e.1.partitionKey ∧ e.1.tenant = t := by
    intro e he
    refine ⟨hkc e (hsubl.subset he), ?_⟩
    have := List.mem_filter.mp (hl ▸ he)
    simpa using this.2
  have hperm : (sortByAccessed l).Perm l := sortByAccessed_perm l
  have hnds : ((sortByAccessed l).map Prod.fst).Nodup :=
    ((hperm.map Prod.fst).symm).nodup hndl
  have hkcs : ∀ e ∈ sortByAccessed l,
      e.2.meta.Key = e.1.partitionKey ∧ e.1.tenant = t :=
    fun e he => hkcl e (hperm.subset he)
  -- the surviving entries and their count
  rw [entriesFor_unloadPartitions]
  rw [← List.countP_eq_length_filter]
  rw [hperm.symm.countP_eq]
  rw [countAfter_evict now t (sortByAccessed l) (tenantExcess cfg x t) hnds hkcs]
  rw [hperm.length_eq]
  -- pinned entries all survive
  have hsurvive : ∀ e ∈ l, e.2.meta.contains now →
      (e.1 ∉ evictKeys now t (tenantExcess cfg x t) (sortByAccessed l)) := by
    intro e he hpin hmem
    rw [evictKeys_take_filter] at hmem
    rcases List.mem_map.mp hmem with ⟨y, hy, hky⟩
    have hy1 : y ∈ sortByAccessed l := List.mem_of_mem_filter (List.take_subset _ _ hy)
    have hynp := List.mem_filter.mp (List.take_subset _ _ hy)
    have hyl : y ∈ l := hperm.subset hy1
    have hykey : y.1 = e.1 := by
      rcases hkcs y hy1 with ⟨hk1, hk2⟩
      rw [← hky, hk1, ← hk2]
    have : y = e := by
      have h1 : y.1 ∈ l.map Prod.fst := List.mem_map.mpr ⟨y, hyl, rfl⟩
      have := List.inj_on_of_nodup_map hndl hyl he hykey
      exact this
    rw [this] at hynp
    simp [hpin] at hynp
  have hpinsurv : (l.filter (fun e =>
      decide (e.1 ∉ evictKeys now t (tenantExcess cfg x t) (sortByAccessed l)))).countP
      (fun e => decide (e.2.meta.contains now)) =
      l.countP (fun e => decide (e.2.meta.contains now)) := by
    rw [List.countP_filter]
    apply countP_congrA
    intro e he
    by_cases hpin : e.2.meta.contains now
    · simp [hpin, hsurvive e he hpin]
    · simp [hpin]
  rw [hpinsurv]
  -- arithmetic
  have hsplit : l.length =
      l.countP (fun e => decide (e.2.meta.contains now)) +
      l.countP (fun e => !decide (e.2.meta.contains now)) := by
    rw [List.length_eq_countP_add_countP (fun e => decide (e.2.meta.contains now))]
    congr 1
    apply countP_congrA
    intro e he
    by_cases hpin : e.2.meta.contains now <;> simp [hpin]
  have hnpperm : (sortByAccessed l).countP (fun e => !decide (e.2.meta.contains now)) =
      l.countP (fun e => !decide (e.2.meta.contains now)) := hperm.countP_eq _
  rw [hnpperm]
  set P := l.countP (fun e => decide (e.2.meta.contains now)) with hP
  set NP := l.countP (fun e => !decide (e.2.meta.contains now)) with hNP
  set X := tenantExcess cfg x t with hX
  have hXdef : X = l.length - cfg.PartitionCacheSize.toNat := by
    rw [hX]
    unfold tenantExcess
    rw [← hl]
  rcases le_total X NP with hle | hle
  · rw [min_eq_left hle]
    refine le_trans ?_ (le_max_left _ _)
    omega
  · rw [min_eq_right hle]
    refine le_trans ?_ (le_max_right _ _)
    omega

theorem insertA_nodup_keys {α β : Type} [DecidableEq α]
    (l : List (α × β)) (k : α) (v : β)
    (hnd : (l.map Prod.fst).Nodup) : ((insertA l k v).map Prod.fst).Nodup := by
  rw [insertA_keys]
  by_cases hmem : k ∈ l.map Prod.fst
  · rwa [if_pos hmem]
  · rw [if_neg hmem]
    refine List.Nodup.append hnd (List.nodup_singleton k) ?_
    intro a ha hb
    rw [List.mem_singleton] at hb
    exact hmem (hb ▸ ha)

/-- The state `getOrLoadPartition` returns is the eviction pass run over the
state with the freshly stamped entry written at the requested cache key. -/
theorem getOrLoadPartition_snd_eq (cfg : Config) (store : StoreState)
    (now : Int) (s : IndexState) (meta : PartitionMeta) (tenant : String) :
    (getOrLoadPartition cfg store now s meta tenant).2 =
      unloadPartitions cfg now
        { s with loadedPartitions :=
            (insertA s.loadedPartitions ⟨meta.Key, tenant⟩
              (getOrLoadPartition cfg store now s meta tenant).1) } := by
  cases hl : lookupA s.loadedPartitions ⟨meta.Key, tenant⟩ with
  | none => simp only [getOrLoadPartition, hl]
  | some p0 => simp only [getOrLoadPartition, hl]

/-- Writing the entry `getOrLoadPartition` materializes keeps every loaded
entry's meta keyed by its cache key. -/
theorem getOrLoadPartition_midstate_kc (cfg : Config) (store : StoreState)
    (now : Int) (s : IndexState) (meta : PartitionMeta) (tenant : String)
    (hkc : KeyConsistent s) :
    KeyConsistent { s with loadedPartitions :=
      (insertA s.loadedPartitions ⟨meta.Key, tenant⟩
        (getOrLoadPartition cfg store now s meta tenant).1) } := by
  intro e he
  replace he : e ∈ insertA s.loadedPartitions ⟨meta.Key, tenant⟩
      (getOrLoadPartition cfg store now s meta tenant).1 := he
  rcases mem_insertA _ _ _ _ he with h | h
  · exact hkc e h
  · rw [h]
    cases hl : lookupA s.loadedPartitions ⟨meta.Key, tenant⟩ with
    | none => simp only [getOrLoadPartition, hl]; rfl
    | some p0 =>
      have hp0 := hkc _ (lookupA_mem _ _ _ hl)
      simp only [getOrLoadPartition, hl]
      exact hp0

/-- A freshly written entry strictly newer than every other entry of its
tenant is not collected by the eviction walk, provided the excess can be
absorbed by the non-pinned older entries. -/
theorem evictKeys_fresh_append (now : Int) (tenant : String) (n : Nat)
    (lOld : List (CacheKey × IndexPartition)) (ck : CacheKey)
    (p1 : IndexPartition)
    (hkc : ∀ y ∈ lOld, y.2.meta.Key = y.1.partitionKey ∧ y.1.tenant = tenant)
    (hkey : ck ∉ lOld.map Prod.fst)
    (hacc : ∀ x ∈ lOld, x.2.accessedAt < p1.accessedAt)
    (hcnt : n ≤ lOld.countP (fun e => !decide (e.2.meta.contains now))) :
    ck ∉ evictKeys now tenant n (sortByAccessed (lOld ++ [(ck, p1)])) := by
  rw [sortByAccessed_append_max lOld (ck, p1) hacc]
  rw [evictKeys_take_filter, List.filter_append]
  have hlen : n ≤ ((sortByAccessed lOld).filter
      (fun e => !decide (e.2.meta.contains now))).length := by
    rw [← List.countP_eq_length_filter]
    rw [(sortByAccessed_perm lOld).countP_eq]
    exact hcnt
  rw [List.take_append_of_le_length hlen]
  intro hmem
  rcases List.mem_map.mp hmem with ⟨y, hy, hky⟩
  have hy1 : y ∈ sortByAccessed lOld :=
    List.mem_of_mem_filter (List.take_subset _ _ hy)
  have hyl : y ∈ lOld := (sortByAccessed_perm lOld).subset hy1
  rcases hkc y hyl with ⟨hk1, hk2⟩
  have hyk : y.1 = ck := by
    rw [← hky, hk1, ← hk2]
  exact hkey (List.mem_map.mpr ⟨y, hyl, hyk⟩)

/-! ### Insert-then-find lemmas -/

theorem shardsLookup_loadShards (store : StoreState) (pk : PartitionKey)
    (t : String) (sh : Nat) (id : BlockId) :
    shardsLookup (loadShards store pk t) sh id = storeLookup store pk sh t id :=
  shardLookup_loadShards store pk t ⟨⟨pk, 0, 0, []⟩, 0, loadShards store pk t⟩
    rfl sh id

/-- Under coherence, the shard map `insertBlock` would target answers point
lookups exactly like the store. -/
theorem targetLookup_coherent (store : StoreState) (x : IndexState)
    (ck : CacheKey) (sh : Nat) (id : BlockId) (hcoh : Coherent store x) :
    targetLookup store x ck sh id =
      storeLookup store ck.partitionKey sh ck.tenant id := by
  unfold targetLookup targetShards
  cases hl : lookupA x.loadedPartitions ck with
  | none => exact shardsLookup_loadShards store ck.partitionKey ck.tenant sh id
  | some p =>
    simp only []
    rw [(hcoh ck p hl).2]
    exact shardsLookup_loadShards store ck.partitionKey ck.tenant sh id

theorem findBlockInPartition_coherent (cfg : Config) (store : StoreState)
    (now : Int) (s : IndexState) (key : PartitionKey) (shard : Nat)
    (tenant : String) (blockId : BlockId) (hcoh : Coherent store s) :
    Coherent store (findBlockInPartition cfg store now s key shard tenant
      blockId).2 := by
  unfold findBlockInPartition
  cases hf : findPartitionMeta s key with
  | none => exact hcoh
  | some meta =>
    simp only []
    cases hsh : lookupA (getOrLoadPartition cfg store now s meta tenant).1.shards
        shard with
    | none => exact getOrLoadPartition_coherent cfg store now s meta tenant hcoh
    | some sh => exact getOrLoadPartition_coherent cfg store now s meta tenant hcoh

theorem findBlockLoop_coherent (cfg : Config) (store : StoreState)
    (now : Int) (metas : List PartitionMeta) (s : IndexState) (t : Int)
    (shard : Nat) (tenant : String) (blockId : BlockId)
    (hcoh : Coherent store s) :
    Coherent store (findBlockLoop cfg store now metas s t shard tenant
      blockId).2 := by
  induction metas generalizing s with
  | nil => exact hcoh
  | cons m rest ih =>
    unfold findBlockLoop
    by_cases hc : m.contains t
    · rw [if_pos hc]
      cases hp : findBlockInPartition cfg store now s m.Key shard tenant blockId with
      | mk o s' =>
        have hcoh' : Coherent store s' := by
          have h := findBlockInPartition_coherent cfg store now s m.Key shard
            tenant blockId hcoh
          rw [hp] at h
          exact h
        cases o with
        | some b => exact hcoh'
        | none => exact ih s' hcoh'
    · rw [if_neg hc]
      exact ih s hcoh

theorem findBlock_coherent (cfg : Config) (store : StoreState) (now : Int)
    (s : IndexState) (shard : Nat) (tenant : String) (blockId : BlockId)
    (hcoh : Coherent store s) :
    Coherent store (findBlock cfg store now s shard tenant blockId).2 := by
  simp only [findBlock]
  cases hp : findBlockInPartition cfg store now s
      (createPartitionKey blockId cfg.PartitionDuration) shard tenant blockId with
  | mk o s' =>
    have hcoh' : Coherent store s' := by
      have h := findBlockInPartition_coherent cfg store now s
        (createPartitionKey blockId cfg.PartitionDuration) shard tenant blockId hcoh
      rw [hp] at h
      exact h
    cases o with
    | some b => exact hcoh'
    | none =>
      exact findBlockLoop_coherent cfg store now s'.allPartitions s'
        blockId.time shard tenant blockId hcoh'

/-- The value `findBlockInPartition` returns, as a point lookup. -/
theorem findBlockInPartition_fst (cfg : Config) (store : StoreState)
    (now : Int) (s : IndexState) (key : PartitionKey) (shard : Nat)
    (tenant : String) (blockId : BlockId) :
    (findBlockInPartition cfg store now s key shard tenant blockId).1 =
      match findPartitionMeta s key with
      | none => none
      | some meta => shardsLookup
          (getOrLoadPartition cfg store now s meta tenant).1.shards shard
          blockId := by
  unfold findBlockInPartition shardsLookup
  cases findPartitionMeta s key with
  | none => rfl
  | some meta =>
    simp only []
    cases lookupA (getOrLoadPartition cfg store now s meta tenant).1.shards
        shard <;> rfl

/-- A negative probe of a partition means the store has no such block there
(under coherence; when the partition has no meta, because every persisted
row's partition is registered in `allPartitions`). -/
theorem findBlockInPartition_none_store (cfg : Config) (store : StoreState)
    (now : Int) (s : IndexState) (key : PartitionKey) (sh : Nat) (t : String)
    (id : BlockId) (hcoh : Coherent store s)
    (hkeys : ∀ row ∈ store.entries, ∃ m ∈ s.allPartitions, m.Key = row.partKey)
    (h : (findBlockInPartition cfg store now s key sh t id).1 = none) :
    storeLookup store key sh t id = none := by
  rw [findBlockInPartition_fst] at h
  cases hf : findPartitionMeta s key with
  | none =>
    apply blocksMapOf_lookup_none
    intro b' hb' _
    have hrow := (mem_listBlocks store key sh t b').mp hb'
    rcases hkeys _ hrow with ⟨m, hm, hmk⟩
    exact findPartitionMeta_none s key hf m hm hmk
  | some meta =>
    rw [hf] at h
    simp only [] at h
    have hmk := findPartitionMeta_key s key meta hf
    rw [(getOrLoadPartition_fst cfg store now s meta t hcoh).1, hmk] at h
    rw [← shardsLookup_loadShards store key t sh id]
    exact h

theorem findBlock_none_store (cfg : Config) (store : StoreState) (now : Int)
    (s : IndexState) (sh : Nat) (t : String) (id : BlockId)
    (hcoh : Coherent store s)
    (hkeys : ∀ row ∈ store.entries, ∃ m ∈ s.allPartitions, m.Key = row.partKey)
    (h : (findBlock cfg store now s sh t id).1 = none) :
    storeLookup store (createPartitionKey id cfg.PartitionDuration) sh t id =
      none := by
  simp only [findBlock] at h
  cases hnat : findBlockInPartition cfg store now s
      (createPartitionKey id cfg.PartitionDuration) sh t id with
  | mk o s1 =>
    rw [hnat] at h
    cases o with
    | some m => simp only at h; cases h
    | none =>
      apply findBlockInPartition_none_store cfg store now s _ sh t id hcoh hkeys
      rw [hnat]

/-- A negative pass of the fallback loop means the store holds no such
block under any visited partition containing the probe time. -/
theorem findBlockLoop_none_store (cfg : Config) (store : StoreState)
    (now : Int) (t : Int) (sh : Nat) (tn : String) (id : BlockId) :
    ∀ (metas : List PartitionMeta) (s : IndexState), Coherent store s →
    (∀ row ∈ store.entries, ∃ m ∈ s.allPartitions, m.Key = row.partKey) →
    (findBlockLoop cfg store now metas s t sh tn id).1 = none →
    ∀ m ∈ metas, m.contains t → storeLookup store m.Key sh tn id = none := by
  intro metas
  induction metas with
  | nil =>
    intro s _ _ _ m hm
    cases hm
  | cons m0 rest ih =>
    intro s hcoh hkeys h m hm hc
    by_cases hc0 : m0.contains t
    · rw [findBlockLoop] at h
      rw [if_pos hc0] at h
      cases hnat : findBlockInPartition cfg store now s m0.Key sh tn id with
      | mk o s' =>
        rw [hnat] at h
        cases o with
        | some b =>
          simp only at h
          cases h
        | none =>
          simp only at h
          have hcoh' : Coherent store s' := by
            have hh := findBlockInPartition_coherent cfg store now s m0.Key
              sh tn id hcoh
            rw [hnat] at hh
            exact hh
          have hall : s'.allPartitions = s.allPartitions := by
            have hh := findBlockInPartition_allPartitions cfg store now s
              m0.Key sh tn id
            rw [hnat] at hh
            exact hh
          have hkeys' : ∀ row ∈ store.entries,
              ∃ mm ∈ s'.allPartitions, mm.Key = row.partKey := by
            rw [hall]
            exact hkeys
          rcases List.mem_cons.mp hm with rfl | hm'
          · exact findBlockInPartition_none_store cfg store now s m.Key sh tn
              id hcoh hkeys (by rw [hnat])
          · exact ih s' hcoh' hkeys' h m hm' hc
    · rw [findBlockLoop] at h
      rw [if_neg hc0] at h
      rcases List.mem_cons.mp hm with rfl | hm'
      · exact absurd hc hc0
      · exact ih s hcoh hkeys h m hm' hc

/-- A negative `findBlock` means the store holds no such block under the
natural partition key, nor under any registered partition containing the
block id's creation time — the full search the duplicate check performs. -/
theorem findBlock_none_store_any (cfg : Config) (store : StoreState)
    (now : Int) (s : IndexState) (sh : Nat) (tn : String) (id : BlockId)
    (hcoh : Coherent store s)
    (hkeys : ∀ row ∈ store.entries, ∃ m ∈ s.allPartitions, m.Key = row.partKey)
    (h : (findBlock cfg store now s sh tn id).1 = none) :
    storeLookup store (createPartitionKey id cfg.PartitionDuration) sh tn id =
      none ∧
    ∀ m ∈ s.allPartitions, m.contains id.time →
      storeLookup store m.Key sh tn id = none := by
  simp only [findBlock] at h
  cases hnat : findBlockInPartition cfg store now s
      (createPartitionKey id cfg.PartitionDuration) sh tn id with
  | mk o s1 =>
    rw [hnat] at h
    cases o with
    | some m =>
      simp only at h
      cases h
    | none =>
      simp only at h
      have hn1 : (findBlockInPartition cfg store now s
          (createPartitionKey id cfg.PartitionDuration) sh tn id).1 = none := by
        rw [hnat]
      refine ⟨findBlockInPartition_none_store cfg store now s _ sh tn id hcoh
        hkeys hn1, ?_⟩
      have hcoh1 : Coherent store s1 := by
        have hh := findBlockInPartition_coherent cfg store now s
          (createPartitionKey id cfg.PartitionDuration) sh tn id hcoh
        rw [hnat] at hh
        exact hh
      have hall : s1.allPartitions = s.allPartitions := by
        have hh := findBlockInPartition_allPartitions cfg store now s
          (createPartitionKey id cfg.PartitionDuration) sh tn id
        rw [hnat] at hh
        exact hh
      have hkeys1 : ∀ row ∈ store.entries,
          ∃ m ∈ s1.allPartitions, m.Key = row.partKey := by
        rw [hall]
        exact hkeys
      intro m hm hc
      exact findBlockLoop_none_store cfg store now id.time sh tn id
        s1.allPartitions s1 hcoh1 hkeys1 h m (hall.symm ▸ hm) hc

/-- With no persisted duplicate at the bbolt key, `StoreBlock` appends. -/
theorem storeBlock_append (store : StoreState) (pk : PartitionKey)
    (b : BlockMeta)
    (h : storeLookup store pk b.Shard b.TenantId b.Id = none) :
    storeBlockOp store pk b =
      ⟨store.entries ++ [⟨pk, b.Shard, b.TenantId, b⟩]⟩ := by
  unfold storeBlockOp
  rw [if_neg]
  intro hany
  rw [List.any_eq_true] at hany
  rcases hany with ⟨row, hrow, hmatch⟩
  rw [decide_eq_true_eq] at hmatch
  rcases row with ⟨rpk, rsh, rt, rb⟩
  obtain ⟨h1, h2, h3, h4⟩ := hmatch
  have hmem : rb ∈ listBlocks store pk b.Shard b.TenantId := by
    rw [mem_listBlocks]
    rw [← h1, ← h2, ← h3]
    exact hrow
  exact (blocksMapOf_lookup_none_iff _ _).mp h rb hmem h4

theorem storeLookup_append_self (store : StoreState) (pk : PartitionKey)
    (b : BlockMeta) :
    storeLookup (⟨store.entries ++ [⟨pk, b.Shard, b.TenantId, b⟩]⟩ : StoreState)
      pk b.Shard b.TenantId b.Id = some b := by
  unfold storeLookup listBlocks
  simp only
  rw [List.filter_append]
  have hf : List.filter (fun e : StoreEntry => decide (e.partKey = pk ∧
      e.shard = b.Shard ∧ e.tenant = b.TenantId))
      ([⟨pk, b.Shard, b.TenantId, b⟩] : List StoreEntry) =
      ([⟨pk, b.Shard, b.TenantId, b⟩] : List StoreEntry) := by simp
  rw [hf, List.map_append]
  unfold blocksMapOf
  rw [List.foldl_append]
  show lookupA (insertA _ b.Id b) b.Id = some b
  exact lookupA_insertA_self _ _ _

/-- `getOrCreatePartitionMeta` leaves a meta keyed by the block's natural
partition in `allPartitions`. -/
theorem getOrCreate_key_mem (cfg : Config) (s : IndexState) (b : BlockMeta) :
    createPartitionKey b.Id cfg.PartitionDuration ∈
      (getOrCreatePartitionMeta cfg s b).2.allPartitions.map (fun m => m.Key) := by
  cases hf : findPartitionMeta s (createPartitionKey b.Id cfg.PartitionDuration) with
  | some m0 =>
    simp only [getOrCreatePartitionMeta, hf]
    rw [updateFirstMeta_keys _ _ _
      (by rw [addTenantsOfBlock_Key]; exact findPartitionMeta_key s _ m0 hf)]
    exact List.mem_map.mpr ⟨m0, findPartitionMeta_mem s _ m0 hf,
      findPartitionMeta_key s _ m0 hf⟩
  | none =>
    simp only [getOrCreatePartitionMeta, hf]
    rw [updateFirstMeta_keys _ _ _ (by rw [addTenantsOfBlock_Key])]
    have hperm := (sortPartitionList_perm (s.allPartitions ++
      [⟨createPartitionKey b.Id cfg.PartitionDuration,
        (createPartitionKey b.Id cfg.PartitionDuration).ts,
        (createPartitionKey b.Id cfg.PartitionDuration).duration, []⟩])).map
      (fun m => m.Key)
    apply hperm.mem_iff.mpr
    rw [List.map_append]
    exact List.mem_append.mpr (Or.inr (by simp))

theorem insertBlock_findMeta (cfg : Config) (store : StoreState) (now : Int)
    (s : IndexState) (b : BlockMeta) :
    ∃ m, findPartitionMeta (insertBlock cfg store now s b)
      (createPartitionKey b.Id cfg.PartitionDuration) = some m := by
  rcases List.mem_map.mp (getOrCreate_key_mem cfg s b) with ⟨m0, hm0, hk0⟩
  have hsome : (findPartitionMeta (insertBlock cfg store now s b)
      (createPartitionKey b.Id cfg.PartitionDuration)).isSome = true := by
    unfold findPartitionMeta
    rw [insertBlock_allPartitions]
    rw [List.find?_isSome]
    exact ⟨m0, hm0, by simp [hk0]⟩
  exact Option.isSome_iff_exists.mp hsome

theorem InsertBlock_of_findBlock_some (cfg : Config) (st : StoreState)
    (nw : Int) (sx : IndexState) (b : BlockMeta) (m : BlockMeta)
    (s3 : IndexState)
    (h : findBlock cfg st nw sx b.Shard b.TenantId b.Id = (some m, s3)) :
    InsertBlock cfg st nw sx b = ⟨true, s3, st⟩ := by
  unfold InsertBlock
  rw [h]

/-- After a successful `InsertBlock`, probing for the block again (at any
later time, against the updated store and state) finds it: either the cache
entry written by the insert survived and carries the block, or the entry is
reloaded from the store, which now holds the block. -/
theorem insert_success_probe (cfg : Config) (store : StoreState)
    (now now2 : Int) (s : IndexState) (b : BlockMeta)
    (hcoh : Coherent store s)
    (hkeys : ∀ row ∈ store.entries, ∃ m ∈ s.allPartitions, m.Key = row.partKey)
    (hsucc : (InsertBlock cfg store now s b).errBlockExists = false) :
    (findBlock cfg (InsertBlock cfg store now s b).store now2
      (InsertBlock cfg store now s b).idx b.Shard b.TenantId b.Id).1 =
      some b := by
  cases hfb : findBlock cfg store now s b.Shard b.TenantId b.Id with
  | mk o s1 =>
  cases o with
  | some m =>
    exfalso
    have herr : (InsertBlock cfg store now s b).errBlockExists = true := by
      unfold InsertBlock
      rw [hfb]
    rw [herr] at hsucc
    cases hsucc
  | none =>
    have hIB : InsertBlock cfg store now s b =
        ⟨false, insertBlock cfg store now s1 b,
          storeBlockOp store (createPartitionKey b.Id cfg.PartitionDuration) b⟩ := by
      unfold InsertBlock
      rw [hfb]
    have hn : (findBlock cfg store now s b.Shard b.TenantId b.Id).1 = none := by
      rw [hfb]
    have hsl := findBlock_none_store cfg store now s b.Shard b.TenantId b.Id
      hcoh hkeys hn
    have hcoh1 : Coherent store s1 := by
      have h := findBlock_coherent cfg store now s b.Shard b.TenantId b.Id hcoh
      rw [hfb] at h
      exact h
    have hs1 : storeLookup
        (storeBlockOp store (createPartitionKey b.Id cfg.PartitionDuration) b)
        (createPartitionKey b.Id cfg.PartitionDuration) b.Shard b.TenantId b.Id =
        some b := by
      rw [storeBlock_append store _ b hsl]
      exact storeLookup_append_self store _ b
    rw [hIB]
    obtain ⟨m, hm⟩ := insertBlock_findMeta cfg store now s1 b
    have hmk : m.Key = createPartitionKey b.Id cfg.PartitionDuration :=
      findPartitionMeta_key _ _ _ hm
    have hprobe : (findBlockInPartition cfg
        (storeBlockOp store (createPartitionKey b.Id cfg.PartitionDuration) b)
        now2 (insertBlock cfg store now s1 b)
        (createPartitionKey b.Id cfg.PartitionDuration) b.Shard b.TenantId
        b.Id).1 = some b := by
      rw [findBlockInPartition_fst, hm]
      simp only []
      rw [getOrLoadPartition_fst_shards, hmk]
      cases hq : lookupA (insertBlock cfg store now s1 b).loadedPartitions
          ⟨createPartitionKey b.Id cfg.PartitionDuration, b.TenantId⟩ with
      | some q =>
        simp only []
        have hq' := insertBlock_lookup_self cfg store now s1 b q hq
        rw [hq', insertBlockShards_lookup]
        rw [if_pos ⟨rfl, rfl⟩]
        have hnone : shardsLookup (targetShards store s1
            ⟨createPartitionKey b.Id cfg.PartitionDuration, b.TenantId⟩)
            b.Shard b.Id = none :=
          (targetLookup_coherent store s1
            ⟨createPartitionKey b.Id cfg.PartitionDuration, b.TenantId⟩
            b.Shard b.Id hcoh1).trans hsl
        rw [hnone]
      | none =>
        simp only []
        rw [shardsLookup_loadShards]
        exact hs1
    simp only [findBlock]
    cases hnat : findBlockInPartition cfg
        (storeBlockOp store (createPartitionKey b.Id cfg.PartitionDuration) b)
        now2 (insertBlock cfg store now s1 b)
        (createPartitionKey b.Id cfg.PartitionDuration) b.Shard b.TenantId
        b.Id with
    | mk o2 s3 =>
      rw [hnat] at hprobe
      simp only at hprobe
      subst hprobe
      rfl

/-! ### Range-query lemmas -/

theorem collectTenantBlocks_congr (p q : IndexPartition)
    (h : p.shards = q.shards) (a b : Int) :
    collectTenantBlocks p a b = collectTenantBlocks q a b := by
  unfold collectTenantBlocks
  rw [h]

theorem mem_collectTenantBlocks_pred (p : IndexPartition) (a b : Int)
    (x : BlockMeta) (h : x ∈ collectTenantBlocks p a b) : blockPred a b x := by
  unfold collectTenantBlocks at h
  rcases List.mem_flatMap.mp h with ⟨e, he, hx⟩
  exact of_decide_eq_true (List.mem_filter.mp hx).2

/-- The tenant loop of `FindBlocksInRange`, under coherence: for every
requested tenant recorded on the partition, the store's matching blocks of
that tenant followed by the store's matching mixed blocks — the mixed leaf
re-collected for every such tenant. -/
theorem rangeTenantsLoop_spec (cfg : Config) (store : StoreState) (now : Int)
    (m : PartitionMeta) (startMs endMs : Int) :
    ∀ (ts : List String) (s : IndexState), Coherent store s →
    (rangeTenantsLoop cfg store now m startMs endMs ts s).1 =
      (ts.filter (fun t => decide (m.HasTenant t))).flatMap
        (fun t =>
          collectTenantBlocks ⟨m, 0, loadShards store m.Key t⟩ startMs endMs ++
          collectTenantBlocks ⟨m, 0, loadShards store m.Key ""⟩ startMs endMs) ∧
    Coherent store (rangeTenantsLoop cfg store now m startMs endMs ts s).2 := by
  intro ts
  induction ts with
  | nil =>
    intro s hcoh
    exact ⟨rfl, hcoh⟩
  | cons t ts ih =>
    intro s hcoh
    have hunf : rangeTenantsLoop cfg store now m startMs endMs (t :: ts) s =
        if m.HasTenant t then
          (collectTenantBlocks (getOrLoadPartition cfg store now s m t).1
              startMs endMs ++
            collectTenantBlocks (getOrLoadPartition cfg store now
              (getOrLoadPartition cfg store now s m t).2 m "").1 startMs endMs ++
            (rangeTenantsLoop cfg store now m startMs endMs ts
              (getOrLoadPartition cfg store now
                (getOrLoadPartition cfg store now s m t).2 m "").2).1,
           (rangeTenantsLoop cfg store now m startMs endMs ts
              (getOrLoadPartition cfg store now
                (getOrLoadPartition cfg store now s m t).2 m "").2).2)
        else rangeTenantsLoop cfg store now m startMs endMs ts s := rfl
    by_cases ht : m.HasTenant t
    · rw [hunf, if_pos ht]
      have hc1 : Coherent store (getOrLoadPartition cfg store now s m t).2 :=
        getOrLoadPartition_coherent cfg store now s m t hcoh
      have hc2 : Coherent store (getOrLoadPartition cfg store now
          (getOrLoadPartition cfg store now s m t).2 m "").2 :=
        getOrLoadPartition_coherent cfg store now _ m "" hc1
      have hb1 : collectTenantBlocks (getOrLoadPartition cfg store now s m t).1
          startMs endMs =
          collectTenantBlocks ⟨m, 0, loadShards store m.Key t⟩ startMs endMs :=
        collectTenantBlocks_congr _ _
          ((getOrLoadPartition_fst cfg store now s m t hcoh).1) startMs endMs
      have hb2 : collectTenantBlocks (getOrLoadPartition cfg store now
          (getOrLoadPartition cfg store now s m t).2 m "").1 startMs endMs =
          collectTenantBlocks ⟨m, 0, loadShards store m.Key ""⟩ startMs endMs :=
        collectTenantBlocks_congr _ _
          ((getOrLoadPartition_fst cfg store now _ m "" hc1).1) startMs endMs
      obtain ⟨ih1, ih2⟩ := ih _ hc2
      refine ⟨?_, ih2⟩
      rw [hb1, hb2, ih1]
      rw [List.filter_cons, if_pos (by simpa using ht)]
      rw [List.flatMap_cons, List.append_assoc]
    · rw [hunf, if_neg ht]
      obtain ⟨ih1, ih2⟩ := ih s hcoh
      refine ⟨?_, ih2⟩
      rw [ih1]
      rw [List.filter_cons, if_neg (by simpa using ht)]

/-- The partition loop of `FindBlocksInRange`, under coherence. -/
theorem rangeMetasLoop_spec (cfg : Config) (store : StoreState) (now : Int)
    (startMs endMs sw ew : Int) (T : List String) :
    ∀ (metas : List PartitionMeta) (s : IndexState), Coherent store s →
    (rangeMetasLoop cfg store now startMs endMs sw ew T metas s).1 =
      (metas.filter (fun m => decide (m.overlaps sw ew))).flatMap
        (fun m => (T.filter (fun t => decide (m.HasTenant t))).flatMap
          (fun t =>
            collectTenantBlocks ⟨m, 0, loadShards store m.Key t⟩ startMs endMs ++
            collectTenantBlocks ⟨m, 0, loadShards store m.Key ""⟩ startMs
              endMs)) ∧
    Coherent store (rangeMetasLoop cfg store now startMs endMs sw ew T metas
      s).2 := by
  intro metas
  induction metas with
  | nil =>
    intro s hcoh
    exact ⟨rfl, hcoh⟩
  | cons m ms ih =>
    intro s hcoh
    have hunf : rangeMetasLoop cfg store now startMs endMs sw ew T (m :: ms) s =
        if m.overlaps sw ew then
          ((rangeTenantsLoop cfg store now m startMs endMs T s).1 ++
            (rangeMetasLoop cfg store now startMs endMs sw ew T ms
              (rangeTenantsLoop cfg store now m startMs endMs T s).2).1,
           (rangeMetasLoop cfg store now startMs endMs sw ew T ms
              (rangeTenantsLoop cfg store now m startMs endMs T s).2).2)
        else rangeMetasLoop cfg store now startMs endMs sw ew T ms s := rfl
    by_cases hov : m.overlaps sw ew
    · rw [hunf, if_pos hov]
      obtain ⟨ht1, ht2⟩ := rangeTenantsLoop_spec cfg store now m startMs endMs
        T s hcoh
      obtain ⟨ih1, ih2⟩ := ih _ ht2
      refine ⟨?_, ih2⟩
      rw [ht1, ih1]
      rw [List.filter_cons, if_pos (by simpa using hov)]
      rw [List.flatMap_cons]
    · rw [hunf, if_neg hov]
      obtain ⟨ih1, ih2⟩ := ih s hcoh
      refine ⟨?_, ih2⟩
      rw [ih1]
      rw [List.filter_cons, if_neg (by simpa using hov)]

/-! ### Replace-blocks lemmas -/

theorem deleteListStep_store (cfg : Config) (src : BlockList)
    (k : PartitionKey) (s : IndexState) (store : StoreState) :
    (deleteListStep cfg src k s store).2 =
      deleteBlockListOp store k src.Shard src.Tenant
        (src.Blocks.filter (fun id =>
          decide (createPartitionKey id cfg.PartitionDuration = k))) := rfl

/-- The store after the group loop of `deleteBlockList`: every row matching
some group key's coordinates and filtered id set is gone. -/
theorem deleteListLoop_store (cfg : Config) (src : BlockList) :
    ∀ (ks : List PartitionKey) (s : IndexState) (store : StoreState),
    (deleteListLoop cfg src ks s store).2.entries =
      store.entries.filter (fun e => decide (∀ k ∈ ks,
        ¬(e.partKey = k ∧ e.shard = src.Shard ∧ e.tenant = src.Tenant ∧
          e.block.Id ∈ src.Blocks.filter (fun id =>
            decide (createPartitionKey id cfg.PartitionDuration = k))))) := by
  intro ks
  induction ks with
  | nil =>
    intro s store
    show store.entries = _
    exact (List.filter_eq_self.mpr (fun a _ => by simp)).symm
  | cons k ks ih =>
    intro s store
    have hunf : deleteListLoop cfg src (k :: ks) s store =
        deleteListLoop cfg src ks (deleteListStep cfg src k s store).1
          (deleteListStep cfg src k s store).2 := rfl
    rw [hunf, ih, deleteListStep_store]
    show (store.entries.filter _).filter _ = _
    rw [List.filter_filter]
    apply List.filter_congr
    intro e he
    rw [decide_eq_decide.mpr (@List.forall_mem_cons PartitionKey
      (fun kk => ¬(e.partKey = kk ∧ e.shard = src.Shard ∧
        e.tenant = src.Tenant ∧ e.block.Id ∈ src.Blocks.filter (fun id =>
          decide (createPartitionKey id cfg.PartitionDuration = kk)))) k ks)]
    rw [Bool.decide_and]
    exact Bool.and_comm _ _

/-- `deleteBlockList` at the store: exactly the rows of the source list
stored under their id's NATURAL partition key are removed — a source block
persisted under any other key survives. -/
theorem deleteBlockList_store (cfg : Config) (s : IndexState)
    (store : StoreState) (src : BlockList) :
    (deleteBlockList cfg s store src).2.entries =
      store.entries.filter (fun e => !decide (e.shard = src.Shard ∧
        e.tenant = src.Tenant ∧ e.block.Id ∈ src.Blocks ∧
        e.partKey = createPartitionKey e.block.Id cfg.PartitionDuration)) := by
  rw [show deleteBlockList cfg s store src =
    deleteListLoop cfg src ((src.Blocks.map (fun id =>
      createPartitionKey id cfg.PartitionDuration)).dedup) s store from rfl]
  rw [deleteListLoop_store]
  apply List.filter_congr
  intro e he
  have hiff : (∀ k ∈ (src.Blocks.map (fun id =>
      createPartitionKey id cfg.PartitionDuration)).dedup,
      ¬(e.partKey = k ∧ e.shard = src.Shard ∧ e.tenant = src.Tenant ∧
        e.block.Id ∈ src.Blocks.filter (fun id =>
          decide (createPartitionKey id cfg.PartitionDuration = k)))) ↔
      ¬(e.shard = src.Shard ∧ e.tenant = src.Tenant ∧
        e.block.Id ∈ src.Blocks ∧
        e.partKey = createPartitionKey e.block.Id cfg.PartitionDuration) := by
    constructor
    · intro hall hflat
      obtain ⟨hsh, ht, hid, hpk⟩ := hflat
      have hk : e.partKey ∈ (src.Blocks.map (fun id =>
          createPartitionKey id cfg.PartitionDuration)).dedup := by
        rw [List.mem_dedup]
        exact List.mem_map.mpr ⟨e.block.Id, hid, hpk.symm⟩
      refine hall _ hk ⟨rfl, hsh, ht, List.mem_filter.mpr ⟨hid, ?_⟩⟩
      simp [hpk]
    · intro hflat k hk hbad
      obtain ⟨hpk, hsh, ht, hidf⟩ := hbad
      rcases List.mem_filter.mp hidf with ⟨hid, hnat⟩
      have hnat' : createPartitionKey e.block.Id cfg.PartitionDuration = k :=
        of_decide_eq_true hnat
      exact hflat ⟨hsh, ht, hid, by rw [hpk, ← hnat']⟩
  rw [← decide_not]
  exact decide_eq_decide.mpr hiff

theorem insertBlocks_store (cfg : Config) (now : Int) :
    ∀ (bs : List BlockMeta) (s : IndexState) (store : StoreState),
    (insertBlocks cfg now bs s store).2 =
      bs.foldl (fun st b => storeBlockOp st
        (createPartitionKey b.Id cfg.PartitionDuration) b) store := by
  intro bs
  induction bs with
  | nil => intro s store; rfl
  | cons b bs ih =>
    intro s store
    have hunf : insertBlocks cfg now (b :: bs) s store =
        insertBlocks cfg now bs (insertBlock cfg store now s b)
          (storeBlockOp store (createPartitionKey b.Id cfg.PartitionDuration)
            b) := rfl
    rw [hunf, ih, List.foldl_cons]

/-- Persisting a list of fresh blocks with pairwise distinct ids appends one
row per block, under its natural partition key. -/
theorem insertBlocks_store_append (cfg : Config) :
    ∀ (bs : List BlockMeta) (store : StoreState),
    (∀ b ∈ bs, storeLookup store (createPartitionKey b.Id cfg.PartitionDuration)
      b.Shard b.TenantId b.Id = none) →
    ((bs.map (fun b => b.Id)).Nodup) →
    bs.foldl (fun st b => storeBlockOp st
      (createPartitionKey b.Id cfg.PartitionDuration) b) store =
      ⟨store.entries ++ bs.map (fun b =>
        (⟨createPartitionKey b.Id cfg.PartitionDuration, b.Shard, b.TenantId,
          b⟩ : StoreEntry))⟩ := by
  intro bs
  induction bs with
  | nil =>
    intro store _ _
    show store = _
    rw [List.map_nil, List.append_nil]
  | cons b bs ih =>
    intro store hfresh hnodup
    rw [List.foldl_cons]
    rw [storeBlock_append store _ b (hfresh b (List.mem_cons_self b bs))]
    have hIdnotin : b.Id ∉ bs.map (fun b => b.Id) :=
      (List.nodup_cons.mp hnodup).1
    have h1 : ∀ b' ∈ bs, storeLookup
        (⟨store.entries ++ [⟨createPartitionKey b.Id cfg.PartitionDuration,
          b.Shard, b.TenantId, b⟩]⟩ : StoreState)
        (createPartitionKey b'.Id cfg.PartitionDuration) b'.Shard b'.TenantId
        b'.Id = none := by
      intro b' hb'
      apply blocksMapOf_lookup_none
      intro x hx
      have hrow := (mem_listBlocks _ _ _ _ x).mp hx
      rcases List.mem_append.mp hrow with hrow | hrow
      · have hx' : x ∈ listBlocks store
            (createPartitionKey b'.Id cfg.PartitionDuration) b'.Shard
            b'.TenantId :=
          (mem_listBlocks store _ _ _ x).mpr hrow
        exact (blocksMapOf_lookup_none_iff _ _).mp
          (hfresh b' (List.mem_cons_of_mem b hb')) x hx'
      · have hx' : x = b := by
          have := List.mem_singleton.mp hrow
          exact congrArg StoreEntry.block this
      -- x = b: its id differs from b'.Id by Nodup
        rw [hx']
        intro hbad
        exact hIdnotin (hbad ▸ List.mem_map.mpr ⟨b', hb', rfl⟩)
    rw [ih _ h1 (List.nodup_cons.mp hnodup).2]
    rw [List.map_cons]
    show (⟨(store.entries ++ _) ++ _⟩ : StoreState) = _
    rw [List.append_assoc]
    rfl

/-! ### Claim theorems -/

/-- C8: In-memory insertion never overwrites an existing record: for every
block `b` whose `Id` is already present in the target shard map (paired with
a record `m`), `insertBlock` — and hence `InsertBlockNoCheckNoPersist`, and
the insertion half of `ReplaceBlocks`, which insert through the same
function — leaves the previously stored `BlockMeta` for that id unchanged:
every point lookup in the entry, wherever it is still loaded, answers as
before the call, so inserting a second, different record with the same id is
a no-op on the shard maps. -/
theorem claim_C8_insert_no_overwrite (cfg : Config) (store : StoreState)
    (now : Int) (s : IndexState) (b m : BlockMeta)
    (hm : targetLookup store s
      ⟨createPartitionKey b.Id cfg.PartitionDuration, b.TenantId⟩ b.Shard b.Id =
      some m) :
    (∀ p', lookupA (insertBlock cfg store now s b).loadedPartitions
        ⟨createPartitionKey b.Id cfg.PartitionDuration, b.TenantId⟩ = some p' →
      ∀ sh id, shardLookup p' sh id = targetLookup store s
        ⟨createPartitionKey b.Id cfg.PartitionDuration, b.TenantId⟩ sh id) ∧
    (∀ p', lookupA (InsertBlockNoCheckNoPersist cfg store now s b).loadedPartitions
        ⟨createPartitionKey b.Id cfg.PartitionDuration, b.TenantId⟩ = some p' →
      ∀ sh id, shardLookup p' sh id = targetLookup store s
        ⟨createPartitionKey b.Id cfg.PartitionDuration, b.TenantId⟩ sh id) :=
  ⟨fun p' hp' sh id => insertBlock_preserves_existing cfg store now s b m hm p' hp' sh id,
   fun p' hp' sh id => insertBlock_preserves_existing cfg store now s b m hm p' hp' sh id⟩

/-- C9: Every public operation preserves the invariant that `allPartitions`
is sorted by `(Ts, Duration)` and contains at most one `PartitionMeta` per
partition key (together with the key/field coherence that makes the two
readings agree): `getOrCreatePartitionMeta` appends a new meta only when no
meta with that key exists and re-sorts after the append, and no other code
path mutates the list except `Restore`, which rebuilds it sorted.  `Init`
and `ForEachPartition` are not in `Op` because they do not touch the
in-memory index state. -/
theorem claim_C9_allPartitions_invariant (cfg : Config) (store : StoreState)
    (now : Int) (op : Op) (s : IndexState)
    (h : PartitionsInv s.allPartitions) :
    PartitionsInv (applyOp cfg store now s op).1.allPartitions := by
  cases op with
  | insertOp b =>
    simp only [applyOp, InsertBlock]
    split
    · rename_i b' s' hp
      have ha := findBlock_allPartitions cfg store now s b.Shard b.TenantId b.Id
      rw [hp] at ha
      simp only
      rw [ha]
      exact h
    · rename_i s' hp
      have ha := findBlock_allPartitions cfg store now s b.Shard b.TenantId b.Id
      rw [hp] at ha
      simp only
      exact insertBlock_inv cfg store now s' b (by rwa [ha])
  | insertNoCheckNoPersistOp b =>
    exact insertBlock_inv cfg store now s b h
  | replaceOp c =>
    simp only [applyOp, ReplaceBlocks]
    have h1 := insertBlocks_inv cfg now c.NewBlocks s store h
    have h2 := deleteListLoop_allPartitions cfg c.SourceBlocks
      ((c.SourceBlocks.Blocks.map
        (fun id => createPartitionKey id cfg.PartitionDuration)).dedup)
      (insertBlocks cfg now c.NewBlocks s store).1
      (insertBlocks cfg now c.NewBlocks s store).2
    unfold deleteBlockList
    rw [h2]
    exact h1
  | replaceNoCheckNoPersistOp c =>
    simp only [applyOp, ReplaceBlocksNoCheckNoPersist]
    have h1 : ∀ (bs : List BlockMeta) (st : IndexState),
        PartitionsInv st.allPartitions →
        PartitionsInv ((bs.foldl (fun st b => insertBlock cfg store now st b)
          st).allPartitions) := by
      intro bs
      induction bs with
      | nil => intro st hst; exact hst
      | cons b bs ih =>
        intro st hst
        rw [List.foldl_cons]
        exact ih _ (insertBlock_inv cfg store now st b hst)
    have h2 : ∀ (ids : List BlockId) (st : IndexState),
        (ids.foldl (fun st id => deleteBlock cfg st c.SourceBlocks.Shard
          c.SourceBlocks.Tenant id) st).allPartitions = st.allPartitions := by
      intro ids
      induction ids with
      | nil => intro st; rfl
      | cons id ids ih =>
        intro st
        rw [List.foldl_cons, ih, deleteBlock_allPartitions]
    rw [h2]
    exact h1 _ _ h
  | findBlockOp sh t id =>
    simp only [applyOp, FindBlock]
    rw [findBlock_allPartitions]
    exact h
  | findBlocksOp l =>
    simp only [applyOp, FindBlocks]
    rw [findBlocksLoop_allPartitions]
    exact h
  | findBlocksInRangeOp a b ts =>
    simp only [applyOp, FindBlocksInRange]
    rw [rangeMetasLoop_allPartitions]
    exact h
  | restoreOp => exact Restore_inv cfg store now s
  | findPartitionMetasOp id => exact h

/-- Witness for C9 at a concrete input: inserting a block into the empty
index preserves (here: establishes over the empty list) the sorted,
duplicate-free partition-list invariant. -/
theorem claim_C9_witness :
    PartitionsInv (IndexState.mk [] []).allPartitions ∧
    PartitionsInv (applyOp ⟨100, 7, 50⟩ (StoreState.mk []) 1000
      (IndexState.mk [] [])
      (Op.insertOp ⟨⟨150, 0⟩, 1, "A", 140, 160, []⟩)).1.allPartitions :=
  ⟨by decide,
   claim_C9_allPartitions_invariant ⟨100, 7, 50⟩ (StoreState.mk []) 1000
     (Op.insertOp ⟨⟨150, 0⟩, 1, "A", 140, 160, []⟩) (IndexState.mk [] [])
     (by decide)⟩

/-- C7: After `Restore`, the in-memory state is rebuilt from scratch:
`allPartitions` holds a `PartitionMeta` for every partition key the store
lists and nothing else (its keys are a permutation of the store's listing),
sorted by `(Ts, Duration)`; and for every partition containing the current
time, every `(partition, tenant)` pair is fully loaded into the cache — the
loaded entry answers every point lookup exactly like the store. -/
theorem claim_C7_restore_rebuilds (cfg : Config) (store : StoreState)
    (now : Int) (s : IndexState) :
    ((Restore cfg store now s).allPartitions.map (fun m => m.Key)).Perm
      (listPartitions store) ∧
    (Restore cfg store now s).allPartitions.Pairwise pmLe ∧
    (∀ k ∈ listPartitions store, (loadPartitionMeta store k).contains now →
      ∀ sh ∈ listShards store k, ∀ t ∈ listTenants store k sh,
      ∃ p, lookupA (Restore cfg store now s).loadedPartitions ⟨k, t⟩ = some p ∧
        ∀ sh' id, shardLookup p sh' id = storeLookup store k sh' t id) := by
  obtain ⟨ha, hb, hc⟩ := loadPartitionsFold store now (listPartitions store)
    ⟨[], []⟩ (listPartitions_nodup store) (fun k _ t => rfl)
  have hall : (Restore cfg store now s).allPartitions =
      sortPartitionList ((listPartitions store).map (loadPartitionMeta store)) := by
    have h1 : (Restore cfg store now s).allPartitions =
        sortPartitionList (((listPartitions store).foldl (fun st key =>
          let pMeta := loadPartitionMeta store key
          let st' : IndexState :=
            { st with allPartitions := st.allPartitions ++ [pMeta] }
          if pMeta.contains now then loadEntirePartition store now st' pMeta
          else st') ⟨[], []⟩).allPartitions) := rfl
    rw [h1, ha, List.nil_append]
  have hload : (Restore cfg store now s).loadedPartitions =
      ((listPartitions store).foldl (fun st key =>
        let pMeta := loadPartitionMeta store key
        let st' : IndexState :=
          { st with allPartitions := st.allPartitions ++ [pMeta] }
        if pMeta.contains now then loadEntirePartition store now st' pMeta
        else st') ⟨[], []⟩).loadedPartitions := rfl
  refine ⟨?_, ?_, ?_⟩
  · rw [hall]
    refine ((sortPartitionList_perm _).map (fun m => m.Key)).trans ?_
    rw [List.map_map]
    rw [show ((fun m : PartitionMeta => m.Key) ∘ loadPartitionMeta store) =
      fun k => k from funext (fun k => loadPartitionMeta_Key store k)]
    rw [List.map_id']
  · rw [hall]
    exact sortPartitionList_pairwise _
  · intro k hk hcont sh hsh t ht
    have hlk := hc k hk hcont t
    have hne : restoreShardsFor store k (listShards store k) t ≠ [] := by
      intro h
      have hmem : sh ∈ (listShards store k).filter
          (fun sh => decide (t ∈ listTenants store k sh)) :=
        List.mem_filter.mpr ⟨hsh, by simpa using ht⟩
      unfold restoreShardsFor at h
      rw [List.map_eq_nil_iff] at h
      rw [h] at hmem
      cases hmem
    refine ⟨⟨loadPartitionMeta store k, now,
      restoreShardsFor store k (listShards store k) t⟩, ?_, ?_⟩
    · rw [hload, hlk, if_neg hne]
    · intro sh' id
      exact restoreShardsFor_shardLookup store k t _ now sh' id

/-- Witness for C7 at a concrete input: one stored block in the partition
containing `now = 50`; after `Restore` the `(partition, "A")` entry is
loaded and mirrors the store. -/
theorem claim_C7_witness :
    ∃ p, lookupA (Restore ⟨100, 7, 50⟩
        (StoreState.mk [⟨⟨0, 100⟩, 1, "A", ⟨⟨50, 0⟩, 1, "A", 40, 60, []⟩⟩]) 50
        newIndex).loadedPartitions ⟨⟨0, 100⟩, "A"⟩ = some p ∧
      ∀ sh' id, shardLookup p sh' id = storeLookup
        (StoreState.mk [⟨⟨0, 100⟩, 1, "A", ⟨⟨50, 0⟩, 1, "A", 40, 60, []⟩⟩])
        ⟨0, 100⟩ sh' "A" id :=
  (claim_C7_restore_rebuilds ⟨100, 7, 50⟩
    (StoreState.mk [⟨⟨0, 100⟩, 1, "A", ⟨⟨50, 0⟩, 1, "A", 40, 60, []⟩⟩]) 50
    newIndex).2.2 ⟨0, 100⟩ (by decide) (by decide) 1 (by decide) "A" (by decide)

/-- C10: `FindBlocks` returns each requested block id at most once, even
when several probed partitions could contain it: the returned records carry
pairwise distinct ids, each of them one of the requested ids (an id found in
one partition is removed from the outstanding set before later partitions
are probed).  Hypothesis: every loaded shard map keys its blocks by their
own id, which is true of every map the code builds. -/
theorem claim_C10_findBlocks_at_most_once (cfg : Config) (store : StoreState)
    (now : Int) (s : IndexState) (list : BlockList) (hwk : WellKeyed s) :
    ((FindBlocks cfg store now s list).1.map (fun b => b.Id)).Nodup ∧
    ∀ b ∈ (FindBlocks cfg store now s list).1, b.Id ∈ list.Blocks := by
  have h := findBlocksLoop_spec cfg store now list.Tenant list.Shard
    ((list.Blocks.map (fun id => createPartitionKey id cfg.PartitionDuration)).dedup)
    list.Blocks.dedup s hwk (List.nodup_dedup list.Blocks)
  constructor
  · exact h.1
  · intro b hb
    have hmem : b.Id ∈ list.Blocks.dedup :=
      h.2 b.Id (List.mem_map.mpr ⟨b, hb, rfl⟩)
    exact List.mem_dedup.mp hmem

/-- Witness for C10 at a concrete input: two requested ids spanning two
partitions, with the second id present in the first probed partition as
well; the result still lists each id once. -/
theorem claim_C10_witness :
    WellKeyed (IndexState.mk []
      [⟨⟨0, 100⟩, 0, 100, ["A"]⟩, ⟨⟨100, 100⟩, 100, 100, ["A"]⟩]) ∧
    (((FindBlocks ⟨100, 7, 50⟩
        (StoreState.mk
          [⟨⟨0, 100⟩, 1, "A", ⟨⟨50, 0⟩, 1, "A", 0, 1, []⟩⟩,
           ⟨⟨0, 100⟩, 1, "A", ⟨⟨150, 1⟩, 1, "A", 0, 1, []⟩⟩,
           ⟨⟨100, 100⟩, 1, "A", ⟨⟨150, 1⟩, 1, "A", 2, 3, []⟩⟩]) 1000
        (IndexState.mk []
          [⟨⟨0, 100⟩, 0, 100, ["A"]⟩, ⟨⟨100, 100⟩, 100, 100, ["A"]⟩])
        ⟨1, "A", [⟨50, 0⟩, ⟨150, 1⟩]⟩).1.map (fun b => b.Id)).Nodup ∧
      ∀ b ∈ (FindBlocks ⟨100, 7, 50⟩
        (StoreState.mk
          [⟨⟨0, 100⟩, 1, "A", ⟨⟨50, 0⟩, 1, "A", 0, 1, []⟩⟩,
           ⟨⟨0, 100⟩, 1, "A", ⟨⟨150, 1⟩, 1, "A", 0, 1, []⟩⟩,
           ⟨⟨100, 100⟩, 1, "A", ⟨⟨150, 1⟩, 1, "A", 2, 3, []⟩⟩]) 1000
        (IndexState.mk []
          [⟨⟨0, 100⟩, 0, 100, ["A"]⟩, ⟨⟨100, 100⟩, 100, 100, ["A"]⟩])
        ⟨1, "A", [⟨50, 0⟩, ⟨150, 1⟩]⟩).1, b.Id ∈ [⟨50, 0⟩, (⟨150, 1⟩ : BlockId)]) :=
  ⟨by decide,
   claim_C10_findBlocks_at_most_once ⟨100, 7, 50⟩
     (StoreState.mk
       [⟨⟨0, 100⟩, 1, "A", ⟨⟨50, 0⟩, 1, "A", 0, 1, []⟩⟩,
        ⟨⟨0, 100⟩, 1, "A", ⟨⟨150, 1⟩, 1, "A", 0, 1, []⟩⟩,
        ⟨⟨100, 100⟩, 1, "A", ⟨⟨150, 1⟩, 1, "A", 2, 3, []⟩⟩]) 1000
     (IndexState.mk []
       [⟨⟨0, 100⟩, 0, 100, ["A"]⟩, ⟨⟨100, 100⟩, 100, 100, ["A"]⟩])
     ⟨1, "A", [⟨50, 0⟩, ⟨150, 1⟩]⟩ (by decide)⟩

/-- Witness for C8 at a concrete input: a loaded entry holds record `mW`
under id `(150, 0)`; inserting the different record `bW` with the same id
leaves `mW` in place. -/
theorem claim_C8_witness :
    targetLookup (StoreState.mk [⟨⟨100, 100⟩, 1, "A", ⟨⟨150, 0⟩, 1, "A", 5, 6, []⟩⟩])
      (IndexState.mk
        [(⟨⟨100, 100⟩, "A"⟩, ⟨⟨⟨100, 100⟩, 100, 100, ["A"]⟩, 0,
          [(1, ⟨[(⟨150, 0⟩, ⟨⟨150, 0⟩, 1, "A", 5, 6, []⟩)]⟩)]⟩)]
        [⟨⟨100, 100⟩, 100, 100, ["A"]⟩])
      ⟨createPartitionKey (BlockId.mk 150 0) (100 : Int), "A"⟩ 1 ⟨150, 0⟩ =
      some ⟨⟨150, 0⟩, 1, "A", 5, 6, []⟩ ∧
    (∀ p', lookupA (insertBlock ⟨100, 7, 50⟩
        (StoreState.mk [⟨⟨100, 100⟩, 1, "A", ⟨⟨150, 0⟩, 1, "A", 5, 6, []⟩⟩]) 1000
        (IndexState.mk
          [(⟨⟨100, 100⟩, "A"⟩, ⟨⟨⟨100, 100⟩, 100, 100, ["A"]⟩, 0,
            [(1, ⟨[(⟨150, 0⟩, ⟨⟨150, 0⟩, 1, "A", 5, 6, []⟩)]⟩)]⟩)]
          [⟨⟨100, 100⟩, 100, 100, ["A"]⟩])
        ⟨⟨150, 0⟩, 1, "A", 0, 1, []⟩).loadedPartitions
        ⟨createPartitionKey (BlockId.mk 150 0) (100 : Int), "A"⟩ = some p' →
      ∀ sh id, shardLookup p' sh id = targetLookup
        (StoreState.mk [⟨⟨100, 100⟩, 1, "A", ⟨⟨150, 0⟩, 1, "A", 5, 6, []⟩⟩])
        (IndexState.mk
          [(⟨⟨100, 100⟩, "A"⟩, ⟨⟨⟨100, 100⟩, 100, 100, ["A"]⟩, 0,
            [(1, ⟨[(⟨150, 0⟩, ⟨⟨150, 0⟩, 1, "A", 5, 6, []⟩)]⟩)]⟩)]
          [⟨⟨100, 100⟩, 100, 100, ["A"]⟩])
        ⟨createPartitionKey (BlockId.mk 150 0) (100 : Int), "A"⟩ sh id) :=
  ⟨by decide,
   (claim_C8_insert_no_overwrite ⟨100, 7, 50⟩
      (StoreState.mk [⟨⟨100, 100⟩, 1, "A", ⟨⟨150, 0⟩, 1, "A", 5, 6, []⟩⟩]) 1000
      (IndexState.mk
        [(⟨⟨100, 100⟩, "A"⟩, ⟨⟨⟨100, 100⟩, 100, 100, ["A"]⟩, 0,
          [(1, ⟨[(⟨150, 0⟩, ⟨⟨150, 0⟩, 1, "A", 5, 6, []⟩)]⟩)]⟩)]
        [⟨⟨100, 100⟩, 100, 100, ["A"]⟩])
      ⟨⟨150, 0⟩, 1, "A", 0, 1, []⟩ ⟨⟨150, 0⟩, 1, "A", 5, 6, []⟩ (by decide)).1⟩

/-- C5 (corrected): after `getOrLoadPartition` runs the eviction pass, a
tenant's loaded entry count is bounded by `PartitionCacheSize` or, when
larger, by the number of pinned (currently active) entries — not by
`PartitionCacheSize + 1` in general; the claimed `+ 1` bound only holds when
at most one entry is pinned.  Hypotheses: cache keys are distinct and each
entry's meta is keyed by its cache key, true of every reachable state. -/
theorem claim_C5_cache_bound (cfg : Config) (store : StoreState) (now : Int)
    (s : IndexState) (meta : PartitionMeta) (tenant : String) (t : String)
    (hnd : (s.loadedPartitions.map Prod.fst).Nodup)
    (hkc : KeyConsistent s) :
    (entriesFor (getOrLoadPartition cfg store now s meta tenant).2 t).length ≤
      max cfg.PartitionCacheSize.toNat
        ((entriesFor (getOrLoadPartition cfg store now s meta tenant).2 t).countP
          (fun e => decide (e.2.meta.contains now))) ∧
    ((entriesFor (getOrLoadPartition cfg store now s meta tenant).2 t).countP
        (fun e => decide (e.2.meta.contains now)) ≤ 1 →
      (entriesFor (getOrLoadPartition cfg store now s meta tenant).2 t).length ≤
        cfg.PartitionCacheSize.toNat + 1) := by
  have hnd' : ((insertA s.loadedPartitions ⟨meta.Key, tenant⟩
      (getOrLoadPartition cfg store now s meta tenant).1).map Prod.fst).Nodup :=
    insertA_nodup_keys _ _ _ hnd
  have hkc' := getOrLoadPartition_midstate_kc cfg store now s meta tenant hkc
  have h1 := unloadPartitions_count_bound cfg now
    { s with loadedPartitions :=
        (insertA s.loadedPartitions ⟨meta.Key, tenant⟩
          (getOrLoadPartition cfg store now s meta tenant).1) } t hnd' hkc'
  rw [← getOrLoadPartition_snd_eq] at h1
  refine ⟨h1, fun hp => ?_⟩
  exact le_trans h1 (max_le (Nat.le_add_right _ _)
    (le_trans hp (by omega)))

/-- Counterexample to C5 as stated: with `PartitionCacheSize = 1`, restoring
over three overlapping partitions that all contain the current instant and
then looking up a block of a fourth partition leaves tenant `"A"` with three
loaded entries — more than `PartitionCacheSize + 1 = 2`. -/
theorem claim_C5_counterexample :
    (⟨100, 1, 50⟩ : Config).PartitionCacheSize = 1 ∧
    (entriesFor (FindBlock ⟨100, 1, 50⟩ stC5 50
      (Restore ⟨100, 1, 50⟩ stC5 50 newIndex) 1 "A" ⟨550, 3⟩).2 "A").length = 3 := by
  exact ⟨by decide, by decide⟩

/-- Witness for C5 at a concrete input: one lookup against the empty index. -/
theorem claim_C5_witness :
    ((newIndex.loadedPartitions.map Prod.fst).Nodup ∧ KeyConsistent newIndex) ∧
    ((entriesFor (getOrLoadPartition ⟨100, 7, 50⟩ ⟨[]⟩ 50 newIndex
        ⟨⟨0, 100⟩, 0, 100, ["A"]⟩ "A").2 "A").length ≤
      max (⟨100, 7, 50⟩ : Config).PartitionCacheSize.toNat
        ((entriesFor (getOrLoadPartition ⟨100, 7, 50⟩ ⟨[]⟩ 50 newIndex
          ⟨⟨0, 100⟩, 0, 100, ["A"]⟩ "A").2 "A").countP
          (fun e => decide (e.2.meta.contains 50))) ∧
      (((entriesFor (getOrLoadPartition ⟨100, 7, 50⟩ ⟨[]⟩ 50 newIndex
          ⟨⟨0, 100⟩, 0, 100, ["A"]⟩ "A").2 "A").countP
          (fun e => decide (e.2.meta.contains 50)) ≤ 1) →
        (entriesFor (getOrLoadPartition ⟨100, 7, 50⟩ ⟨[]⟩ 50 newIndex
          ⟨⟨0, 100⟩, 0, 100, ["A"]⟩ "A").2 "A").length ≤
          (⟨100, 7, 50⟩ : Config).PartitionCacheSize.toNat + 1)) :=
  ⟨⟨by decide, by decide⟩,
   claim_C5_cache_bound ⟨100, 7, 50⟩ ⟨[]⟩ 50 newIndex
     ⟨⟨0, 100⟩, 0, 100, ["A"]⟩ "A" "A" (by decide) (by decide)⟩

/-- C6 (corrected): the eviction pass does walk the tenant's entries in
ascending `AccessedAt` order (the sort is a permutation sorted by
`AccessedAt`) and skips every entry whose partition contains the current
time, collecting the first `toRemove` non-pinned entries; but the entry
just accessed is only guaranteed to survive its own pass when the excess
can be absorbed by the tenant's non-pinned older entries (`hcnt`) — pinned
entries absorb none of the walk, so the walk can reach the just-touched
entry (see the counterexample).  Here: for a fresh cache key, strictly
older sibling entries and absorbable excess, the freshly stamped entry
survives the pass its own call triggers. -/
theorem claim_C6_eviction_policy (cfg : Config) (store : StoreState)
    (now : Int) (s : IndexState) (meta : PartitionMeta) (tenant : String)
    (hkc : KeyConsistent s)
    (hfresh : lookupA s.loadedPartitions ⟨meta.Key, tenant⟩ = none)
    (hacc : ∀ e ∈ entriesFor s tenant, e.2.accessedAt < now)
    (hcnt : (entriesFor s tenant).length + 1 - cfg.PartitionCacheSize.toNat ≤
      (entriesFor s tenant).countP (fun e => !decide (e.2.meta.contains now))) :
    (∀ l : List (CacheKey × IndexPartition), (sortByAccessed l).Perm l ∧
      (sortByAccessed l).Pairwise
        (fun a b => a.2.accessedAt ≤ b.2.accessedAt)) ∧
    (∀ (t : String) (n : Nat) (l : List (CacheKey × IndexPartition)),
      evictKeys now t n l =
        ((l.filter (fun e => !decide (e.2.meta.contains now))).take n).map
          (fun e => (⟨e.2.meta.Key, t⟩ : CacheKey))) ∧
    (∃ q, lookupA
        (getOrLoadPartition cfg store now s meta tenant).2.loadedPartitions
        ⟨meta.Key, tenant⟩ = some q ∧ q.accessedAt = now) := by
  refine ⟨fun l => ⟨sortByAccessed_perm l, sortByAccessed_pairwise l⟩,
    fun t n l => evictKeys_take_filter now t n l, ?_⟩
  have hkey : (⟨meta.Key, tenant⟩ : CacheKey) ∉
      s.loadedPartitions.map Prod.fst := (lookupA_eq_none _ _).mp hfresh
  have h1 : insertA s.loadedPartitions ⟨meta.Key, tenant⟩
      (getOrLoadPartition cfg store now s meta tenant).1 =
      s.loadedPartitions ++
        [(⟨meta.Key, tenant⟩, (getOrLoadPartition cfg store now s meta tenant).1)] :=
    insertA_notmem _ _ _ hkey
  have hef : entriesFor { s with loadedPartitions :=
      (insertA s.loadedPartitions ⟨meta.Key, tenant⟩
        (getOrLoadPartition cfg store now s meta tenant).1) } tenant =
      entriesFor s tenant ++
        [(⟨meta.Key, tenant⟩, (getOrLoadPartition cfg store now s meta tenant).1)] := by
    unfold entriesFor
    simp only
    rw [h1, List.filter_append]
    simp
  have hkcE : ∀ y ∈ entriesFor s tenant,
      y.2.meta.Key = y.1.partitionKey ∧ y.1.tenant = tenant := by
    intro y hy
    have hy' := List.mem_filter.mp hy
    exact ⟨hkc y hy'.1, by simpa using hy'.2⟩
  have hkeyE : (⟨meta.Key, tenant⟩ : CacheKey) ∉
      (entriesFor s tenant).map Prod.fst := by
    intro hmem
    rcases List.mem_map.mp hmem with ⟨y, hy, hk⟩
    exact hkey (List.mem_map.mpr ⟨y, (List.mem_filter.mp hy).1, hk⟩)
  have haccE : ∀ x ∈ entriesFor s tenant, x.2.accessedAt <
      (getOrLoadPartition cfg store now s meta tenant).1.accessedAt := by
    intro x hx
    rw [getOrLoadPartition_accessedAt]
    exact hacc x hx
  have hcond : (⟨meta.Key, tenant⟩ : CacheKey) ∉
      evictKeys now (⟨meta.Key, tenant⟩ : CacheKey).tenant
        (tenantExcess cfg { s with loadedPartitions :=
          (insertA s.loadedPartitions ⟨meta.Key, tenant⟩
            (getOrLoadPartition cfg store now s meta tenant).1) }
          (⟨meta.Key, tenant⟩ : CacheKey).tenant)
        (sortByAccessed (entriesFor { s with loadedPartitions :=
          (insertA s.loadedPartitions ⟨meta.Key, tenant⟩
            (getOrLoadPartition cfg store now s meta tenant).1) }
          (⟨meta.Key, tenant⟩ : CacheKey).tenant)) := by
    show (⟨meta.Key, tenant⟩ : CacheKey) ∉
      evictKeys now tenant
        (tenantExcess cfg { s with loadedPartitions :=
          (insertA s.loadedPartitions ⟨meta.Key, tenant⟩
            (getOrLoadPartition cfg store now s meta tenant).1) } tenant)
        (sortByAccessed (entriesFor { s with loadedPartitions :=
          (insertA s.loadedPartitions ⟨meta.Key, tenant⟩
            (getOrLoadPartition cfg store now s meta tenant).1) } tenant))
    have hexc : tenantExcess cfg { s with loadedPartitions :=
        (insertA s.loadedPartitions ⟨meta.Key, tenant⟩
          (getOrLoadPartition cfg store now s meta tenant).1) } tenant =
        (entriesFor s tenant).length + 1 - cfg.PartitionCacheSize.toNat := by
      unfold tenantExcess
      rw [hef, List.length_append, List.length_singleton]
    rw [hexc, hef]
    exact evictKeys_fresh_append now tenant _ (entriesFor s tenant)
      ⟨meta.Key, tenant⟩ (getOrLoadPartition cfg store now s meta tenant).1
      hkcE hkeyE haccE hcnt
  refine ⟨(getOrLoadPartition cfg store now s meta tenant).1, ?_,
    getOrLoadPartition_accessedAt cfg store now s meta tenant⟩
  rw [getOrLoadPartition_snd_eq, unloadPartitions_lookup, if_pos hcond]
  show lookupA (insertA s.loadedPartitions ⟨meta.Key, tenant⟩
    (getOrLoadPartition cfg store now s meta tenant).1) ⟨meta.Key, tenant⟩ = _
  exact lookupA_insertA_self _ _ _

/-- C3 (corrected): at the store, `ReplaceBlocks(new, src)` first persists
every block of `NewBlocks` under its natural partition key, then removes
exactly those rows whose `(Shard, Tenant)` match `SourceBlocks`, whose block
id is listed in `SourceBlocks`, AND which are stored under the id's natural
partition key.  It is not a full swap: a source block persisted under any
other (stale) partition key survives (see the counterexample).  With fresh,
duplicate-free new ids disjoint from the source ids, the post-state is the
prior rows minus the naturally-keyed source rows, plus one appended row per
new block. -/
theorem claim_C3_replace_swap (cfg : Config) (store : StoreState) (now : Int)
    (s : IndexState) (compacted : CompactedBlocks) :
    (ReplaceBlocks cfg store now s compacted).2.entries =
      (compacted.NewBlocks.foldl (fun st b => storeBlockOp st
          (createPartitionKey b.Id cfg.PartitionDuration) b) store).entries.filter
        (fun e => !decide (e.shard = compacted.SourceBlocks.Shard ∧
          e.tenant = compacted.SourceBlocks.Tenant ∧
          e.block.Id ∈ compacted.SourceBlocks.Blocks ∧
          e.partKey = createPartitionKey e.block.Id cfg.PartitionDuration)) ∧
    ((∀ b ∈ compacted.NewBlocks, storeLookup store
        (createPartitionKey b.Id cfg.PartitionDuration) b.Shard b.TenantId
        b.Id = none) →
      ((compacted.NewBlocks.map (fun b => b.Id)).Nodup) →
      (∀ b ∈ compacted.NewBlocks, b.Id ∉ compacted.SourceBlocks.Blocks) →
      (ReplaceBlocks cfg store now s compacted).2.entries =
        store.entries.filter
          (fun e => !decide (e.shard = compacted.SourceBlocks.Shard ∧
            e.tenant = compacted.SourceBlocks.Tenant ∧
            e.block.Id ∈ compacted.SourceBlocks.Blocks ∧
            e.partKey = createPartitionKey e.block.Id cfg.PartitionDuration)) ++
        compacted.NewBlocks.map (fun b =>
          (⟨createPartitionKey b.Id cfg.PartitionDuration, b.Shard, b.TenantId,
            b⟩ : StoreEntry))) := by
  have hgen : (ReplaceBlocks cfg store now s compacted).2.entries =
      (compacted.NewBlocks.foldl (fun st b => storeBlockOp st
          (createPartitionKey b.Id cfg.PartitionDuration) b) store).entries.filter
        (fun e => !decide (e.shard = compacted.SourceBlocks.Shard ∧
          e.tenant = compacted.SourceBlocks.Tenant ∧
          e.block.Id ∈ compacted.SourceBlocks.Blocks ∧
          e.partKey = createPartitionKey e.block.Id cfg.PartitionDuration)) := by
    rw [show (ReplaceBlocks cfg store now s compacted).2 =
      (deleteBlockList cfg (insertBlocks cfg now compacted.NewBlocks s store).1
        (insertBlocks cfg now compacted.NewBlocks s store).2
        compacted.SourceBlocks).2 from rfl]
    rw [deleteBlockList_store, insertBlocks_store]
  refine ⟨hgen, fun hfresh hnodup hdisj => ?_⟩
  rw [hgen]
  rw [insertBlocks_store_append cfg compacted.NewBlocks store hfresh hnodup]
  show (store.entries ++ _).filter _ = _
  rw [List.filter_append]
  have hkeep : (compacted.NewBlocks.map (fun b =>
      (⟨createPartitionKey b.Id cfg.PartitionDuration, b.Shard, b.TenantId,
        b⟩ : StoreEntry))).filter
      (fun e => !decide (e.shard = compacted.SourceBlocks.Shard ∧
        e.tenant = compacted.SourceBlocks.Tenant ∧
        e.block.Id ∈ compacted.SourceBlocks.Blocks ∧
        e.partKey = createPartitionKey e.block.Id cfg.PartitionDuration)) =
      compacted.NewBlocks.map (fun b =>
        (⟨createPartitionKey b.Id cfg.PartitionDuration, b.Shard, b.TenantId,
          b⟩ : StoreEntry)) := by
    apply List.filter_eq_self.mpr
    intro x hx
    rcases List.mem_map.mp hx with ⟨b, hb, hbx⟩
    rw [← hbx]
    simp [hdisj b hb]
  rw [hkeep]

/-- Counterexample to C3 as stated: a source block persisted under a stale
(non-natural) partition key is not removed — the post-state is not
`(state ∪ new) \ src`. -/
theorem claim_C3_counterexample :
    (⟨⟨0, 200⟩, 1, "A", ⟨⟨50, 0⟩, 1, "A", 40, 60, []⟩⟩ : StoreEntry) ∈
      (ReplaceBlocks ⟨100, 7, 50⟩ stC3 0 sC3
        ⟨[], ⟨1, "A", [⟨50, 0⟩]⟩⟩).2.entries ∧
    (⟨50, 0⟩ : BlockId) ∈ ([⟨50, 0⟩] : List BlockId) :=
  ⟨by decide, by decide⟩

/-- Witness for C3 at a concrete input: replace against the empty store. -/
theorem claim_C3_witness :
    (∀ b ∈ [bC2], storeLookup (⟨[]⟩ : StoreState)
      (createPartitionKey b.Id (⟨100, 7, 50⟩ : Config).PartitionDuration)
      b.Shard b.TenantId b.Id = none) ∧
    (([bC2].map (fun b => b.Id)).Nodup) ∧
    (∀ b ∈ [bC2], b.Id ∉ ([⟨999, 9⟩] : List BlockId)) ∧
    (ReplaceBlocks ⟨100, 7, 50⟩ ⟨[]⟩ 1000 newIndex
        ⟨[bC2], ⟨1, "A", [⟨999, 9⟩]⟩⟩).2.entries =
      ([] : List StoreEntry).filter
        (fun e => !decide (e.shard = (⟨1, "A", [⟨999, 9⟩]⟩ : BlockList).Shard ∧
          e.tenant = (⟨1, "A", [⟨999, 9⟩]⟩ : BlockList).Tenant ∧
          e.block.Id ∈ (⟨1, "A", [⟨999, 9⟩]⟩ : BlockList).Blocks ∧
          e.partKey = createPartitionKey e.block.Id
            (⟨100, 7, 50⟩ : Config).PartitionDuration)) ++
      [bC2].map (fun b =>
        (⟨createPartitionKey b.Id (⟨100, 7, 50⟩ : Config).PartitionDuration,
          b.Shard, b.TenantId, b⟩ : StoreEntry)) :=
  ⟨by decide, by decide, by decide,
   (claim_C3_replace_swap ⟨100, 7, 50⟩ ⟨[]⟩ 1000 newIndex
     ⟨[bC2], ⟨1, "A", [⟨999, 9⟩]⟩⟩).2 (by decide) (by decide) (by decide)⟩

/-- C1 (corrected): under coherence, `FindBlocksInRange(s, e, T)` returns
exactly the concatenation, over the partitions whose interval overlaps the
window widened by `QueryLookaroundPeriod` and over the requested tenants
recorded on each such partition, of the store's blocks of that tenant
matching the precise predicate `s < b.MaxTime ∧ b.MinTime ≤ e`, followed by
the matching mixed (`""`) blocks — the mixed leaf re-collected once per
requesting tenant.  Hence every returned block matches the precise
predicate (soundness); but a mixed block is NOT returned exactly once (one
copy per requesting tenant), and a matching block whose partition lies
outside the widened window is missed entirely (see the counterexample). -/
theorem claim_C1_range_query (cfg : Config) (store : StoreState) (now : Int)
    (s : IndexState) (startMs endMs : Int) (T : List String)
    (hcoh : Coherent store s) :
    (∀ b ∈ (FindBlocksInRange cfg store now s startMs endMs T).1,
      blockPred startMs endMs b) ∧
    (FindBlocksInRange cfg store now s startMs endMs T).1 =
      (s.allPartitions.filter (fun m => decide (m.overlaps
          (startMs - cfg.QueryLookaroundPeriod)
          (endMs + cfg.QueryLookaroundPeriod)))).flatMap
        (fun m => (T.filter (fun t => decide (m.HasTenant t))).flatMap
          (fun t =>
            collectTenantBlocks ⟨m, 0, loadShards store m.Key t⟩ startMs
              endMs ++
            collectTenantBlocks ⟨m, 0, loadShards store m.Key ""⟩ startMs
              endMs)) := by
  have heq : (FindBlocksInRange cfg store now s startMs endMs T).1 =
      (rangeMetasLoop cfg store now startMs endMs
        (startMs - cfg.QueryLookaroundPeriod)
        (endMs + cfg.QueryLookaroundPeriod) T s.allPartitions s).1 := rfl
  obtain ⟨h1, _⟩ := rangeMetasLoop_spec cfg store now startMs endMs
    (startMs - cfg.QueryLookaroundPeriod) (endMs + cfg.QueryLookaroundPeriod)
    T s.allPartitions s hcoh
  refine ⟨?_, heq.trans h1⟩
  intro b hb
  rw [heq, h1] at hb
  rcases List.mem_flatMap.mp hb with ⟨m, _, hb⟩
  rcases List.mem_flatMap.mp hb with ⟨t, _, hb⟩
  rcases List.mem_append.mp hb with hb | hb
  · exact mem_collectTenantBlocks_pred _ _ _ _ hb
  · exact mem_collectTenantBlocks_pred _ _ _ _ hb

/-- Counterexample to C1 as stated: with tenants `["A", "B"]` the mixed
block `bM` is returned twice (once per requesting tenant); and `bL`, whose
payload matches the precise predicate and whose tenant is requested, is
missed because its partition's creation-time interval lies outside the
lookaround-widened window. -/
theorem claim_C1_counterexample :
    (FindBlocksInRange ⟨100, 7, 50⟩ stC1 0 sC1 0 100 ["A", "B"]).1.countP
      (fun b => decide (b = bM)) = 2 ∧
    blockPred 0 100 bL ∧ bL.TenantId ∈ ["A", "B"] ∧
    bL ∉ (FindBlocksInRange ⟨100, 7, 50⟩ stC1 0 sC1 0 100 ["A", "B"]).1 :=
  ⟨by decide, by decide, by decide, by decide⟩

/-- Witness for C1 at a concrete input: the query over `stC1`'s index
state, which is coherent since nothing is loaded. -/
theorem claim_C1_witness :
    Coherent stC1 sC1 ∧
    ((∀ b ∈ (FindBlocksInRange ⟨100, 7, 50⟩ stC1 0 sC1 0 100 ["A", "B"]).1,
        blockPred 0 100 b) ∧
      (FindBlocksInRange ⟨100, 7, 50⟩ stC1 0 sC1 0 100 ["A", "B"]).1 =
        (sC1.allPartitions.filter (fun m => decide (m.overlaps
            (0 - (⟨100, 7, 50⟩ : Config).QueryLookaroundPeriod)
            (100 + (⟨100, 7, 50⟩ : Config).QueryLookaroundPeriod)))).flatMap
          (fun m => (["A", "B"].filter (fun t => decide (m.HasTenant t))).flatMap
            (fun t =>
              collectTenantBlocks ⟨m, 0, loadShards stC1 m.Key t⟩ 0 100 ++
              collectTenantBlocks ⟨m, 0, loadShards stC1 m.Key ""⟩ 0 100))) :=
  ⟨(fun ck p h => nomatch h),
   claim_C1_range_query ⟨100, 7, 50⟩ stC1 0 sC1 0 100 ["A", "B"]
     (fun ck p h => nomatch h)⟩

/-- C4: after a successful `InsertBlock(b)`, `FindBlock(b.Shard, b.TenantId,
b.Id)` — at any later time, against the updated store and in-memory state —
returns a record equal to `b`: either the cache entry the insert wrote
survived its eviction pass and carries the block, or the entry is reloaded
from the store, which now persists the block.  Hypotheses (true of every
reachable state): loaded entries mirror the store, and every persisted row's
partition is registered in `allPartitions`. -/
theorem claim_C4_insert_then_find (cfg : Config) (store : StoreState)
    (now now2 : Int) (s : IndexState) (b : BlockMeta)
    (hcoh : Coherent store s)
    (hkeys : ∀ row ∈ store.entries, ∃ m ∈ s.allPartitions, m.Key = row.partKey)
    (hsucc : (InsertBlock cfg store now s b).errBlockExists = false) :
    (FindBlock cfg (InsertBlock cfg store now s b).store now2
      (InsertBlock cfg store now s b).idx b.Shard b.TenantId b.Id).1 =
      some b :=
  insert_success_probe cfg store now now2 s b hcoh hkeys hsucc

/-- Witness for C4 at a concrete input: insert a block into the empty index,
then find it at a later time. -/
theorem claim_C4_witness :
    Coherent (StoreState.mk []) newIndex ∧
    (InsertBlock ⟨100, 7, 50⟩ ⟨[]⟩ 1000 newIndex bC2).errBlockExists = false ∧
    (FindBlock ⟨100, 7, 50⟩ (InsertBlock ⟨100, 7, 50⟩ ⟨[]⟩ 1000 newIndex
        bC2).store 2000
      (InsertBlock ⟨100, 7, 50⟩ ⟨[]⟩ 1000 newIndex bC2).idx bC2.Shard
      bC2.TenantId bC2.Id).1 = some bC2 :=
  ⟨(fun ck p h => nomatch h), by decide,
   claim_C4_insert_then_find ⟨100, 7, 50⟩ ⟨[]⟩ 1000 2000 newIndex bC2
     (fun ck p h => nomatch h) (fun row hr => nomatch hr) (by decide)⟩

/-- C2 (corrected): a duplicate persisted under the same `(Shard, Tenant)`
in any partition the duplicate check searches — the block's natural
partition, or any registered partition whose interval contains the block
id's creation time — makes `InsertBlock` return `ErrBlockExists` with the
store and the partition list untouched.  But the cache (`loadedPartitions`)
IS mutated by the duplicate check's own loads and evictions, contrary to
the claim (see the counterexample); and inserting the same block twice
yields `ErrBlockExists` on the second call with no duplicate persisted. -/
theorem claim_C2_duplicate_detect (cfg : Config) (store : StoreState)
    (now now2 : Int) (s : IndexState) (b : BlockMeta)
    (hcoh : Coherent store s)
    (hkeys : ∀ row ∈ store.entries, ∃ m ∈ s.allPartitions, m.Key = row.partKey) :
    (∀ m, (storeLookup store (createPartitionKey b.Id cfg.PartitionDuration)
        b.Shard b.TenantId b.Id = some m ∨
      ∃ meta ∈ s.allPartitions, meta.contains b.Id.time ∧
        storeLookup store meta.Key b.Shard b.TenantId b.Id = some m) →
      (InsertBlock cfg store now s b).errBlockExists = true ∧
      (InsertBlock cfg store now s b).store = store ∧
      (InsertBlock cfg store now s b).idx.allPartitions = s.allPartitions) ∧
    ((InsertBlock cfg store now s b).errBlockExists = false →
      (InsertBlock cfg (InsertBlock cfg store now s b).store now2
        (InsertBlock cfg store now s b).idx b).errBlockExists = true ∧
      (InsertBlock cfg (InsertBlock cfg store now s b).store now2
        (InsertBlock cfg store now s b).idx b).store =
        (InsertBlock cfg store now s b).store) := by
  constructor
  · intro m hdup
    cases hfb : findBlock cfg store now s b.Shard b.TenantId b.Id with
    | mk o s1 =>
    cases o with
    | none =>
      exfalso
      have hn : (findBlock cfg store now s b.Shard b.TenantId b.Id).1 = none := by
        rw [hfb]
      obtain ⟨hnat, hloop⟩ := findBlock_none_store_any cfg store now s b.Shard
        b.TenantId b.Id hcoh hkeys hn
      rcases hdup with hdup | ⟨meta, hmem, hcont, hdup⟩
      · rw [hnat] at hdup
        cases hdup
      · rw [hloop meta hmem hcont] at hdup
        cases hdup
    | some m' =>
      have hIB : InsertBlock cfg store now s b = ⟨true, s1, store⟩ := by
        unfold InsertBlock
        rw [hfb]
      rw [hIB]
      refine ⟨rfl, rfl, ?_⟩
      show s1.allPartitions = s.allPartitions
      have h := findBlock_allPartitions cfg store now s b.Shard b.TenantId b.Id
      rw [hfb] at h
      exact h
  · intro hsucc
    have hprobe := insert_success_probe cfg store now now2 s b hcoh hkeys hsucc
    cases hfb2 : findBlock cfg (InsertBlock cfg store now s b).store now2
        (InsertBlock cfg store now s b).idx b.Shard b.TenantId b.Id with
    | mk o2 s3 =>
      rw [hfb2] at hprobe
      simp only at hprobe
      subst hprobe
      rw [InsertBlock_of_findBlock_some cfg (InsertBlock cfg store now s b).store
        now2 (InsertBlock cfg store now s b).idx b b s3 hfb2]
      exact ⟨rfl, rfl⟩

/-- Counterexample to C2 as stated: the duplicate check itself loads the
partition entry into the cache, so `InsertBlock` returns `ErrBlockExists`
while `loadedPartitions` has changed. -/
theorem claim_C2_counterexample :
    (InsertBlock ⟨100, 7, 50⟩ stC2 1000 sC2 bC2).errBlockExists = true ∧
    (InsertBlock ⟨100, 7, 50⟩ stC2 1000 sC2 bC2).idx.loadedPartitions ≠
      sC2.loadedPartitions :=
  ⟨by decide, by decide⟩

/-- Witness for C2 at a concrete input: a store holding the block, the
partition registered but not loaded. -/
theorem claim_C2_witness :
    Coherent stC2 sC2 ∧
    ((∀ m, (storeLookup stC2 (createPartitionKey bC2.Id
          (⟨100, 7, 50⟩ : Config).PartitionDuration) bC2.Shard bC2.TenantId
          bC2.Id = some m ∨
        ∃ meta ∈ sC2.allPartitions, meta.contains bC2.Id.time ∧
          storeLookup stC2 meta.Key bC2.Shard bC2.TenantId bC2.Id = some m) →
        (InsertBlock ⟨100, 7, 50⟩ stC2 1000 sC2 bC2).errBlockExists = true ∧
        (InsertBlock ⟨100, 7, 50⟩ stC2 1000 sC2 bC2).store = stC2 ∧
        (InsertBlock ⟨100, 7, 50⟩ stC2 1000 sC2 bC2).idx.allPartitions =
          sC2.allPartitions) ∧
      ((InsertBlock ⟨100, 7, 50⟩ stC2 1000 sC2 bC2).errBlockExists = false →
        (InsertBlock ⟨100, 7, 50⟩ (InsertBlock ⟨100, 7, 50⟩ stC2 1000 sC2
            bC2).store 2000
          (InsertBlock ⟨100, 7, 50⟩ stC2 1000 sC2 bC2).idx bC2).errBlockExists =
          true ∧
        (InsertBlock ⟨100, 7, 50⟩ (InsertBlock ⟨100, 7, 50⟩ stC2 1000 sC2
            bC2).store 2000
          (InsertBlock ⟨100, 7, 50⟩ stC2 1000 sC2 bC2).idx bC2).store =
          (InsertBlock ⟨100, 7, 50⟩ stC2 1000 sC2 bC2).store)) :=
  ⟨(fun ck p h => nomatch h),
   claim_C2_duplicate_detect ⟨100, 7, 50⟩ stC2 1000 2000 sC2 bC2
     (fun ck p h => nomatch h) (by decide)⟩

/-- Counterexample to C6 as stated: cache budget 1; a block of the currently
active partition is inserted, then a block of an old partition.  The second
call's own eviction pass removes the entry it just accessed and stamped
(key `(100, 100) × "A"` is gone) while the pinned active entry
(key `(5000, 100) × "A"`) survives. -/
theorem claim_C6_counterexample :
    outC6.errBlockExists = false ∧
    lookupA outC6.idx.loadedPartitions ⟨⟨100, 100⟩, "A"⟩ = none ∧
    (lookupA outC6.idx.loadedPartitions ⟨⟨5000, 100⟩, "A"⟩).isSome = true := by
  exact ⟨by decide, by decide, by decide⟩

/-- Witness for C6 at a concrete input: a lookup against the empty index. -/
theorem claim_C6_witness :
    (KeyConsistent newIndex ∧
      lookupA newIndex.loadedPartitions ⟨⟨0, 100⟩, "A"⟩ = none ∧
      (∀ e ∈ entriesFor newIndex "A", e.2.accessedAt < 50) ∧
      (entriesFor newIndex "A").length + 1 -
          (⟨100, 7, 50⟩ : Config).PartitionCacheSize.toNat ≤
        (entriesFor newIndex "A").countP
          (fun e => !decide (e.2.meta.contains 50))) ∧
    (∃ q, lookupA (getOrLoadPartition ⟨100, 7, 50⟩ ⟨[]⟩ 50 newIndex
        ⟨⟨0, 100⟩, 0, 100, ["A"]⟩ "A").2.loadedPartitions
        ⟨⟨0, 100⟩, "A"⟩ = some q ∧ q.accessedAt = 50) :=
  ⟨⟨by decide, by decide, by decide, by decide⟩,
   (claim_C6_eviction_policy ⟨100, 7, 50⟩ ⟨[]⟩ 50 newIndex
     ⟨⟨0, 100⟩, 0, 100, ["A"]⟩ "A" (by decide) (by decide) (by decide)
     (by decide)).2.2⟩

end Pyroscope
